import Mathlib

/-!
# Intrusive hash index: a shallow embedding of `utils/ihash.c`

The table of `ihash.c` threads caller-owned records through a link field that
lives inside each record.  The embedding keeps that shape:

* a record is its address, a natural number, and `0` is the `NULL` pointer;
* `mem_key p` is what `DEREF(p, iht_keyOffset)` reads, the key embedded in the
  record at address `p`;
* `mem_next p` is what `*(void **) DEREF(p, iht_nextOffset)` reads, the link
  field of that record;
* `iht_table` is the calloc-ed bucket array, a list of chain heads.

Loops that walk a chain take a `fuel` bound on their number of iterations and
answer `Res.outOfFuel` when it is used up: a chain that loops back on itself
makes the C loop spin forever.  Accesses outside the bucket array, a `NULL`
dereference, a failed `ASSERT` and signed overflow of an `int` counter are
separate error results; no step is defined after one of them.

The headers are not among the sources.  `ABS` (`utils/magic.h`) is a parameter of
every function that computes a bucket; `ASSERT` (`utils/magic.h`) is taken from the
spec; the allocator of `utils/malloc.h` is taken to succeed (it is fatal when it
fails); the fields of the table are those `ihash.c` reads and writes.

The callback of `IHashEnum` is a function of a state of its own and of the table: it
may change both, as a C callback that reaches the table through a global does.  The
byte-accumulating hashes compute in 32-bit `int`, every result reduced by `wrapInt`;
`ABS32` is `ABS` as a conditional negation in that arithmetic.  A theorem that needs a
bucket inside the array asks that `ABS` give a non-negative value on the hashes of the
keys at hand, which `ABS32` does for every hash but `-2^31`.
-/

namespace IHash

/-- Outcome of running a piece of the C code. -/
inductive Res (α : Type) where
  | ok (a : α)
  | outOfBounds
  | nullDeref
  | assertFailed
  | undefinedArith
  | outOfFuel
  deriving DecidableEq

/-- Sequencing: the first error ends the computation. -/
def Res.bind {α β : Type} : Res α → (α → Res β) → Res β
  | .ok a, f => f a
  | .outOfBounds, _ => .outOfBounds
  | .nullDeref, _ => .nullDeref
  | .assertFailed, _ => .assertFailed
  | .undefinedArith, _ => .undefinedArith
  | .outOfFuel, _ => .outOfFuel

/-- Apply a function to the value of a successful run. -/
def Res.map {α β : Type} (f : α → β) (r : Res α) : Res β :=
  r.bind fun a => .ok (f a)

/-- Largest value of a C `int` (32 bits). -/
def INT_MAX : Int := 2147483647

/-- Smallest value of a C `int` (32 bits). -/
def INT_MIN : Int := -2147483648

/-- The ratio of entries to buckets at which the table is rebuilt
(`static int iHashResizeRatio = 3`). -/
def iHashResizeRatio : Int := 3

/-- The table header (declared in `ihash.h`; the fields are those `ihash.c` uses)
together with the part of the record memory the engine reaches through its two
offsets. -/
structure IHashTable (K : Type) where
  /-- bucket array: heads of the chains -/
  iht_table : List Nat
  iht_nBucketsInit : Int
  iht_nBuckets : Int
  iht_nEntries : Int
  iht_keyOffset : Int
  iht_nextOffset : Int
  iht_hashFn : K → Int
  iht_sameKeyFn : K → K → Bool
  /-- key field of the record at an address -/
  mem_key : Nat → K
  /-- link field of the record at an address -/
  mem_next : Nat → Nat

variable {K : Type}

/-- `IHashInit`: a zeroed bucket array of `nBuckets` slots and no entries.  The two
last arguments are the record memory at the time of the call. -/
def IHashInit (nBuckets keyOffset nextOffset : Int) (hashFn : K → Int)
    (sameKeyFn : K → K → Bool) (memKey : Nat → K) (memNext : Nat → Nat) : IHashTable K :=
  { iht_table := List.replicate nBuckets.toNat 0
    iht_nBucketsInit := nBuckets
    iht_nBuckets := nBuckets
    iht_nEntries := 0
    iht_keyOffset := keyOffset
    iht_nextOffset := nextOffset
    iht_hashFn := hashFn
    iht_sameKeyFn := sameKeyFn
    mem_key := memKey
    mem_next := memNext }

/-- `IHashClear`: a fresh zeroed bucket array of the initial size, no entries; the
records are not touched. -/
def IHashClear (t : IHashTable K) : IHashTable K :=
  { t with
    iht_table := List.replicate t.iht_nBucketsInit.toNat 0
    iht_nBuckets := t.iht_nBucketsInit
    iht_nEntries := 0 }

/-- `IHashEntries`. -/
def IHashEntries (t : IHashTable K) : Int := t.iht_nEntries

/-- The statement pair `hash = hashFn(key); bucket = ABS(hash) % nBuckets`, followed by
the bounds of the array access `iht_table[bucket]` that every caller but
`IHashLookUpNext` makes next.  `%` is C remainder (truncating).  `ABS` is a parameter:
the header `utils/magic.h` that defines it is not part of the sources. -/
def slotOf (ABS : Int → Int) (t : IHashTable K) (key : K) : Res Nat :=
  if t.iht_nBuckets = 0 then .undefinedArith
  else if 0 ≤ Int.tmod (ABS (t.iht_hashFn key)) t.iht_nBuckets ∧
      (Int.tmod (ABS (t.iht_hashFn key)) t.iht_nBuckets).toNat < t.iht_table.length then
    .ok (Int.tmod (ABS (t.iht_hashFn key)) t.iht_nBuckets).toNat
  else .outOfBounds

/-- The `for` loop shared by `IHashLookUp` and `IHashLookUpNext`: advance along the
links until `entry` is `NULL` or its key matches. -/
def lookUpLoop (t : IHashTable K) (key : K) : Nat → Nat → Res Nat
  | 0, entry =>
    if entry = 0 ∨ t.iht_sameKeyFn key (t.mem_key entry) = true then .ok entry
    else .outOfFuel
  | fuel + 1, entry =>
    if entry = 0 ∨ t.iht_sameKeyFn key (t.mem_key entry) = true then .ok entry
    else lookUpLoop t key fuel (t.mem_next entry)

/-- `IHashLookUp`: first record of the key's bucket chain whose key matches, or `0`. -/
def IHashLookUp (ABS : Int → Int) (fuel : Nat) (t : IHashTable K) (key : K) : Res Nat :=
  (slotOf ABS t key).bind fun bucket =>
    lookUpLoop t key fuel (t.iht_table.getD bucket 0)

/-- `IHashLookUpNext`: next record after `prevEntry` on its chain whose key matches
the key of `prevEntry`, or `0`.  The bucket is computed and never used. -/
def IHashLookUpNext (fuel : Nat) (t : IHashTable K) (prevEntry : Nat) : Res Nat :=
  if prevEntry = 0 then .nullDeref
  else if t.iht_nBuckets = 0 then .undefinedArith
  else lookUpLoop t (t.mem_key prevEntry) fuel (t.mem_next prevEntry)

/-- Inner loop of `iHashResize`: re-add the records of one old chain, reading each
link before the record is added again. -/
def resizeChain (add : IHashTable K → Nat → Res (IHashTable K)) :
    Nat → IHashTable K → Nat → Res (IHashTable K)
  | 0, t, entry => if entry = 0 then .ok t else .outOfFuel
  | fuel + 1, t, entry =>
    if entry = 0 then .ok t
    else (add t entry).bind fun t1 => resizeChain add fuel t1 (t.mem_next entry)

/-- Outer loop of `iHashResize`: `for(bucket=0; bucket<oldSize; bucket++)`, with
`remaining = oldSize - bucket`. -/
def resizeLoop (add : IHashTable K → Nat → Res (IHashTable K)) (fuel : Nat)
    (oldBuckets : List Nat) : Nat → Nat → IHashTable K → Res (IHashTable K)
  | 0, _, t => .ok t
  | remaining + 1, bucket, t =>
    match oldBuckets[bucket]? with
    | none => .outOfBounds
    | some entry =>
      (resizeChain add fuel t entry).bind fun t1 =>
        resizeLoop add fuel oldBuckets remaining (bucket + 1) t1

/-- The table `iHashResize` starts to fill: a zeroed bucket array of four times the
size (`newSize = oldSize*4`), no entries. -/
def growEmpty (t : IHashTable K) : IHashTable K :=
  { t with
    iht_table := List.replicate (t.iht_nBuckets * 4).toNat 0
    iht_nBuckets := t.iht_nBuckets * 4
    iht_nEntries := 0 }

/-- Body of `iHashResize`, with the `IHashAdd` it calls back as an argument. -/
def iHashResizeBody (add : IHashTable K → Nat → Res (IHashTable K)) (fuel : Nat)
    (t : IHashTable K) : Res (IHashTable K) :=
  if t.iht_nBuckets * 4 > INT_MAX ∨ t.iht_nBuckets * 4 < INT_MIN then .undefinedArith
  else resizeLoop add fuel t.iht_table t.iht_nBuckets.toNat 0 (growEmpty t)

/-- The table after the three assignments of `IHashAdd` that push `entry` on the
front of the chain of `bucket` and count it. -/
def pushEntry (t : IHashTable K) (bucket entry : Nat) : IHashTable K :=
  { t with
    mem_next := fun p => if p = entry then t.iht_table.getD bucket 0 else t.mem_next p
    iht_table := t.iht_table.set bucket entry
    iht_nEntries := t.iht_nEntries + 1 }

/-- `IHashAdd`.  `fuel` bounds both the nesting of `IHashAdd` / `iHashResize` calls and
the iterations of each chain walk of a rebuild. -/
def IHashAdd (ABS : Int → Int) : Nat → IHashTable K → Nat → Res (IHashTable K)
  | fuel, t, entry =>
    if entry = 0 then .nullDeref
    else (slotOf ABS t (t.mem_key entry)).bind fun bucket =>
      if t.iht_nEntries + 1 > INT_MAX then .undefinedArith
      else if Int.tdiv (t.iht_nEntries + 1) t.iht_nBuckets ≥ iHashResizeRatio then
        match fuel with
        | 0 => .outOfFuel
        | fuel + 1 => iHashResizeBody (IHashAdd ABS fuel) fuel (pushEntry t bucket entry)
      else .ok (pushEntry t bucket entry)

/-- `iHashResize`: quadruple the bucket array and add every record back. -/
def iHashResize (ABS : Int → Int) (fuel : Nat) (t : IHashTable K) : Res (IHashTable K) :=
  iHashResizeBody (IHashAdd ABS fuel) fuel t

/-- A place that holds a record pointer: a slot of the bucket array or the link
field of a record (the `void **pp` of `IHashDelete`). -/
inductive Loc where
  | slot (bucket : Nat)
  | link (rec : Nat)
  deriving DecidableEq

/-- Read through a pointer to a pointer: `*pp`. -/
def readLoc (t : IHashTable K) : Loc → Nat
  | .slot b => t.iht_table.getD b 0
  | .link p => t.mem_next p

/-- Write through a pointer to a pointer: `*pp = v`. -/
def writeLoc (t : IHashTable K) (v : Nat) : Loc → IHashTable K
  | .slot b => { t with iht_table := t.iht_table.set b v }
  | .link p => { t with mem_next := fun q => if q = p then v else t.mem_next q }

/-- The `for` loop of `IHashDelete`: advance `pp` until `*pp` is `NULL` or `entry`. -/
def deleteLoop (t : IHashTable K) (entry : Nat) : Nat → Loc → Res Loc
  | 0, pp => if readLoc t pp = 0 ∨ readLoc t pp = entry then .ok pp else .outOfFuel
  | fuel + 1, pp =>
    if readLoc t pp = 0 ∨ readLoc t pp = entry then .ok pp
    else deleteLoop t entry fuel (.link (readLoc t pp))

/-- Modelled from the spec: `ASSERT` is defined in `utils/magic.h`, a header that is
not among the sources.  The spec has a failed assertion end the process ("fails
fatally"): the run goes on only when the asserted pointer is not `NULL`. -/
def ASSERT {α : Type} (p : Nat) (rest : Res α) : Res α :=
  if p = 0 then .assertFailed else rest

/-- `IHashDelete`: unlink the node identical to `entry` from the chain of the bucket
computed from its key; `ASSERT(*pp)` fails when the walk ends on `NULL`. -/
def IHashDelete (ABS : Int → Int) (fuel : Nat) (t : IHashTable K) (entry : Nat) :
    Res (IHashTable K) :=
  if entry = 0 then .nullDeref
  else (slotOf ABS t (t.mem_key entry)).bind fun bucket =>
    (deleteLoop t entry fuel (.slot bucket)).bind fun pp =>
      ASSERT (readLoc t pp)
        (if t.iht_nEntries - 1 < INT_MIN then .undefinedArith
         else .ok { writeLoc t (t.mem_next entry) pp with
                    iht_nEntries := t.iht_nEntries - 1 })

/-! ## Specification vocabulary -/

/-- The chain that starts at pointer `p` is the list `l` of records, front first:
following the links from `p` meets exactly the members of `l`, none of them `NULL`,
and then `NULL`. -/
def IsChain (next : Nat → Nat) : Nat → List Nat → Prop
  | p, [] => p = 0
  | p, a :: l => p = a ∧ a ≠ 0 ∧ IsChain next (next a) l

/-- Walking the links from `p` meets the record `r`. -/
inductive OnChain (next : Nat → Nat) (r : Nat) : Nat → Prop where
  | head : r ≠ 0 → OnChain next r r
  | step {p : Nat} : p ≠ 0 → OnChain next r (next p) → OnChain next r p

/-- The record `r` is indexed: it is met on the chain of some bucket. -/
def Indexed (t : IHashTable K) (r : Nat) : Prop :=
  ∃ b, b < t.iht_table.length ∧ OnChain t.mem_next r (t.iht_table.getD b 0)

/-- The bucket chains of `t` are the lists `cs`, one per slot, and no record occurs
twice in them. -/
structure Rep (t : IHashTable K) (cs : List (List Nat)) : Prop where
  length_eq : cs.length = t.iht_table.length
  chain : ∀ b l, cs[b]? = some l → IsChain t.mem_next (t.iht_table.getD b 0) l
  nodup : cs.flatten.Nodup

/-- Structural invariant of a table with bucket chains `cs`. -/
structure Inv (t : IHashTable K) (cs : List (List Nat)) : Prop where
  rep : Rep t cs
  nBuckets_eq : t.iht_nBuckets = t.iht_table.length
  nBuckets_pos : 0 < t.iht_nBuckets
  init_pos : 0 < t.iht_nBucketsInit
  count : t.iht_nEntries = cs.flatten.length
  load : t.iht_nEntries < iHashResizeRatio * t.iht_nBuckets

/-- Every record of chain `b` has a key whose bucket is `b`. -/
def Placed (ABS : Int → Int) (t : IHashTable K) (cs : List (List Nat)) : Prop :=
  ∀ b l, cs[b]? = some l → ∀ r ∈ l, slotOf ABS t (t.mem_key r) = .ok b

/-- A call of the public interface that changes the table. -/
inductive Call where
  | add (r : Nat)
  | delete (r : Nat)
  | clear
  deriving DecidableEq

/-- `Run ABS keysFixed n hashFn sameKeyFn calls t`: the table `t` is what a caller has
after `IHashInit` with `n > 0` buckets and the calls `calls`, oldest first, each of which
returned.  A record is added only while it is not indexed.  Between calls the caller
may rewrite the memory of its records, except the link field of an indexed record
and, when `keysFixed` is set, the key of an indexed record. -/
inductive Run (ABS : Int → Int) (keysFixed : Bool) (n : Int) (hashFn : K → Int)
    (sameKeyFn : K → K → Bool) : List Call → IHashTable K → Prop where
  | init (keyOffset nextOffset : Int) (memKey : Nat → K) (memNext : Nat → Nat) :
      0 < n →
      Run ABS keysFixed n hashFn sameKeyFn []
        (IHashInit n keyOffset nextOffset hashFn sameKeyFn memKey memNext)
  | add {calls : List Call} {t t1 : IHashTable K} (fuel r : Nat) :
      Run ABS keysFixed n hashFn sameKeyFn calls t →
      ¬ Indexed t r →
      IHashAdd ABS fuel t r = .ok t1 →
      Run ABS keysFixed n hashFn sameKeyFn (calls ++ [Call.add r]) t1
  | delete {calls : List Call} {t t1 : IHashTable K} (fuel r : Nat) :
      Run ABS keysFixed n hashFn sameKeyFn calls t →
      IHashDelete ABS fuel t r = .ok t1 →
      Run ABS keysFixed n hashFn sameKeyFn (calls ++ [Call.delete r]) t1
  | clear {calls : List Call} {t : IHashTable K} :
      Run ABS keysFixed n hashFn sameKeyFn calls t →
      Run ABS keysFixed n hashFn sameKeyFn (calls ++ [Call.clear]) (IHashClear t)
  | client {calls : List Call} {t : IHashTable K} (memKey : Nat → K) (memNext : Nat → Nat) :
      Run ABS keysFixed n hashFn sameKeyFn calls t →
      (∀ p, Indexed t p → memNext p = t.mem_next p) →
      (keysFixed = true → ∀ p, Indexed t p → memKey p = t.mem_key p) →
      Run ABS keysFixed n hashFn sameKeyFn calls
        { t with mem_key := memKey, mem_next := memNext }

/-- The bucket index `ABS(hashFn(key)) % nBuckets` as a natural number; it is the
array index used whenever `slotOf` succeeds. -/
def slotNat (ABS : Int → Int) (t : IHashTable K) (key : K) : Nat :=
  (Int.tmod (ABS (t.iht_hashFn key)) t.iht_nBuckets).toNat

/-- The chains after the records of `l` are pushed, in the order of `l`, each on the
front of the chain `slot` assigns to it. -/
def pushAll (slot : Nat → Nat) (cs : List (List Nat)) (l : List Nat) : List (List Nat) :=
  l.foldl (fun acc a => acc.set (slot a) (a :: acc.getD (slot a) [])) cs

/-- Nothing of the table changed but the bucket heads, the links and the counter, and
the bucket array kept its length. -/
structure Frame (t t1 : IHashTable K) : Prop where
  nBucketsInit : t1.iht_nBucketsInit = t.iht_nBucketsInit
  nBuckets : t1.iht_nBuckets = t.iht_nBuckets
  keyOffset : t1.iht_keyOffset = t.iht_keyOffset
  nextOffset : t1.iht_nextOffset = t.iht_nextOffset
  hashFn : t1.iht_hashFn = t.iht_hashFn
  sameKeyFn : t1.iht_sameKeyFn = t.iht_sameKeyFn
  mem_key : t1.mem_key = t.mem_key
  length : t1.iht_table.length = t.iht_table.length

/-- What holds of a table while `iHashResize` adds the records back: its chains are
`cs`, every record sits in the bucket of its key, and the counters are right. -/
structure Built (ABS : Int → Int) (t : IHashTable K) (cs : List (List Nat)) : Prop where
  rep : Rep t cs
  placed : Placed ABS t cs
  nBuckets_eq : t.iht_nBuckets = t.iht_table.length
  nBuckets_pos : 0 < t.iht_nBuckets
  count : t.iht_nEntries = cs.flatten.length

/-- The configuration of the table and the keys of the records are the same. -/
structure SameConfig (t t1 : IHashTable K) : Prop where
  nBucketsInit : t1.iht_nBucketsInit = t.iht_nBucketsInit
  keyOffset : t1.iht_keyOffset = t.iht_keyOffset
  nextOffset : t1.iht_nextOffset = t.iht_nextOffset
  hashFn : t1.iht_hashFn = t.iht_hashFn
  sameKeyFn : t1.iht_sameKeyFn = t.iht_sameKeyFn
  mem_key : t1.mem_key = t.mem_key

/-- The chains of the table rebuilt from chains `cs`: every record, bucket after
bucket and front to back, pushed on the chain of its key in the larger table. -/
def rebuilt (ABS : Int → Int) (t : IHashTable K) (cs : List (List Nat)) : List (List Nat) :=
  pushAll (fun a => slotNat ABS (growEmpty t) (t.mem_key a))
    (List.replicate (t.iht_nBuckets * 4).toNat []) cs.flatten

/-- The chains after `IHashAdd` of record `e` to a table with chains `cs`: `e` in front
of the chain of its key and, when the load reaches the ratio, the whole rebuilt. -/
def afterAdd (ABS : Int → Int) (t : IHashTable K) (cs : List (List Nat)) (e : Nat) :
    List (List Nat) :=
  if iHashResizeRatio ≤ Int.tdiv (t.iht_nEntries + 1) t.iht_nBuckets then
    rebuilt ABS (pushEntry t (slotNat ABS t (t.mem_key e)) e)
      (cs.set (slotNat ABS t (t.mem_key e)) (e :: cs.getD (slotNat ABS t (t.mem_key e)) []))
  else cs.set (slotNat ABS t (t.mem_key e)) (e :: cs.getD (slotNat ABS t (t.mem_key e)) [])

/-- The place `pp` of `IHashDelete` after its loop walked over the records `pre`. -/
def locAfter : Loc → List Nat → Loc
  | pp, [] => pp
  | _, a :: pre => locAfter (.link a) pre

/-- The table after `IHashDelete` unlinked `r`, found in bucket `b` behind the records
`pre`: the write through `pp` and the decrement of the counter. -/
def unlinked (t : IHashTable K) (b : Nat) (pre : List Nat) (r : Nat) : IHashTable K :=
  { writeLoc t (t.mem_next r) (locAfter (.slot b) pre) with
    iht_nEntries := t.iht_nEntries - 1 }

/-- Modelled from the spec: the `ABS` of `utils/magic.h`, a header that is not among
the sources.  The spec has a negative hash normalised to its absolute value; this is
that value, on the mathematical integers. -/
def specABS (x : Int) : Int := if 0 ≤ x then x else -x

/-- Reduce an integer to the value a 32-bit `int` holds after wrapping. -/
def wrapInt (x : Int) : Int := (x + 2147483648) % 4294967296 - 2147483648

/-- `IHashWordKeyHash`: the 32-bit word itself. -/
def IHashWordKeyHash (key : Int) : Int := key

/-- `IHashWordKeyEq`. -/
def IHashWordKeyEq (key1 key2 : Int) : Bool := decide (key1 = key2)

/-- The text of a C string: the `char` values in front of the first `0` (or up to
the end of the list, where a terminator is understood). -/
def cString : List Int → List Int
  | [] => []
  | c :: s => if c = 0 then [] else c :: cString s

/-- The loop `while (*s != 0) i = (i*10) + (*s++ - '0')` in 32-bit `int`. -/
def stringHashLoop : List Int → Int → Int
  | [], i => i
  | c :: s, i => if c = 0 then i else stringHashLoop s (wrapInt (i * 10 + (c - 48)))

/-- `IHashStringKeyHash`: the key field is the text itself. -/
def IHashStringKeyHash (key : List Int) : Int :=
  if stringHashLoop key 0 < 0 then wrapInt (-(stringHashLoop key 0))
  else stringHashLoop key 0

/-- `IHashStringKeyEq`: `strcmp(key1, key2) == 0`. -/
def IHashStringKeyEq (key1 key2 : List Int) : Bool := decide (cString key1 = cString key2)

/-- Whether a run returned. -/
def Res.isOk {α : Type} : Res α → Bool
  | .ok _ => true
  | _ => false

/-- The value of a run that returned, `d` otherwise. -/
def Res.getD {α : Type} (d : α) : Res α → α
  | .ok a => a
  | _ => d

/-- `IHashAdd` of the records `rs`, one call after the other. -/
def addAll (ABS : Int → Int) (fuel : Nat) : List Nat → IHashTable K → Res (IHashTable K)
  | [], t => .ok t
  | r :: rs, t => (IHashAdd ABS fuel t r).bind (addAll ABS fuel rs)

/-- A fresh word-key table of `n` buckets over records that sit at the addresses
`1, 2, 3, ...`, the record at address `p` holding the key `p`. -/
def wordTable (n : Int) : IHashTable Int :=
  IHashInit n 0 4 IHashWordKeyHash IHashWordKeyEq (fun p => (p : Int)) (fun _ => 0)

/-- The call is an `IHashAdd`. -/
def Call.isAdd : Call → Bool
  | .add _ => true
  | _ => false

/-- The call is an `IHashDelete`. -/
def Call.isDelete : Call → Bool
  | .delete _ => true
  | _ => false

/-- A fresh word-key table of `n` buckets over records that all hold the key 7. -/
def sameKeyTable (n : Int) : IHashTable Int :=
  IHashInit n 0 4 IHashWordKeyHash IHashWordKeyEq (fun _ => 7) (fun _ => 0)

/-- The multi-match scan continued from a match `e`: `e`, then what repeated
`IHashLookUpNext` calls return, up to the call that returns `NULL`.  `steps` bounds the
number of calls. -/
def scanNext (fuel : Nat) (t : IHashTable K) : Nat → Nat → Res (List Nat)
  | 0, e => if e = 0 then .ok [] else .outOfFuel
  | steps + 1, e =>
    if e = 0 then .ok []
    else (IHashLookUpNext fuel t e).bind fun e1 =>
      (scanNext fuel t steps e1).map fun found => e :: found

/-- The multi-match scan for key `k`: `IHashLookUp`, then `IHashLookUpNext` on each
result until `NULL` comes back; the records returned, in order. -/
def scan (ABS : Int → Int) (fuel : Nat) (t : IHashTable K) (k : K) : Res (List Nat) :=
  (IHashLookUp ABS fuel t k).bind (scanNext fuel t fuel)

/-- What a scan that compares against key `ke` returns on a chain `l`: the first
record whose key matches, and from there on the matches of the key of the record
returned last. -/
def scanChain (t : IHashTable K) : K → List Nat → List Nat
  | _, [] => []
  | ke, a :: l =>
    if t.iht_sameKeyFn ke (t.mem_key a) = true then a :: scanChain t (t.mem_key a) l
    else scanChain t ke l

/-- A fresh string-key table of `n` buckets over records that all hold the text "x". -/
def stringTable (n : Int) : IHashTable (List Int) :=
  IHashInit n 0 8 IHashStringKeyHash IHashStringKeyEq (fun _ => [120]) (fun _ => 0)

/-- A comparison that is not transitive: 0 matches every key. -/
def looseEq (a b : Int) : Bool := decide (a = 0 ∨ b = 0 ∨ a = b)

/-- A fresh table of `n` buckets with a constant hash and the comparison `looseEq`,
the record at address `p` holding the key `p`. -/
def looseTable (n : Int) : IHashTable Int :=
  IHashInit n 0 4 (fun _ => 0) looseEq (fun p => (p : Int)) (fun _ => 0)

/-- The records added by the calls, oldest first. -/
def addsOf : List Call → List Nat
  | [] => []
  | .add r :: calls => r :: addsOf calls
  | _ :: calls => addsOf calls

/-- Modelled from the spec: the `ABS` of `utils/magic.h`, a header that is not among
the sources, as a conditional negation carried out in 32-bit `int` arithmetic: a
non-negative value is kept, a negative one is negated, and the negation wraps. -/
def ABS32 (x : Int) : Int := if 0 ≤ x then x else wrapInt (-x)

/-- `IHashStringPKeyHash`: the key field holds a pointer to the text; `text p` is the
string stored at address `p`.  Same loop and same final negation as
`IHashStringKeyHash`. -/
def IHashStringPKeyHash (text : Nat → List Int) (key : Nat) : Int :=
  if stringHashLoop (text key) 0 < 0 then wrapInt (-(stringHashLoop (text key) 0))
  else stringHashLoop (text key) 0

/-- `IHashStringPKeyEq`: `strcmp(*key1, *key2) == 0`. -/
def IHashStringPKeyEq (text : Nat → List Int) (key1 key2 : Nat) : Bool :=
  decide (cString (text key1) = cString (text key2))

/-- The loop `for(i=0;i<n;i++) hash = (hash*10) + (s[i] - '0')` of `iHash` in 32-bit
`int`; `s i` is the `char` at offset `i` of the key and `remaining = n - i`. -/
def iHashLoop (s : Nat → Int) : Nat → Nat → Int → Int
  | 0, _, hash => hash
  | remaining + 1, i, hash => iHashLoop s remaining (i + 1) (wrapInt (hash * 10 + (s i - 48)))

/-- `iHash`: hash for an `n`-byte field. -/
def iHash (key : Nat → Int) (n : Int) : Int :=
  if iHashLoop key n.toNat 0 0 < 0 then wrapInt (-(iHashLoop key n.toNat 0 0))
  else iHashLoop key n.toNat 0 0

/-- `IHash4WordKeyHash`: `iHash(keyp, 4*sizeof(int))`, with 4-byte `int`. -/
def IHash4WordKeyHash (keyp : Nat → Int) : Int := iHash keyp (4 * 4)

/-- `IHash4WordKeyEq`: `memcmp(key1p, key2p, 4*sizeof(int)) == 0`, the first 16 bytes
agree. -/
def IHash4WordKeyEq (key1p key2p : Nat → Int) : Bool :=
  decide ((List.range 16).map key1p = (List.range 16).map key2p)

/-- Inner loop of `IHashEnum`: call `clientFunc` on `entry`, then follow the link of
`entry` as the memory holds it after the call.  `clientFunc` works on a state of its
own and on the table. -/
def enumChain {σ : Type} (clientFunc : σ → IHashTable K → Nat → Res (σ × IHashTable K)) :
    Nat → σ → IHashTable K → Nat → Res (σ × IHashTable K)
  | 0, s, t, entry => if entry = 0 then .ok (s, t) else .outOfFuel
  | fuel + 1, s, t, entry =>
    if entry = 0 then .ok (s, t)
    else (clientFunc s t entry).bind fun st =>
      enumChain clientFunc fuel st.1 st.2 (st.2.mem_next entry)

/-- Outer loop of `IHashEnum`: `for(bucket=0; bucket<table->iht_nBuckets; bucket++)`,
the bound and the bucket head read from the table as it is at that time. -/
def enumLoop {σ : Type} (clientFunc : σ → IHashTable K → Nat → Res (σ × IHashTable K))
    (fuel : Nat) : Nat → Nat → σ → IHashTable K → Res (σ × IHashTable K)
  | 0, bucket, s, t => if (bucket : Int) < t.iht_nBuckets then .outOfFuel else .ok (s, t)
  | steps + 1, bucket, s, t =>
    if (bucket : Int) < t.iht_nBuckets then
      match t.iht_table[bucket]? with
      | none => .outOfBounds
      | some entry =>
        (enumChain clientFunc fuel s t entry).bind fun st =>
          enumLoop clientFunc fuel steps (bucket + 1) st.1 st.2
    else .ok (s, t)

/-- `IHashEnum`: call `clientFunc` on each entry, bucket after bucket.  `fuel` bounds
the number of buckets walked and the length of each chain walk. -/
def IHashEnum {σ : Type} (clientFunc : σ → IHashTable K → Nat → Res (σ × IHashTable K))
    (fuel : Nat) (s : σ) (t : IHashTable K) : Res (σ × IHashTable K) :=
  enumLoop clientFunc fuel fuel 0 s t

/-- A `clientFunc` that notes the record it is called with at the end of its log and,
when `del` selects that record, deletes it with `IHashDelete`. -/
def deleteCurrent (ABS : Int → Int) (fuel : Nat) (del : Nat → Bool) (log : List Nat)
    (t : IHashTable K) (entry : Nat) : Res (List Nat × IHashTable K) :=
  if del entry = true then (IHashDelete ABS fuel t entry).map fun t1 => (log ++ [entry], t1)
  else .ok (log ++ [entry], t)

/-- A `clientFunc` that leaves the table alone: it only updates its own state by `f`. -/
def readOnly {σ : Type} (f : σ → IHashTable K → Nat → σ) (s : σ) (t : IHashTable K)
    (entry : Nat) : Res (σ × IHashTable K) :=
  .ok (f s t entry, t)

/-- The 16-byte key whose bytes are the `char` values `bytes`, zero bytes after them. -/
def blockKey (bytes : List Int) (i : Nat) : Int := bytes.getD i 0

/-- A fresh word-key table of `n` buckets over records that all hold the key
`INT_MIN`, the word `0x80000000`. -/
def minKeyTable (n : Int) : IHashTable Int :=
  IHashInit n 0 4 IHashWordKeyHash IHashWordKeyEq (fun _ => INT_MIN) (fun _ => 0)

/-- The calls `calls`, one after the other, each with the given fuel. -/
def runCalls (ABS : Int → Int) (fuel : Nat) : List Call → IHashTable K → Res (IHashTable K)
  | [], t => .ok t
  | .add r :: calls, t => (IHashAdd ABS fuel t r).bind (runCalls ABS fuel calls)
  | .delete r :: calls, t => (IHashDelete ABS fuel t r).bind (runCalls ABS fuel calls)
  | .clear :: calls, t => runCalls ABS fuel calls (IHashClear t)

/-! ## Basic facts -/

@[simp] theorem Res.bind_ok {α β : Type} (a : α) (f : α → Res β) :
    (Res.ok a).bind f = f a := rfl

theorem Res.bind_eq_ok {α β : Type} {r : Res α} {f : α → Res β} {b : β} :
    r.bind f = .ok b ↔ ∃ a, r = .ok a ∧ f a = .ok b := by
  cases r <;> simp [Res.bind]

theorem slotOf_eq_ok {ABS : Int → Int} {t : IHashTable K} {key : K} {b : Nat} :
    slotOf ABS t key = .ok b ↔
      t.iht_nBuckets ≠ 0 ∧ 0 ≤ Int.tmod (ABS (t.iht_hashFn key)) t.iht_nBuckets ∧
      b < t.iht_table.length ∧ b = (Int.tmod (ABS (t.iht_hashFn key)) t.iht_nBuckets).toNat := by
  unfold slotOf
  split
  · simp_all
  · split
    · constructor
      · intro h
        injection h with h
        subst h
        simp_all
      · rintro ⟨_, _, _, rfl⟩
        rfl
    · constructor
      · intro h
        cases h
      · rintro ⟨_, h1, h2, rfl⟩
        simp_all

theorem slotOf_lt {ABS : Int → Int} {t : IHashTable K} {key : K} {b : Nat}
    (h : slotOf ABS t key = .ok b) : b < t.iht_table.length :=
  (slotOf_eq_ok.1 h).2.2.1

theorem IsChain.congr {next next1 : Nat → Nat} :
    ∀ {l : List Nat} {p : Nat}, (∀ a ∈ l, next1 a = next a) →
      IsChain next p l → IsChain next1 p l
  | [], _, _, h => h
  | a :: l, p, hag, h => by
    obtain ⟨h1, h2, h3⟩ := h
    refine ⟨h1, h2, ?_⟩
    rw [hag a (List.mem_cons_self _ _)]
    exact IsChain.congr (fun x hx => hag x (List.mem_cons_of_mem _ hx)) h3

theorem IsChain.unique {next : Nat → Nat} :
    ∀ {l l1 : List Nat} {p : Nat}, IsChain next p l → IsChain next p l1 → l = l1
  | [], [], _, _, _ => rfl
  | [], b :: l1, p, h, h1 => by
    obtain ⟨h2, h3, _⟩ := h1
    exact absurd (h2.symm.trans h) h3
  | a :: l, [], p, h, h1 => by
    obtain ⟨h2, h3, _⟩ := h
    exact absurd (h2.symm.trans h1) h3
  | a :: l, b :: l1, p, h, h1 => by
    obtain ⟨h2, _, h4⟩ := h
    obtain ⟨h5, _, h7⟩ := h1
    have hab : a = b := h2.symm.trans h5
    subst hab
    rw [IsChain.unique h4 h7]

theorem IsChain.ne_zero {next : Nat → Nat} :
    ∀ {l : List Nat} {p : Nat}, IsChain next p l → ∀ a ∈ l, a ≠ 0
  | [], _, _, a, ha => by cases ha
  | b :: l, p, h, a, ha => by
    obtain ⟨_, h2, h3⟩ := h
    rcases List.mem_cons.1 ha with rfl | ha
    · exact h2
    · exact IsChain.ne_zero h3 a ha

theorem IsChain.onChain_iff {next : Nat → Nat} {r : Nat} :
    ∀ {l : List Nat} {p : Nat}, IsChain next p l → (OnChain next r p ↔ r ∈ l)
  | [], p, h => by
    have hp : p = 0 := h
    constructor
    · intro hc
      cases hc with
      | head h0 => exact absurd hp h0
      | step h0 _ => exact absurd hp h0
    · intro hm
      cases hm
  | a :: l, p, h => by
    obtain ⟨h1, h2, h3⟩ := h
    subst h1
    constructor
    · intro hc
      cases hc with
      | head _ => exact List.mem_cons_self _ _
      | step _ hs => exact List.mem_cons_of_mem _ ((IsChain.onChain_iff h3).1 hs)
    · intro hm
      rcases List.mem_cons.1 hm with rfl | hm
      · exact OnChain.head h2
      · exact OnChain.step h2 ((IsChain.onChain_iff h3).2 hm)

/-! ## Lists of chains -/

theorem mem_flatten_iff_getElem? {cs : List (List Nat)} {r : Nat} :
    r ∈ cs.flatten ↔ ∃ (b : Nat) (l : List Nat), cs[b]? = some l ∧ r ∈ l := by
  rw [List.mem_flatten]
  constructor
  · rintro ⟨l, hl, hr⟩
    obtain ⟨b, hb⟩ := List.mem_iff_getElem?.1 hl
    exact ⟨b, l, hb, hr⟩
  · rintro ⟨b, l, hb, hr⟩
    exact ⟨l, List.mem_iff_getElem?.2 ⟨b, hb⟩, hr⟩

/-- Replacing chain `b` by a list with one more member adds that member to the whole. -/
theorem flatten_set_perm {x : Nat} {l l1 : List Nat} :
    ∀ {cs : List (List Nat)} {b : Nat}, cs[b]? = some l → l1.Perm (x :: l) →
      (cs.set b l1).flatten.Perm (x :: cs.flatten)
  | [], b, h, _ => by simp at h
  | c :: cs, 0, h, hp => by
    simp at h
    subst h
    simp only [List.set_cons_zero, List.flatten_cons]
    exact (hp.append_right _).trans (by simp)
  | c :: cs, b + 1, h, hp => by
    simp at h
    simp only [List.set_cons_succ, List.flatten_cons]
    have ih : (cs.set b l1).flatten.Perm (x :: cs.flatten) := flatten_set_perm h hp
    exact (ih.append_left c).trans (List.perm_middle)

theorem set_getElem?_self {α : Type} :
    ∀ {cs : List α} {b : Nat} {l : α}, cs[b]? = some l → cs.set b l = cs
  | [], _, _, _ => rfl
  | c :: cs, 0, l, h => by
    simp at h
    subst h
    rfl
  | c :: cs, b + 1, l, h => by
    simp at h
    simp only [List.set_cons_succ]
    rw [set_getElem?_self h]

/-! ## Pushing a record on a chain -/

theorem getD_set_eq {l : List Nat} {b : Nat} (v d : Nat) (h : b < l.length) :
    (l.set b v).getD b d = v := by
  simp [List.getD_eq_getElem?_getD, List.getElem?_set, h]

theorem getD_set_ne {l : List Nat} {b b1 : Nat} (v d : Nat) (h : b ≠ b1) :
    (l.set b v).getD b1 d = l.getD b1 d := by
  simp [List.getD_eq_getElem?_getD, List.getElem?_set, h]

theorem lt_of_getElem?_eq_some {α : Type} {cs : List α} {b : Nat} {l : α}
    (h : cs[b]? = some l) : b < cs.length := by
  by_contra hn
  rw [List.getElem?_eq_none (Nat.le_of_not_lt hn)] at h
  cases h

theorem Rep.push_rep {t : IHashTable K} {cs : List (List Nat)} {b e : Nat} {l : List Nat}
    (h : Rep t cs) (he : e ≠ 0) (hne : e ∉ cs.flatten) (hb : cs[b]? = some l) :
    Rep (pushEntry t b e) (cs.set b (e :: l)) := by
  have hblt : b < cs.length := lt_of_getElem?_eq_some hb
  have hbt : b < t.iht_table.length := h.length_eq ▸ hblt
  have hcongr : ∀ (b1 : Nat) (l1 : List Nat), cs[b1]? = some l1 →
      ∀ a ∈ l1, (pushEntry t b e).mem_next a = t.mem_next a := by
    intro b1 l1 hb1 a ha
    have hae : a ≠ e := by
      rintro rfl
      exact hne (mem_flatten_iff_getElem?.2 ⟨b1, l1, hb1, ha⟩)
    simp [pushEntry, hae]
  refine ⟨?_, ?_, ?_⟩
  · simp [pushEntry, h.length_eq]
  · intro b1 l1 hl1
    rw [List.getElem?_set] at hl1
    by_cases hbb : b = b1
    · subst hbb
      simp [hblt] at hl1
      subst hl1
      refine ⟨?_, he, ?_⟩
      · exact getD_set_eq _ _ hbt
      · have h1 : (pushEntry t b e).mem_next e = t.iht_table.getD b 0 := by
          simp [pushEntry]
        rw [h1]
        exact IsChain.congr (hcongr b l hb) (h.chain b l hb)
    · simp [hbb] at hl1
      have h1 : (pushEntry t b e).iht_table.getD b1 0 = t.iht_table.getD b1 0 :=
        getD_set_ne _ _ hbb
      rw [h1]
      exact IsChain.congr (hcongr b1 l1 hl1) (h.chain b1 l1 hl1)
  · exact (flatten_set_perm hb (List.Perm.refl _)).nodup_iff.2
      (List.nodup_cons.2 ⟨hne, h.nodup⟩)

/-! ## `IHashAdd` -/

theorem IHashAdd_unfold (ABS : Int → Int) (fuel : Nat) (t : IHashTable K) (e : Nat) :
    IHashAdd ABS fuel t e =
      if e = 0 then .nullDeref
      else (slotOf ABS t (t.mem_key e)).bind fun bucket =>
        if t.iht_nEntries + 1 > INT_MAX then .undefinedArith
        else if Int.tdiv (t.iht_nEntries + 1) t.iht_nBuckets ≥ iHashResizeRatio then
          match fuel with
          | 0 => .outOfFuel
          | fuel + 1 => iHashResize ABS fuel (pushEntry t bucket e)
        else .ok (pushEntry t bucket e) := by
  cases fuel <;> rfl

theorem slotOf_eq_slotNat {ABS : Int → Int} {t : IHashTable K} {key : K} {b : Nat}
    (h : slotOf ABS t key = .ok b) : b = slotNat ABS t key :=
  (slotOf_eq_ok.1 h).2.2.2

theorem tdiv_lt_ratio {a b : Int} (ha : 0 ≤ a) (hb : 0 < b) :
    Int.tdiv a b < iHashResizeRatio ↔ a < iHashResizeRatio * b := by
  rw [Int.tdiv_eq_ediv ha (le_of_lt hb), Int.ediv_lt_iff_lt_mul hb]

/-- What is known of an `IHashAdd` that returned. -/
theorem IHashAdd_ok {ABS : Int → Int} {fuel : Nat} {t t1 : IHashTable K} {e : Nat}
    (h : IHashAdd ABS fuel t e = .ok t1) :
    e ≠ 0 ∧ slotOf ABS t (t.mem_key e) = .ok (slotNat ABS t (t.mem_key e)) ∧
    t.iht_nEntries + 1 ≤ INT_MAX ∧
    ((Int.tdiv (t.iht_nEntries + 1) t.iht_nBuckets < iHashResizeRatio ∧
        t1 = pushEntry t (slotNat ABS t (t.mem_key e)) e) ∨
     (iHashResizeRatio ≤ Int.tdiv (t.iht_nEntries + 1) t.iht_nBuckets ∧
        ∃ f, fuel = f + 1 ∧
          iHashResize ABS f (pushEntry t (slotNat ABS t (t.mem_key e)) e) = .ok t1)) := by
  rw [IHashAdd_unfold] at h
  by_cases he : e = 0
  · simp [he] at h
  · rw [if_neg he] at h
    obtain ⟨b, hb, h⟩ := Res.bind_eq_ok.1 h
    have hbs := slotOf_eq_slotNat hb
    subst hbs
    refine ⟨he, hb, ?_⟩
    by_cases hov : t.iht_nEntries + 1 > INT_MAX
    · simp [hov] at h
    · rw [if_neg hov] at h
      refine ⟨not_lt.1 hov, ?_⟩
      by_cases htr : Int.tdiv (t.iht_nEntries + 1) t.iht_nBuckets ≥ iHashResizeRatio
      · rw [if_pos htr] at h
        right
        refine ⟨htr, ?_⟩
        cases fuel with
        | zero => simp at h
        | succ f => exact ⟨f, rfl, h⟩
      · rw [if_neg htr] at h
        left
        injection h with h
        exact ⟨not_le.1 htr, h.symm⟩

theorem Frame.frame_refl (t : IHashTable K) : Frame t t :=
  ⟨rfl, rfl, rfl, rfl, rfl, rfl, rfl, rfl⟩

theorem Frame.frame_trans {t t1 t2 : IHashTable K} (h : Frame t t1) (h1 : Frame t1 t2) :
    Frame t t2 :=
  ⟨h1.nBucketsInit.trans h.nBucketsInit, h1.nBuckets.trans h.nBuckets,
   h1.keyOffset.trans h.keyOffset, h1.nextOffset.trans h.nextOffset,
   h1.hashFn.trans h.hashFn, h1.sameKeyFn.trans h.sameKeyFn,
   h1.mem_key.trans h.mem_key, h1.length.trans h.length⟩

theorem Frame.of_pushEntry (t : IHashTable K) (b e : Nat) : Frame t (pushEntry t b e) :=
  ⟨rfl, rfl, rfl, rfl, rfl, rfl, rfl, by simp [IHash.pushEntry]⟩

theorem Frame.slotOf_eq {ABS : Int → Int} {t t1 : IHashTable K} (h : Frame t t1) (r : Nat) :
    slotOf ABS t1 (t1.mem_key r) = slotOf ABS t (t.mem_key r) := by
  unfold IHash.slotOf
  rw [h.nBuckets, h.hashFn, h.mem_key, h.length]

theorem Frame.slotNat_eq {ABS : Int → Int} {t t1 : IHashTable K} (h : Frame t t1) (r : Nat) :
    slotNat ABS t1 (t1.mem_key r) = slotNat ABS t (t.mem_key r) := by
  unfold IHash.slotNat
  rw [h.nBuckets, h.hashFn, h.mem_key]

theorem Placed.push_placed {ABS : Int → Int} {t : IHashTable K} {cs : List (List Nat)}
    {b e : Nat} {l : List Nat} (h : Placed ABS t cs)
    (hb : cs[b]? = some l) (he : slotOf ABS t (t.mem_key e) = .ok b) :
    Placed ABS (pushEntry t b e) (cs.set b (e :: l)) := by
  intro b1 l1 hl1 r hr
  rw [(Frame.of_pushEntry t b e).slotOf_eq]
  rw [List.getElem?_set] at hl1
  by_cases hbb : b = b1
  · subst hbb
    simp [lt_of_getElem?_eq_some hb] at hl1
    subst hl1
    rcases List.mem_cons.1 hr with rfl | hr
    · exact he
    · exact h b l hb r hr
  · simp [hbb] at hl1
    exact h b1 l1 hl1 r hr

/-! ## `iHashResize` -/

theorem getElem?_getD_of_lt {α : Type} {cs : List α} {b : Nat} (d : α) (h : b < cs.length) :
    cs[b]? = some (cs.getD b d) := by
  simp [List.getD_eq_getElem?_getD, List.getElem?_eq_getElem h]

/-- One `IHashAdd` of the rebuild: the load is too low for a nested rebuild, so it is
a plain push. -/
theorem Built.add_built {ABS : Int → Int} {f : Nat} {T T2 : IHashTable K} {C : List (List Nat)}
    {a : Nat} (hB : Built ABS T C) (ha : a ∉ C.flatten)
    (hload : T.iht_nEntries + 1 < iHashResizeRatio * T.iht_nBuckets)
    (h : IHashAdd ABS f T a = .ok T2) :
    T2 = pushEntry T (slotNat ABS T (T.mem_key a)) a ∧
    Built ABS T2 (C.set (slotNat ABS T (T.mem_key a))
      (a :: C.getD (slotNat ABS T (T.mem_key a)) [])) := by
  obtain ⟨hne0, hslot, _, hcase⟩ := IHashAdd_ok h
  have hn0 : 0 ≤ T.iht_nEntries + 1 := by
    rw [hB.count]
    omega
  rcases hcase with ⟨_, rfl⟩ | ⟨htr, _⟩
  · have hlt : slotNat ABS T (T.mem_key a) < C.length := by
      rw [hB.rep.length_eq]
      exact slotOf_lt hslot
    have hb := getElem?_getD_of_lt ([] : List Nat) hlt
    refine ⟨rfl, hB.rep.push_rep hne0 ha hb, hB.placed.push_placed hb hslot, ?_, hB.nBuckets_pos, ?_⟩
    · simp [pushEntry, hB.nBuckets_eq]
    · have hlen := (flatten_set_perm hb (List.Perm.refl (a :: _))).length_eq
      rw [hlen]
      simp [pushEntry, hB.count]
  · exact absurd ((tdiv_lt_ratio hn0 hB.nBuckets_pos).2 hload) (not_lt.2 htr)

theorem resizeChain_ok {ABS : Int → Int} {f : Nat} :
    ∀ (l : List Nat) (fuel : Nat) (T T1 : IHashTable K) (C : List (List Nat)) (e : Nat),
      Built ABS T C → IsChain T.mem_next e l → (l ++ C.flatten).Nodup →
      T.iht_nEntries + l.length < iHashResizeRatio * T.iht_nBuckets →
      resizeChain (IHashAdd ABS f) fuel T e = .ok T1 →
      Frame T T1 ∧ Built ABS T1 (pushAll (fun a => slotNat ABS T (T.mem_key a)) C l) ∧
      (∀ p, p ∉ l → T1.mem_next p = T.mem_next p) ∧
      (pushAll (fun a => slotNat ABS T (T.mem_key a)) C l).flatten.Perm (l ++ C.flatten)
  | [], fuel, T, T1, C, e, hB, hch, _, _, h => by
    have he : e = 0 := hch
    subst he
    have hT : T1 = T := by
      cases fuel <;> simp [resizeChain] at h <;> exact h.symm
    subst hT
    exact ⟨Frame.frame_refl _, hB, fun _ _ => rfl, List.Perm.refl _⟩
  | a :: l, fuel, T, T1, C, e, hB, hch, hnd, hload, h => by
    obtain ⟨rfl, ha0, hch⟩ := hch
    cases fuel with
    | zero => simp [resizeChain, ha0] at h
    | succ fuel =>
      simp only [resizeChain, ha0, if_false] at h
      obtain ⟨T2, hadd, hrest⟩ := Res.bind_eq_ok.1 h
      have hnd1 : (e :: (l ++ C.flatten)).Nodup := hnd
      obtain ⟨hnotin, hnd2⟩ := List.nodup_cons.1 hnd1
      have haC : e ∉ C.flatten := fun hm => hnotin (List.mem_append_right _ hm)
      have hal : e ∉ l := fun hm => hnotin (List.mem_append_left _ hm)
      have hload1 : T.iht_nEntries + 1 < iHashResizeRatio * T.iht_nBuckets := by
        have : (0 : Int) ≤ (l.length : Int) := Int.natCast_nonneg _
        simp only [List.length_cons, Nat.cast_add, Nat.cast_one] at hload
        omega
      obtain ⟨hT2, hB2⟩ := hB.add_built haC hload1 hadd
      have hlt : slotNat ABS T (T.mem_key e) < C.length := by
        rw [hB.rep.length_eq]
        exact slotOf_lt (IHashAdd_ok hadd).2.1
      have hperm2 := flatten_set_perm (getElem?_getD_of_lt ([] : List Nat) hlt)
        (List.Perm.refl (e :: C.getD (slotNat ABS T (T.mem_key e)) []))
      have hch2 : IsChain T2.mem_next (T.mem_next e) l := by
        refine IsChain.congr ?_ hch
        intro x hx
        have hxe : x ≠ e := fun hxe => hal (hxe ▸ hx)
        rw [hT2]
        simp [pushEntry, hxe]
      have hnd3 : (l ++ (C.set (slotNat ABS T (T.mem_key e))
          (e :: C.getD (slotNat ABS T (T.mem_key e)) [])).flatten).Nodup := by
        refine ((hperm2.append_left l).trans List.perm_middle).nodup_iff.2 hnd1
      have hload2 : T2.iht_nEntries + l.length < iHashResizeRatio * T2.iht_nBuckets := by
        rw [hT2]
        simp only [pushEntry]
        simp only [List.length_cons, Nat.cast_add, Nat.cast_one] at hload
        omega
      obtain ⟨hF, hB1, hnext, hperm⟩ :=
        resizeChain_ok l fuel T2 T1 _ (T.mem_next e) hB2 hch2 hnd3 hload2 hrest
      have hslot : (fun a => slotNat ABS T2 (T2.mem_key a)) =
          (fun a => slotNat ABS T (T.mem_key a)) := by
        rw [hT2]
        rfl
      rw [hslot] at hB1 hperm
      refine ⟨?_, hB1, ?_, ?_⟩
      · rw [hT2] at hF
        exact (Frame.of_pushEntry T _ e).frame_trans hF
      · intro p hp
        have hpe : p ≠ e := fun hpe => hp (hpe ▸ List.mem_cons_self _ _)
        have hpl : p ∉ l := fun hm => hp (List.mem_cons_of_mem _ hm)
        rw [hnext p hpl, hT2]
        simp [pushEntry, hpe]
      · exact hperm.trans ((hperm2.append_left l).trans List.perm_middle)

theorem forall_chain_congr {next next1 : Nat → Nat} :
    ∀ {hs : List Nat} {rest : List (List Nat)}, List.Forall₂ (IsChain next) hs rest →
      (∀ a ∈ rest.flatten, next1 a = next a) → List.Forall₂ (IsChain next1) hs rest
  | _, _, .nil, _ => .nil
  | _, _, .cons h hrest, hc => by
    refine .cons (IsChain.congr (fun a ha => hc a ?_) h) (forall_chain_congr hrest fun a ha => hc a ?_)
    · simp [ha]
    · simp only [List.flatten_cons, List.mem_append]
      exact Or.inr ha

theorem Rep.forall_chain {t : IHashTable K} {cs : List (List Nat)} (h : Rep t cs) :
    List.Forall₂ (IsChain t.mem_next) t.iht_table cs := by
  rw [List.forall₂_iff_get]
  refine ⟨h.length_eq.symm, ?_⟩
  intro i h1 h2
  have hc := h.chain i (cs.get ⟨i, h2⟩) (by simp [List.getElem?_eq_getElem h2])
  have hd : t.iht_table.getD i 0 = t.iht_table.get ⟨i, h1⟩ := by
    simp [List.getD_eq_getElem?_getD, List.getElem?_eq_getElem h1]
  rw [hd] at hc
  exact hc

theorem resizeLoop_ok {ABS : Int → Int} {f fuel : Nat} (hs : List Nat) :
    ∀ (rest : List (List Nat)) (bucket : Nat) (T T1 : IHashTable K) (C : List (List Nat)),
      Built ABS T C →
      List.Forall₂ (IsChain T.mem_next) (hs.drop bucket) rest →
      (rest.flatten ++ C.flatten).Nodup →
      T.iht_nEntries + rest.flatten.length < iHashResizeRatio * T.iht_nBuckets →
      resizeLoop (IHashAdd ABS f) fuel hs rest.length bucket T = .ok T1 →
      Frame T T1 ∧
      Built ABS T1 (pushAll (fun a => slotNat ABS T (T.mem_key a)) C rest.flatten) ∧
      (∀ p, p ∉ rest.flatten → T1.mem_next p = T.mem_next p) ∧
      (pushAll (fun a => slotNat ABS T (T.mem_key a)) C rest.flatten).flatten.Perm
        (rest.flatten ++ C.flatten)
  | [], bucket, T, T1, C, hB, _, _, _, h => by
    simp only [List.length_nil, resizeLoop] at h
    injection h with h
    subst h
    exact ⟨Frame.frame_refl _, hB, fun _ _ => rfl, List.Perm.refl _⟩
  | c :: rest, bucket, T, T1, C, hB, hfa, hnd, hload, h => by
    generalize hdrop : hs.drop bucket = d at hfa
    cases hfa with
    | @cons hd _ hs1 _ hc hrest =>
      have hget : hs[bucket]? = some hd := by
        have := List.getElem?_drop hs bucket 0
        rw [hdrop] at this
        simpa using this.symm
      have hdrop1 : hs.drop (bucket + 1) = hs1 := by
        have := List.drop_drop 1 bucket hs
        rw [hdrop] at this
        simpa using this.symm
      simp only [List.length_cons, resizeLoop, hget] at h
      obtain ⟨T2, hinner, hrestrun⟩ := Res.bind_eq_ok.1 h
      simp only [List.flatten_cons, List.append_assoc] at hnd
      have hnd_c : (c ++ C.flatten).Nodup := by
        rw [List.nodup_append] at hnd ⊢
        obtain ⟨h1, h2, h3⟩ := hnd
        refine ⟨h1, (List.nodup_append.1 h2).2.1, ?_⟩
        intro x hx hxC
        exact h3 hx (List.mem_append_right _ hxC)
      have hlen : ((c ++ rest.flatten).length : Int) = c.length + rest.flatten.length := by
        simp
      have hload_c : T.iht_nEntries + c.length < iHashResizeRatio * T.iht_nBuckets := by
        simp only [List.flatten_cons] at hload
        rw [hlen] at hload
        have : (0 : Int) ≤ (rest.flatten.length : Int) := Int.natCast_nonneg _
        omega
      obtain ⟨hF2, hB2, hnext2, hperm2⟩ :=
        resizeChain_ok c fuel T T2 C hd hB hc hnd_c hload_c hinner
      have hdisj : ∀ a ∈ rest.flatten, a ∉ c := by
        intro a ha hac
        rw [List.nodup_append] at hnd
        exact hnd.2.2 hac (List.mem_append_left _ ha)
      have hfa2 : List.Forall₂ (IsChain T2.mem_next) (hs.drop (bucket + 1)) rest := by
        rw [hdrop1]
        exact forall_chain_congr hrest fun a ha => hnext2 a (hdisj a ha)
      have hswap : (rest.flatten ++ (c ++ C.flatten)).Perm (c ++ (rest.flatten ++ C.flatten)) := by
        rw [← List.append_assoc, ← List.append_assoc]
        exact List.Perm.append_right _ List.perm_append_comm
      have hnd2 : (rest.flatten ++
          (pushAll (fun a => slotNat ABS T (T.mem_key a)) C c).flatten).Nodup :=
        ((hperm2.append_left rest.flatten).trans hswap).nodup_iff.2 hnd
      have hload2 : T2.iht_nEntries + rest.flatten.length <
          iHashResizeRatio * T2.iht_nBuckets := by
        rw [hB2.count, hperm2.length_eq, hF2.nBuckets]
        simp only [List.flatten_cons] at hload
        rw [hlen, hB.count] at hload
        simp only [List.length_append, Nat.cast_add]
        omega
      obtain ⟨hF1, hB1, hnext1, hperm1⟩ :=
        resizeLoop_ok hs rest (bucket + 1) T2 T1 _ hB2 hfa2 hnd2 hload2 hrestrun
      have hslot : (fun a => slotNat ABS T2 (T2.mem_key a)) =
          (fun a => slotNat ABS T (T.mem_key a)) := by
        funext a
        exact hF2.slotNat_eq a
      rw [hslot] at hB1 hperm1
      have hpush : pushAll (fun a => slotNat ABS T (T.mem_key a)) C (c :: rest).flatten =
          pushAll (fun a => slotNat ABS T (T.mem_key a))
            (pushAll (fun a => slotNat ABS T (T.mem_key a)) C c) rest.flatten := by
        simp only [List.flatten_cons, pushAll, List.foldl_append]
      rw [hpush]
      refine ⟨hF2.frame_trans hF1, hB1, ?_, ?_⟩
      · intro p hp
        simp only [List.flatten_cons, List.mem_append, not_or] at hp
        rw [hnext1 p hp.2, hnext2 p hp.1]
      · simp only [List.flatten_cons, List.append_assoc]
        exact hperm1.trans ((hperm2.append_left rest.flatten).trans hswap)

theorem Rep.indexed_iff {t : IHashTable K} {cs : List (List Nat)} (h : Rep t cs) (r : Nat) :
    Indexed t r ↔ r ∈ cs.flatten := by
  rw [mem_flatten_iff_getElem?]
  constructor
  · rintro ⟨b, hb, hc⟩
    have hb1 : b < cs.length := h.length_eq ▸ hb
    have hget := getElem?_getD_of_lt ([] : List Nat) hb1
    exact ⟨b, _, hget, (IsChain.onChain_iff (h.chain b _ hget)).1 hc⟩
  · rintro ⟨b, l, hget, hr⟩
    exact ⟨b, h.length_eq ▸ lt_of_getElem?_eq_some hget,
      (IsChain.onChain_iff (h.chain b l hget)).2 hr⟩

theorem Frame.sameConfig {t t1 : IHashTable K} (h : Frame t t1) : SameConfig t t1 :=
  ⟨h.nBucketsInit, h.keyOffset, h.nextOffset, h.hashFn, h.sameKeyFn, h.mem_key⟩

theorem SameConfig.config_refl (t : IHashTable K) : SameConfig t t :=
  ⟨rfl, rfl, rfl, rfl, rfl, rfl⟩

theorem SameConfig.config_trans {t t1 t2 : IHashTable K} (h : SameConfig t t1)
    (h1 : SameConfig t1 t2) : SameConfig t t2 :=
  ⟨h1.nBucketsInit.trans h.nBucketsInit, h1.keyOffset.trans h.keyOffset,
   h1.nextOffset.trans h.nextOffset, h1.hashFn.trans h.hashFn,
   h1.sameKeyFn.trans h.sameKeyFn, h1.mem_key.trans h.mem_key⟩

theorem Built.of_growEmpty (ABS : Int → Int) {t : IHashTable K} (hpos : 0 < t.iht_nBuckets) :
    Built ABS (growEmpty t) (List.replicate (t.iht_nBuckets * 4).toNat []) := by
  refine ⟨⟨?_, ?_, ?_⟩, ?_, ?_, ?_, ?_⟩
  · simp [IHash.growEmpty]
  · intro b l hl
    rw [List.getElem?_replicate] at hl
    by_cases hb : b < (t.iht_nBuckets * 4).toNat
    · simp [hb] at hl
      subst hl
      show (List.replicate (t.iht_nBuckets * 4).toNat 0).getD b 0 = 0
      simp [List.getD_eq_getElem?_getD, List.getElem?_replicate, hb]
    · simp [hb] at hl
  · simp
  · intro b l hl
    rw [List.getElem?_replicate] at hl
    by_cases hb : b < (t.iht_nBuckets * 4).toNat
    · simp [hb] at hl
      subst hl
      intro r hr
      cases hr
    · simp [hb] at hl
  · show t.iht_nBuckets * 4 = ((List.replicate (t.iht_nBuckets * 4).toNat 0).length : Int)
    rw [List.length_replicate, Int.toNat_of_nonneg (by omega)]
  · show 0 < t.iht_nBuckets * 4
    omega
  · simp [IHash.growEmpty]

/-- What is known of an `iHashResize` that returned, on a table with proper chains
`cs` whose load is below the ratio for four times the buckets. -/
theorem iHashResize_ok {ABS : Int → Int} {f : Nat} {t t1 : IHashTable K}
    {cs : List (List Nat)} (hrep : Rep t cs) (hnb : t.iht_nBuckets = t.iht_table.length)
    (hpos : 0 < t.iht_nBuckets) (hcount : t.iht_nEntries = cs.flatten.length)
    (hload : t.iht_nEntries < iHashResizeRatio * (t.iht_nBuckets * 4))
    (h : iHashResize ABS f t = .ok t1) :
    SameConfig t t1 ∧ t1.iht_nBuckets = t.iht_nBuckets * 4 ∧ t.iht_nBuckets * 4 ≤ INT_MAX ∧
    Built ABS t1 (rebuilt ABS t cs) ∧ (rebuilt ABS t cs).flatten.Perm cs.flatten ∧
    (∀ p, p ∉ cs.flatten → t1.mem_next p = t.mem_next p) := by
  unfold iHashResize iHashResizeBody at h
  by_cases hov : t.iht_nBuckets * 4 > INT_MAX ∨ t.iht_nBuckets * 4 < INT_MIN
  · simp [hov] at h
  · rw [if_neg hov] at h
    have hlen : t.iht_nBuckets.toNat = cs.length := by
      rw [hrep.length_eq, hnb]
      simp
    rw [hlen] at h
    have hB0 := Built.of_growEmpty ABS hpos
    have hfa : List.Forall₂ (IsChain (growEmpty t).mem_next) (t.iht_table.drop 0) cs := by
      simpa using hrep.forall_chain
    have hnd : (cs.flatten ++
        (List.replicate (t.iht_nBuckets * 4).toNat ([] : List Nat)).flatten).Nodup := by
      simpa using hrep.nodup
    have hload0 : (growEmpty t).iht_nEntries + cs.flatten.length <
        iHashResizeRatio * (growEmpty t).iht_nBuckets := by
      show (0 : Int) + cs.flatten.length < iHashResizeRatio * (t.iht_nBuckets * 4)
      rw [← hcount]
      omega
    obtain ⟨hF, hB, hnext, hperm⟩ :=
      resizeLoop_ok t.iht_table cs 0 (growEmpty t) t1 _ hB0 hfa hnd hload0 h
    have hcfg : SameConfig t (growEmpty t) := ⟨rfl, rfl, rfl, rfl, rfl, rfl⟩
    refine ⟨hcfg.config_trans hF.sameConfig, hF.nBuckets, ?_, hB, ?_, hnext⟩
    · exact not_lt.1 fun hgt => hov (Or.inl hgt)
    · simpa using hperm

theorem Built.to_inv {ABS : Int → Int} {t : IHashTable K} {cs : List (List Nat)}
    (h : Built ABS t cs) (hinit : 0 < t.iht_nBucketsInit)
    (hload : t.iht_nEntries < iHashResizeRatio * t.iht_nBuckets) : Inv t cs :=
  ⟨h.rep, h.nBuckets_eq, h.nBuckets_pos, hinit, h.count, hload⟩

/-- `IHashAdd` of a record that is not indexed keeps the invariant; the new chains are
`afterAdd`. -/
theorem Inv.add_inv {ABS : Int → Int} {fuel : Nat} {t t1 : IHashTable K} {cs : List (List Nat)}
    {e : Nat} (hI : Inv t cs) (hne : ¬ Indexed t e) (h : IHashAdd ABS fuel t e = .ok t1) :
    Inv t1 (afterAdd ABS t cs e) ∧ SameConfig t t1 ∧
    (afterAdd ABS t cs e).flatten.Perm (e :: cs.flatten) ∧
    (∀ p, p ∉ e :: cs.flatten → t1.mem_next p = t.mem_next p) ∧
    t1.iht_nEntries = t.iht_nEntries + 1 ∧
    t1.iht_nBuckets =
      (if iHashResizeRatio ≤ Int.tdiv (t.iht_nEntries + 1) t.iht_nBuckets
        then t.iht_nBuckets * 4 else t.iht_nBuckets) ∧
    (Placed ABS t cs → Placed ABS t1 (afterAdd ABS t cs e)) := by
  obtain ⟨he0, hslot, _, hcase⟩ := IHashAdd_ok h
  have hlt : slotNat ABS t (t.mem_key e) < cs.length := by
    rw [hI.rep.length_eq]
    exact slotOf_lt hslot
  have hb := getElem?_getD_of_lt ([] : List Nat) hlt
  have hnotin : e ∉ cs.flatten := fun hm => hne ((hI.rep.indexed_iff e).2 hm)
  have hrep1 := hI.rep.push_rep he0 hnotin hb
  have hperm1 := flatten_set_perm hb
    (List.Perm.refl (e :: cs.getD (slotNat ABS t (t.mem_key e)) []))
  have hcount1 : (pushEntry t (slotNat ABS t (t.mem_key e)) e).iht_nEntries =
      ((cs.set (slotNat ABS t (t.mem_key e))
        (e :: cs.getD (slotNat ABS t (t.mem_key e)) [])).flatten.length : Int) := by
    rw [hperm1.length_eq]
    simp [pushEntry, hI.count]
  have hnb1 : (pushEntry t (slotNat ABS t (t.mem_key e)) e).iht_nBuckets =
      ((pushEntry t (slotNat ABS t (t.mem_key e)) e).iht_table.length : Int) := by
    simp [pushEntry, hI.nBuckets_eq]
  have hn0 : 0 ≤ t.iht_nEntries + 1 := by
    rw [hI.count]
    omega
  have hload := hI.load
  rcases hcase with ⟨hno, rfl⟩ | ⟨htr, f, _, hres⟩
  · have hA : afterAdd ABS t cs e = cs.set (slotNat ABS t (t.mem_key e))
        (e :: cs.getD (slotNat ABS t (t.mem_key e)) []) := by
      unfold afterAdd
      rw [if_neg (not_le.2 hno)]
    rw [hA]
    refine ⟨⟨hrep1, hnb1, hI.nBuckets_pos, hI.init_pos, hcount1, ?_⟩,
      (Frame.of_pushEntry t _ e).sameConfig, hperm1, ?_, rfl, ?_, ?_⟩
    · exact (tdiv_lt_ratio hn0 hI.nBuckets_pos).1 hno
    · intro p hp
      have hpe : p ≠ e := fun hpe => hp (hpe ▸ List.mem_cons_self _ _)
      simp [pushEntry, hpe]
    · rw [if_neg (not_le.2 hno)]
      rfl
    · intro hP
      exact hP.push_placed hb hslot
  · have hA : afterAdd ABS t cs e = rebuilt ABS (pushEntry t (slotNat ABS t (t.mem_key e)) e)
        (cs.set (slotNat ABS t (t.mem_key e))
          (e :: cs.getD (slotNat ABS t (t.mem_key e)) [])) := by
      unfold afterAdd
      rw [if_pos htr]
    rw [hA]
    have hload1 : (pushEntry t (slotNat ABS t (t.mem_key e)) e).iht_nEntries <
        iHashResizeRatio * ((pushEntry t (slotNat ABS t (t.mem_key e)) e).iht_nBuckets * 4) := by
      have hp := hI.nBuckets_pos
      show t.iht_nEntries + 1 < iHashResizeRatio * (t.iht_nBuckets * 4)
      unfold iHashResizeRatio at hload ⊢
      omega
    obtain ⟨hcfg, hnb, _, hB, hperm, hnext⟩ :=
      iHashResize_ok hrep1 hnb1 hI.nBuckets_pos hcount1 hload1 hres
    have hcfg1 := (Frame.of_pushEntry t (slotNat ABS t (t.mem_key e)) e).sameConfig.config_trans hcfg
    have hent : t1.iht_nEntries = t.iht_nEntries + 1 := by
      rw [hB.count, hperm.length_eq, ← hcount1]
      rfl
    refine ⟨hB.to_inv ?_ ?_, hcfg1, hperm.trans hperm1, ?_, hent, ?_, fun _ => hB.placed⟩
    · rw [hcfg1.nBucketsInit]
      exact hI.init_pos
    · rw [hent, hnb]
      exact hload1
    · intro p hp
      have hp1 : p ∉ (cs.set (slotNat ABS t (t.mem_key e))
          (e :: cs.getD (slotNat ABS t (t.mem_key e)) [])).flatten :=
        fun hm => hp (hperm1.mem_iff.1 hm)
      have hpe : p ≠ e := fun hpe => hp (hpe ▸ List.mem_cons_self _ _)
      rw [hnext p hp1]
      simp [pushEntry, hpe]
    · rw [if_pos htr, hnb]
      rfl

/-! ## `IHashDelete` -/

theorem locAfter_concat (pp : Loc) (pre : List Nat) (x : Nat) :
    locAfter pp (pre ++ [x]) = .link x := by
  induction pre generalizing pp with
  | nil => rfl
  | cons a pre ih => exact ih (.link a)

/-- The loop of `IHashDelete` stops on the place that holds `entry`, after the records
in front of it. -/
theorem deleteLoop_found {t : IHashTable K} {entry : Nat} {post : List Nat} :
    ∀ (pre : List Nat) (fuel : Nat) (pp : Loc),
      IsChain t.mem_next (readLoc t pp) (pre ++ entry :: post) → entry ∉ pre →
      pre.length ≤ fuel → deleteLoop t entry fuel pp = .ok (locAfter pp pre)
  | [], fuel, pp, hch, _, _ => by
    have h1 : readLoc t pp = entry := hch.1
    cases fuel <;> simp [deleteLoop, h1, locAfter]
  | a :: pre, fuel, pp, hch, hne, hfuel => by
    obtain ⟨h1, h2, h3⟩ := hch
    have hae : a ≠ entry := fun h => hne (h ▸ List.mem_cons_self _ _)
    cases fuel with
    | zero => simp at hfuel
    | succ fuel =>
      have hcond : ¬ (readLoc t pp = 0 ∨ readLoc t pp = entry) := by
        rw [h1]
        exact fun h => h.elim h2 hae
      simp only [deleteLoop, if_neg hcond, locAfter]
      rw [h1]
      exact deleteLoop_found pre fuel (.link a) h3
        (fun h => hne (List.mem_cons_of_mem _ h)) (Nat.le_of_succ_le_succ hfuel)

/-- On a chain without `entry` the loop of `IHashDelete` stops on a place holding `NULL`. -/
theorem deleteLoop_absent {t : IHashTable K} {entry : Nat} :
    ∀ (l : List Nat) (fuel : Nat) (pp : Loc),
      IsChain t.mem_next (readLoc t pp) l → entry ∉ l → l.length ≤ fuel →
      ∃ qq, deleteLoop t entry fuel pp = .ok qq ∧ readLoc t qq = 0
  | [], fuel, pp, hch, _, _ => by
    have h1 : readLoc t pp = 0 := hch
    exact ⟨pp, by cases fuel <;> simp [deleteLoop, h1], h1⟩
  | a :: l, fuel, pp, hch, hne, hfuel => by
    obtain ⟨h1, h2, h3⟩ := hch
    have hae : a ≠ entry := fun h => hne (h ▸ List.mem_cons_self _ _)
    cases fuel with
    | zero => simp at hfuel
    | succ fuel =>
      have hcond : ¬ (readLoc t pp = 0 ∨ readLoc t pp = entry) := by
        rw [h1]
        exact fun h => h.elim h2 hae
      simp only [deleteLoop, if_neg hcond]
      rw [h1]
      exact deleteLoop_absent l fuel (.link a) h3
        (fun h => hne (List.mem_cons_of_mem _ h)) (Nat.le_of_succ_le_succ hfuel)

/-- A loop of `IHashDelete` that returned a place not holding `NULL` found `entry`. -/
theorem deleteLoop_ok {t : IHashTable K} {entry : Nat} :
    ∀ (l : List Nat) (fuel : Nat) (pp qq : Loc),
      IsChain t.mem_next (readLoc t pp) l → deleteLoop t entry fuel pp = .ok qq →
      readLoc t qq ≠ 0 →
      ∃ pre post, l = pre ++ entry :: post ∧ entry ∉ pre ∧ qq = locAfter pp pre
  | [], fuel, pp, qq, hch, h, hq => by
    have h1 : readLoc t pp = 0 := hch
    have : qq = pp := by
      cases fuel <;> simp [deleteLoop, h1] at h <;> exact h.symm
    exact absurd (this ▸ h1) hq
  | a :: l, fuel, pp, qq, hch, h, hq => by
    obtain ⟨h1, h2, h3⟩ := hch
    by_cases hae : a = entry
    · have : qq = pp := by
        cases fuel <;> simp [deleteLoop, h1, hae] at h <;> exact h.symm
      exact ⟨[], l, by rw [hae]; rfl, by simp, by rw [this]; rfl⟩
    · have hcond : ¬ (readLoc t pp = 0 ∨ readLoc t pp = entry) := by
        rw [h1]
        exact fun h => h.elim h2 hae
      cases fuel with
      | zero => simp [deleteLoop, hcond] at h
      | succ fuel =>
        simp only [deleteLoop, if_neg hcond] at h
        rw [h1] at h
        obtain ⟨pre, post, hl, hne, hqq⟩ := deleteLoop_ok l fuel (.link a) qq h3 h hq
        refine ⟨a :: pre, post, by rw [hl]; rfl, ?_, hqq⟩
        intro hm
        rcases List.mem_cons.1 hm with h | h
        · exact hae h.symm
        · exact hne h

/-- Redirecting the link of the record in front of `entry` to the record after it
takes `entry` out of the chain. -/
theorem IsChain.unlink {next : Nat → Nat} {entry x : Nat} {post : List Nat} :
    ∀ (pre : List Nat) (p : Nat), IsChain next p (pre ++ x :: entry :: post) →
      (pre ++ x :: entry :: post).Nodup →
      IsChain (fun q => if q = x then next entry else next q) p (pre ++ x :: post)
  | [], p, hch, hnd => by
    obtain ⟨h1, h2, _, _, h5⟩ := hch
    refine ⟨h1, h2, ?_⟩
    simp only [if_true]
    refine IsChain.congr ?_ h5
    intro a ha
    have hax : a ≠ x := by
      rintro rfl
      have := (List.nodup_cons.1 hnd).1
      exact this (List.mem_cons_of_mem _ ha)
    simp [hax]
  | a :: pre, p, hch, hnd => by
    obtain ⟨h1, h2, h3⟩ := hch
    have hax : a ≠ x := by
      rintro rfl
      have := (List.nodup_cons.1 hnd).1
      exact this (by simp)
    refine ⟨h1, h2, ?_⟩
    simp only [if_neg hax]
    exact IsChain.unlink pre (next a) h3 (List.nodup_cons.1 hnd).2

theorem chains_disjoint {cs : List (List Nat)} (hnd : cs.flatten.Nodup) {b b1 : Nat}
    {l l1 : List Nat} {x : Nat} (hb : cs[b]? = some l) (hb1 : cs[b1]? = some l1)
    (hne : b ≠ b1) (hx : x ∈ l) : x ∉ l1 := by
  have hP := (List.nodup_flatten.1 hnd).2
  rw [List.pairwise_iff_getElem] at hP
  have hlt := lt_of_getElem?_eq_some hb
  have hlt1 := lt_of_getElem?_eq_some hb1
  have e : cs[b] = l := by
    rw [List.getElem?_eq_getElem hlt] at hb
    exact Option.some.inj hb
  have e1 : cs[b1] = l1 := by
    rw [List.getElem?_eq_getElem hlt1] at hb1
    exact Option.some.inj hb1
  intro hx1
  rcases Nat.lt_or_gt_of_ne hne with h | h
  · have := hP b b1 hlt hlt1 h
    rw [e, e1] at this
    exact this hx hx1
  · have := hP b1 b hlt1 hlt h
    rw [e, e1] at this
    exact this hx1 hx

theorem chain_nodup {cs : List (List Nat)} (hnd : cs.flatten.Nodup) {b : Nat}
    {l : List Nat} (hb : cs[b]? = some l) : l.Nodup :=
  (List.nodup_flatten.1 hnd).1 l (List.mem_iff_getElem?.2 ⟨b, hb⟩)

/-- Taking a record out of chain `b` takes it out of the whole. -/
theorem flatten_remove_perm {cs : List (List Nat)} {b r : Nat} {pre post : List Nat}
    (hb : cs[b]? = some (pre ++ r :: post)) :
    cs.flatten.Perm (r :: (cs.set b (pre ++ post)).flatten) := by
  have hlt := lt_of_getElem?_eq_some hb
  have h1 : (cs.set b (pre ++ post))[b]? = some (pre ++ post) := by
    simp [List.getElem?_set, hlt]
  have h2 := @flatten_set_perm r (pre ++ post) (pre ++ r :: post) _ _ h1 List.perm_middle
  rw [List.set_set, set_getElem?_self hb] at h2
  exact h2

/-- The write `*pp = entry->next` of `IHashDelete`, at the place its loop stops on. -/
theorem Rep.unlink_rep {t : IHashTable K} {cs : List (List Nat)} {b r : Nat}
    {pre post : List Nat} (h : Rep t cs) (hb : cs[b]? = some (pre ++ r :: post)) :
    Rep (writeLoc t (t.mem_next r) (locAfter (.slot b) pre)) (cs.set b (pre ++ post)) ∧
    Frame t (writeLoc t (t.mem_next r) (locAfter (.slot b) pre)) ∧
    (writeLoc t (t.mem_next r) (locAfter (.slot b) pre)).iht_nEntries = t.iht_nEntries ∧
    (∀ p, p ∉ pre →
      (writeLoc t (t.mem_next r) (locAfter (.slot b) pre)).mem_next p = t.mem_next p) := by
  have hblt : b < cs.length := lt_of_getElem?_eq_some hb
  have hbt : b < t.iht_table.length := h.length_eq ▸ hblt
  have hch := h.chain b _ hb
  have hndl := chain_nodup h.nodup hb
  have hnd : (cs.set b (pre ++ post)).flatten.Nodup :=
    (List.nodup_cons.1 ((flatten_remove_perm hb).nodup_iff.1 h.nodup)).2
  rcases List.eq_nil_or_concat pre with rfl | ⟨pre1, x, rfl⟩
  · refine ⟨⟨?_, ?_, hnd⟩, ⟨rfl, rfl, rfl, rfl, rfl, rfl, rfl, ?_⟩, rfl, fun _ _ => rfl⟩
    · simp [locAfter, writeLoc, h.length_eq]
    · intro b1 l1 hl1
      rw [List.getElem?_set] at hl1
      by_cases hbb : b = b1
      · subst hbb
        simp [hblt] at hl1
        subst hl1
        have h1 : (writeLoc t (t.mem_next r) (locAfter (.slot b) [])).iht_table.getD b 0 =
            t.mem_next r := getD_set_eq _ _ hbt
        rw [h1]
        exact hch.2.2
      · simp [hbb] at hl1
        have h1 : (writeLoc t (t.mem_next r) (locAfter (.slot b) [])).iht_table.getD b1 0 =
            t.iht_table.getD b1 0 := getD_set_ne _ _ hbb
        rw [h1]
        exact h.chain b1 l1 hl1
    · simp [locAfter, writeLoc]
  · rw [List.concat_eq_append] at hb hch hndl hnd ⊢
    rw [locAfter_concat]
    simp only [List.append_assoc, List.singleton_append] at hb hch hndl hnd ⊢
    refine ⟨⟨?_, ?_, hnd⟩, ⟨rfl, rfl, rfl, rfl, rfl, rfl, rfl, rfl⟩, rfl, ?_⟩
    · simp [writeLoc, h.length_eq]
    · intro b1 l1 hl1
      rw [List.getElem?_set] at hl1
      by_cases hbb : b = b1
      · subst hbb
        simp [hblt] at hl1
        subst hl1
        exact IsChain.unlink pre1 _ hch hndl
      · simp [hbb] at hl1
        refine IsChain.congr ?_ (h.chain b1 l1 hl1)
        intro a ha
        have hax : a ≠ x := by
          rintro rfl
          exact chains_disjoint h.nodup hb hl1 hbb (by simp) ha
        simp [writeLoc, hax]
    · intro p hp
      have hpx : p ≠ x := by
        rintro rfl
        exact hp (by simp)
      simp [writeLoc, hpx]

theorem Rep.of_eq {t t1 : IHashTable K} {cs : List (List Nat)} (h : Rep t cs)
    (h1 : t1.iht_table = t.iht_table) (h2 : t1.mem_next = t.mem_next) : Rep t1 cs :=
  ⟨by rw [h1]; exact h.length_eq, by rw [h1, h2]; exact h.chain, h.nodup⟩

theorem Rep.unlinked_rep {t : IHashTable K} {cs : List (List Nat)} {b r : Nat}
    {pre post : List Nat} (h : Rep t cs) (hb : cs[b]? = some (pre ++ r :: post)) :
    Rep (unlinked t b pre r) (cs.set b (pre ++ post)) ∧ Frame t (unlinked t b pre r) ∧
    (unlinked t b pre r).iht_nEntries = t.iht_nEntries - 1 ∧
    (∀ p, p ∉ pre → (unlinked t b pre r).mem_next p = t.mem_next p) := by
  obtain ⟨h1, h2, _, h4⟩ := h.unlink_rep hb
  exact ⟨h1.of_eq rfl rfl, ⟨h2.nBucketsInit, h2.nBuckets, h2.keyOffset, h2.nextOffset,
    h2.hashFn, h2.sameKeyFn, h2.mem_key, h2.length⟩, rfl, h4⟩

/-- What is known of an `IHashDelete` that returned: the record was on the chain of
the bucket of its key and has been unlinked. -/
theorem IHashDelete_ok {ABS : Int → Int} {fuel : Nat} {t t1 : IHashTable K}
    {cs : List (List Nat)} {r : Nat} (hrep : Rep t cs)
    (h : IHashDelete ABS fuel t r = .ok t1) :
    ∃ b pre post, slotOf ABS t (t.mem_key r) = .ok b ∧ cs[b]? = some (pre ++ r :: post) ∧
      r ∉ pre ∧ t1 = unlinked t b pre r := by
  unfold IHashDelete ASSERT at h
  by_cases hr0 : r = 0
  · simp [hr0] at h
  · rw [if_neg hr0] at h
    obtain ⟨b, hslot, h⟩ := Res.bind_eq_ok.1 h
    obtain ⟨pp, hloop, h⟩ := Res.bind_eq_ok.1 h
    by_cases hpp : readLoc t pp = 0
    · simp [hpp] at h
    · rw [if_neg hpp] at h
      by_cases hmin : t.iht_nEntries - 1 < INT_MIN
      · simp [hmin] at h
      · rw [if_neg hmin] at h
        injection h with h
        have hlt : b < cs.length := hrep.length_eq ▸ slotOf_lt hslot
        have hget := getElem?_getD_of_lt ([] : List Nat) hlt
        obtain ⟨pre, post, hl, hne, hqq⟩ :=
          deleteLoop_ok _ fuel (.slot b) pp (hrep.chain b _ hget) hloop hpp
        refine ⟨b, pre, post, hslot, hl ▸ hget, hne, ?_⟩
        rw [← h, hqq]
        rfl

theorem readLoc_locAfter {t : IHashTable K} {r : Nat} {post : List Nat} :
    ∀ (pre : List Nat) (pp : Loc), IsChain t.mem_next (readLoc t pp) (pre ++ r :: post) →
      readLoc t (locAfter pp pre) = r
  | [], _, h => h.1
  | a :: pre, _, h => readLoc_locAfter pre (.link a) h.2.2

/-- `IHashDelete` of a record that is on the chain of the bucket of its key returns. -/
theorem IHashDelete_found {ABS : Int → Int} {fuel : Nat} {t : IHashTable K}
    {cs : List (List Nat)} {b r : Nat} {pre post : List Nat} (hrep : Rep t cs)
    (hslot : slotOf ABS t (t.mem_key r) = .ok b) (hb : cs[b]? = some (pre ++ r :: post))
    (hr : r ∉ pre) (hfuel : pre.length ≤ fuel) (hmin : INT_MIN ≤ t.iht_nEntries - 1) :
    IHashDelete ABS fuel t r = .ok (unlinked t b pre r) := by
  have hch := hrep.chain b _ hb
  have hr0 : r ≠ 0 := IsChain.ne_zero hch r (by simp)
  have hloop := deleteLoop_found (t := t) pre fuel (.slot b) hch hr hfuel
  have hread : readLoc t (locAfter (.slot b) pre) ≠ 0 := by
    rw [readLoc_locAfter pre (.slot b) hch]
    exact hr0
  unfold IHashDelete ASSERT
  rw [if_neg hr0, hslot, Res.bind_ok, hloop, Res.bind_ok, if_neg hread,
    if_neg (not_lt.2 hmin)]
  rfl

/-- `IHashDelete` of a record that is not on the chain of the bucket of its key runs
into the assertion. -/
theorem IHashDelete_absent {ABS : Int → Int} {fuel : Nat} {t : IHashTable K}
    {cs : List (List Nat)} {b r : Nat} {l : List Nat} (hrep : Rep t cs) (hr0 : r ≠ 0)
    (hslot : slotOf ABS t (t.mem_key r) = .ok b) (hb : cs[b]? = some l)
    (hr : r ∉ l) (hfuel : l.length ≤ fuel) :
    IHashDelete ABS fuel t r = .assertFailed := by
  obtain ⟨qq, hloop, hq⟩ :=
    deleteLoop_absent (t := t) l fuel (.slot b) (hrep.chain b _ hb) hr hfuel
  unfold IHashDelete ASSERT
  rw [if_neg hr0, hslot, Res.bind_ok, hloop, Res.bind_ok, if_pos hq]

theorem Placed.remove_placed {ABS : Int → Int} {t t1 : IHashTable K} {cs : List (List Nat)}
    {b r : Nat} {pre post : List Nat} (h : Placed ABS t cs) (hF : Frame t t1)
    (hb : cs[b]? = some (pre ++ r :: post)) : Placed ABS t1 (cs.set b (pre ++ post)) := by
  intro b1 l1 hl1 x hx
  rw [hF.slotOf_eq]
  rw [List.getElem?_set] at hl1
  by_cases hbb : b = b1
  · subst hbb
    simp [lt_of_getElem?_eq_some hb] at hl1
    subst hl1
    refine h b _ hb x ?_
    rcases List.mem_append.1 hx with hx | hx
    · exact List.mem_append_left _ hx
    · exact List.mem_append_right _ (List.mem_cons_of_mem _ hx)
  · simp [hbb] at hl1
    exact h b1 l1 hl1 x hx

/-- A returned `IHashDelete` keeps the invariant; the chain of the record loses it and
no other chain changes. -/
theorem Inv.delete_inv {ABS : Int → Int} {fuel : Nat} {t t1 : IHashTable K}
    {cs : List (List Nat)} {r : Nat} (hI : Inv t cs)
    (h : IHashDelete ABS fuel t r = .ok t1) :
    ∃ b pre post, slotOf ABS t (t.mem_key r) = .ok b ∧ cs[b]? = some (pre ++ r :: post) ∧
      r ∉ pre ∧ t1 = unlinked t b pre r ∧ Inv t1 (cs.set b (pre ++ post)) ∧ Frame t t1 ∧
      (Placed ABS t cs → Placed ABS t1 (cs.set b (pre ++ post))) := by
  obtain ⟨b, pre, post, hslot, hb, hne, rfl⟩ := IHashDelete_ok hI.rep h
  obtain ⟨hrep, hF, hent, _⟩ := hI.rep.unlinked_rep hb
  have hlen := (flatten_remove_perm hb).length_eq
  have hcount := hI.count
  have hload := hI.load
  refine ⟨b, pre, post, hslot, hb, hne, rfl, ⟨hrep, ?_, ?_, ?_, ?_, ?_⟩, hF,
    fun hP => hP.remove_placed hF hb⟩
  · rw [hF.nBuckets, hF.length]
    exact hI.nBuckets_eq
  · rw [hF.nBuckets]
    exact hI.nBuckets_pos
  · rw [hF.nBucketsInit]
    exact hI.init_pos
  · rw [hent, hcount, hlen]
    simp
  · rw [hent, hF.nBuckets]
    omega

/-! ## Reachable tables -/

theorem Rep.chains_unique {t : IHashTable K} {cs cs1 : List (List Nat)} (h : Rep t cs)
    (h1 : Rep t cs1) : cs = cs1 := by
  apply List.ext_getElem?
  intro b
  by_cases hb : b < cs.length
  · have hb1 : b < cs1.length := by rw [h1.length_eq, ← h.length_eq]; exact hb
    have e := getElem?_getD_of_lt ([] : List Nat) hb
    have e1 := getElem?_getD_of_lt ([] : List Nat) hb1
    rw [e, e1, IsChain.unique (h.chain b _ e) (h1.chain b _ e1)]
  · have hb1 : ¬ b < cs1.length := by rw [h1.length_eq, ← h.length_eq]; exact hb
    rw [List.getElem?_eq_none (Nat.le_of_not_lt hb), List.getElem?_eq_none (Nat.le_of_not_lt hb1)]

theorem Rep.rep_replicate {t : IHashTable K} {k : Nat} (h : t.iht_table = List.replicate k 0) :
    Rep t (List.replicate k []) := by
  refine ⟨by simp [h], ?_, by simp⟩
  intro b l hl
  rw [List.getElem?_replicate] at hl
  by_cases hb : b < k
  · simp [hb] at hl
    subst hl
    rw [h]
    show (List.replicate k 0).getD b 0 = 0
    simp [List.getD_eq_getElem?_getD, List.getElem?_replicate, hb]
  · simp [hb] at hl

theorem Placed.placed_replicate (ABS : Int → Int) (t : IHashTable K) (k : Nat) :
    Placed ABS t (List.replicate k []) := by
  intro b l hl
  rw [List.getElem?_replicate] at hl
  by_cases hb : b < k
  · simp [hb] at hl
    subst hl
    intro r hr
    cases hr
  · simp [hb] at hl

/-- A table with a zeroed bucket array of `m > 0` slots and no entries satisfies the
invariant with empty chains. -/
theorem Inv.empty_inv {t : IHashTable K} {m : Int} (hm : 0 < m)
    (htab : t.iht_table = List.replicate m.toNat 0) (hnb : t.iht_nBuckets = m)
    (hent : t.iht_nEntries = 0) (hinit : 0 < t.iht_nBucketsInit) :
    Inv t (List.replicate m.toNat []) := by
  refine ⟨Rep.rep_replicate htab, ?_, hnb ▸ hm, hinit, by simp [hent], ?_⟩
  · rw [hnb, htab, List.length_replicate, Int.toNat_of_nonneg (le_of_lt hm)]
  · rw [hent, hnb]
    unfold iHashResizeRatio
    omega

theorem Inv.init_inv {n : Int} (hn : 0 < n) (keyOffset nextOffset : Int) (hashFn : K → Int)
    (sameKeyFn : K → K → Bool) (memKey : Nat → K) (memNext : Nat → Nat) :
    Inv (IHashInit n keyOffset nextOffset hashFn sameKeyFn memKey memNext)
      (List.replicate n.toNat []) :=
  Inv.empty_inv hn rfl rfl rfl hn

theorem Inv.clear_inv {t : IHashTable K} {cs : List (List Nat)} (h : Inv t cs) :
    Inv (IHashClear t) (List.replicate t.iht_nBucketsInit.toNat []) :=
  Inv.empty_inv h.init_pos rfl rfl rfl h.init_pos

/-- Rewriting record memory away from the link fields of indexed records keeps the
chains. -/
theorem Inv.client_inv {t : IHashTable K} {cs : List (List Nat)} (h : Inv t cs)
    (memKey : Nat → K) (memNext : Nat → Nat)
    (hnext : ∀ p, Indexed t p → memNext p = t.mem_next p) :
    Inv { t with mem_key := memKey, mem_next := memNext } cs := by
  refine ⟨⟨h.rep.length_eq, ?_, h.rep.nodup⟩, h.nBuckets_eq, h.nBuckets_pos, h.init_pos,
    h.count, h.load⟩
  intro b l hl
  refine IsChain.congr ?_ (h.rep.chain b l hl)
  intro a ha
  exact hnext a ((h.rep.indexed_iff a).2 (mem_flatten_iff_getElem?.2 ⟨b, l, hl, ha⟩))

theorem Placed.client_placed {ABS : Int → Int} {t : IHashTable K} {cs : List (List Nat)}
    (hI : Inv t cs) (h : Placed ABS t cs) (memKey : Nat → K) (memNext : Nat → Nat)
    (hkey : ∀ p, Indexed t p → memKey p = t.mem_key p) :
    Placed ABS { t with mem_key := memKey, mem_next := memNext } cs := by
  intro b l hl r hr
  have hk := hkey r ((hI.rep.indexed_iff r).2 (mem_flatten_iff_getElem?.2 ⟨b, l, hl, hr⟩))
  have := h b l hl r hr
  unfold slotOf at this ⊢
  simp only [hk]
  exact this

/-- Every table a caller can hold satisfies the structural invariant for some chains
`cs`; with fixed keys every record sits in the bucket of its key. -/
theorem Run.inv {ABS : Int → Int} {keysFixed : Bool} {n : Int} {hashFn : K → Int}
    {sameKeyFn : K → K → Bool} {calls : List Call} {t : IHashTable K}
    (h : Run ABS keysFixed n hashFn sameKeyFn calls t) :
    ∃ cs, Inv t cs ∧ (keysFixed = true → Placed ABS t cs) ∧ t.iht_nBucketsInit = n ∧
      t.iht_hashFn = hashFn ∧ t.iht_sameKeyFn = sameKeyFn := by
  induction h with
  | init keyOffset nextOffset memKey memNext hn =>
    exact ⟨_, Inv.init_inv hn _ _ _ _ _ _, fun _ => Placed.placed_replicate _ _ _, rfl, rfl, rfl⟩
  | add fuel r _ hne hadd ih =>
    obtain ⟨cs, hI, hP, h1, h2, h3⟩ := ih
    obtain ⟨hI1, hcfg, _, _, _, _, hP1⟩ := hI.add_inv hne hadd
    exact ⟨_, hI1, fun hk => hP1 (hP hk), hcfg.nBucketsInit.trans h1,
      hcfg.hashFn.trans h2, hcfg.sameKeyFn.trans h3⟩
  | delete fuel r _ hdel ih =>
    obtain ⟨cs, hI, hP, h1, h2, h3⟩ := ih
    obtain ⟨b, pre, post, _, _, _, _, hI1, hF, hP1⟩ := hI.delete_inv hdel
    exact ⟨_, hI1, fun hk => hP1 (hP hk), hF.nBucketsInit.trans h1,
      hF.hashFn.trans h2, hF.sameKeyFn.trans h3⟩
  | clear _ ih =>
    obtain ⟨cs, hI, _, h1, h2, h3⟩ := ih
    exact ⟨_, hI.clear_inv, fun _ => Placed.placed_replicate _ _ _, h1, h2, h3⟩
  | client memKey memNext _ hnext hkey ih =>
    obtain ⟨cs, hI, hP, h1, h2, h3⟩ := ih
    exact ⟨cs, hI.client_inv memKey memNext hnext,
      fun hk => (hP hk).client_placed hI memKey memNext (hkey hk), h1, h2, h3⟩

/-- After `IHashAdd` the indexed records are the old ones and the new one. -/
theorem Inv.indexed_add {ABS : Int → Int} {fuel : Nat} {t t1 : IHashTable K}
    {cs : List (List Nat)} {e : Nat} (hI : Inv t cs) (hne : ¬ Indexed t e)
    (h : IHashAdd ABS fuel t e = .ok t1) (x : Nat) :
    Indexed t1 x ↔ x = e ∨ Indexed t x := by
  obtain ⟨hI1, _, hperm, _⟩ := hI.add_inv hne h
  rw [hI1.rep.indexed_iff, hI.rep.indexed_iff, hperm.mem_iff, List.mem_cons]

theorem not_indexed_init {n : Int} (hn : 0 < n) (keyOffset nextOffset : Int)
    (hashFn : K → Int) (sameKeyFn : K → K → Bool) (memKey : Nat → K) (memNext : Nat → Nat)
    (r : Nat) :
    ¬ Indexed (IHashInit n keyOffset nextOffset hashFn sameKeyFn memKey memNext) r := by
  rw [(Inv.init_inv hn keyOffset nextOffset hashFn sameKeyFn memKey memNext).rep.indexed_iff]
  simp

theorem Res.eq_ok_getD {α : Type} (d : α) {r : Res α} (h : r.isOk = true) :
    r = .ok (r.getD d) := by
  cases r
  all_goals first | rfl | (simp [Res.isOk] at h)

/-- Adding distinct records that are not indexed, one after the other, is a run. -/
theorem Run.addAll_run {ABS : Int → Int} {keysFixed : Bool} {n : Int} {hashFn : K → Int}
    {sameKeyFn : K → K → Bool} {fuel : Nat} :
    ∀ (rs : List Nat) {calls : List Call} {t t1 : IHashTable K},
      Run ABS keysFixed n hashFn sameKeyFn calls t → rs.Nodup →
      (∀ r ∈ rs, ¬ Indexed t r) → addAll ABS fuel rs t = .ok t1 →
      Run ABS keysFixed n hashFn sameKeyFn (calls ++ rs.map Call.add) t1
  | [], calls, t, t1, hrun, _, _, h => by
    injection h with h
    subst h
    simpa using hrun
  | r :: rs, calls, t, t1, hrun, hnd, hni, h => by
    obtain ⟨t2, hadd, hrest⟩ := Res.bind_eq_ok.1 h
    obtain ⟨cs, hI, _⟩ := hrun.inv
    have hr : ¬ Indexed t r := hni r (List.mem_cons_self _ _)
    have hrun2 := Run.add fuel r hrun hr hadd
    have hni2 : ∀ x ∈ rs, ¬ Indexed t2 x := by
      intro x hx hix
      rcases (hI.indexed_add hr hadd x).1 hix with rfl | hix
      · exact (List.nodup_cons.1 hnd).1 hx
      · exact hni x (List.mem_cons_of_mem _ hx) hix
    have := Run.addAll_run rs hrun2 (List.nodup_cons.1 hnd).2 hni2 hrest
    simpa using this

/-- A fresh table after distinct records were added by calls that returned. -/
theorem init_addAll_run {ABS : Int → Int} {keysFixed : Bool} {n : Int} (keyOffset nextOffset : Int)
    {hashFn : K → Int} {sameKeyFn : K → K → Bool} (memKey : Nat → K) (memNext : Nat → Nat)
    {rs : List Nat} {fuel : Nat} (hn : 0 < n) (hnd : rs.Nodup)
    (hok : (addAll ABS fuel rs
      (IHashInit n keyOffset nextOffset hashFn sameKeyFn memKey memNext)).isOk = true) :
    Run ABS keysFixed n hashFn sameKeyFn (rs.map Call.add)
      ((addAll ABS fuel rs
        (IHashInit n keyOffset nextOffset hashFn sameKeyFn memKey memNext)).getD
        (IHashInit n keyOffset nextOffset hashFn sameKeyFn memKey memNext)) := by
  have h0 : Run ABS keysFixed n hashFn sameKeyFn []
      (IHashInit n keyOffset nextOffset hashFn sameKeyFn memKey memNext) :=
    Run.init keyOffset nextOffset memKey memNext hn
  exact Run.addAll_run rs h0 hnd (fun r _ => not_indexed_init hn _ _ _ _ _ _ r)
    (Res.eq_ok_getD _ hok)

/-- After calls that are all `IHashAdd`, the indexed records are the added ones. -/
theorem Run.indexed_of_adds {ABS : Int → Int} {keysFixed : Bool} {n : Int}
    {hashFn : K → Int} {sameKeyFn : K → K → Bool} {calls : List Call} {t : IHashTable K}
    (hrun : Run ABS keysFixed n hashFn sameKeyFn calls t)
    (hadds : ∀ c ∈ calls, Call.isAdd c = true) (x : Nat) :
    Indexed t x ↔ Call.add x ∈ calls := by
  induction hrun with
  | init keyOffset nextOffset memKey memNext hn =>
    simp [not_indexed_init hn]
  | add fuel r hrun hne hadd ih =>
    obtain ⟨cs, hI, _⟩ := hrun.inv
    rw [hI.indexed_add hne hadd x, ih (fun c hc => hadds c (List.mem_append_left _ hc))]
    simp [or_comm]
  | delete fuel r hrun hdel ih =>
    have := hadds (Call.delete r) (by simp)
    simp [Call.isAdd] at this
  | clear hrun ih =>
    have := hadds Call.clear (by simp)
    simp [Call.isAdd] at this
  | client memKey memNext hrun hnext hkey ih =>
    obtain ⟨cs, hI, _⟩ := hrun.inv
    rw [(hI.client_inv memKey memNext hnext).rep.indexed_iff, ← hI.rep.indexed_iff]
    exact ih hadds

/-! ## `IHashLookUp` and `IHashLookUpNext` -/

/-- With enough fuel the lookup loop returns the first record of the chain whose key
matches, or `NULL`. -/
theorem lookUpLoop_eq {t : IHashTable K} {key : K} :
    ∀ (l : List Nat) (fuel p : Nat), IsChain t.mem_next p l → l.length ≤ fuel →
      lookUpLoop t key fuel p =
        .ok ((l.find? fun e => t.iht_sameKeyFn key (t.mem_key e)).getD 0)
  | [], fuel, p, hch, _ => by
    have hp : p = 0 := hch
    cases fuel <;> simp [lookUpLoop, hp]
  | a :: l, fuel, p, hch, hfuel => by
    obtain ⟨rfl, h2, h3⟩ := hch
    by_cases hm : t.iht_sameKeyFn key (t.mem_key p) = true
    · cases fuel <;> simp [lookUpLoop, hm, List.find?_cons]
    · cases fuel with
      | zero => simp at hfuel
      | succ fuel =>
        have hcond : ¬ (p = 0 ∨ t.iht_sameKeyFn key (t.mem_key p) = true) :=
          fun h => h.elim h2 hm
        simp only [lookUpLoop, if_neg hcond]
        rw [lookUpLoop_eq l fuel _ h3 (Nat.le_of_succ_le_succ hfuel)]
        simp [List.find?_cons, hm]

theorem slotOf_of_nonneg {ABS : Int → Int} {t : IHashTable K} (key : K)
    (hnb : t.iht_nBuckets = t.iht_table.length) (hpos : 0 < t.iht_nBuckets)
    (hABS : 0 ≤ ABS (t.iht_hashFn key)) :
    slotOf ABS t key = .ok (slotNat ABS t key) := by
  rw [slotOf_eq_ok]
  have h1 := Int.tmod_nonneg t.iht_nBuckets hABS
  have h2 := Int.tmod_lt_of_pos (ABS (t.iht_hashFn key)) hpos
  refine ⟨ne_of_gt hpos, h1, ?_, rfl⟩
  unfold slotNat
  have h3 : ((Int.tmod (ABS (t.iht_hashFn key)) t.iht_nBuckets).toNat : Int) <
      (t.iht_table.length : Int) := by
    rw [Int.toNat_of_nonneg h1, ← hnb]
    exact h2
  exact_mod_cast h3

theorem chain_length_le {cs : List (List Nat)} {b : Nat} {l : List Nat}
    (hb : cs[b]? = some l) : l.length ≤ cs.flatten.length :=
  (List.sublist_flatten_of_mem (List.mem_iff_getElem?.2 ⟨b, hb⟩)).length_le

theorem Inv.fuel_le {t : IHashTable K} {cs : List (List Nat)} (hI : Inv t cs) {b : Nat}
    {l : List Nat} (hb : cs[b]? = some l) {fuel : Nat} (hfuel : t.iht_nEntries.toNat ≤ fuel) :
    l.length ≤ fuel := by
  have h1 := chain_length_le hb
  have h2 := hI.count
  omega

/-- `IHashLookUp` on a table with chains `cs`: the first match of the key's chain. -/
theorem IHashLookUp_eq {ABS : Int → Int} {t : IHashTable K} {cs : List (List Nat)}
    (hrep : Rep t cs) {key : K} {b : Nat} {l : List Nat}
    (hslot : slotOf ABS t key = .ok b) (hb : cs[b]? = some l) {fuel : Nat}
    (hfuel : l.length ≤ fuel) :
    IHashLookUp ABS fuel t key =
      .ok ((l.find? fun e => t.iht_sameKeyFn key (t.mem_key e)).getD 0) := by
  unfold IHashLookUp
  rw [hslot, Res.bind_ok]
  exact lookUpLoop_eq l fuel _ (hrep.chain b l hb) hfuel

/-! ## The multi-match scan -/

theorem Res.bind_map {α β γ : Type} (r : Res α) (f : α → Res β) (g : β → γ) :
    r.bind (fun a => (f a).map g) = (r.bind f).map g := by
  cases r <;> rfl

theorem scanNext_zero (fuel : Nat) (t : IHashTable K) (steps : Nat) :
    scanNext fuel t steps 0 = .ok [] := by
  cases steps <;> simp [scanNext]

theorem scanChain_length_le (t : IHashTable K) :
    ∀ (l : List Nat) (ke : K), (scanChain t ke l).length ≤ l.length
  | [], _ => Nat.le_refl _
  | a :: l, ke => by
    unfold scanChain
    split
    · exact Nat.succ_le_succ (scanChain_length_le t l _)
    · exact Nat.le_succ_of_le (scanChain_length_le t l _)

/-- The lookup loop from the head of a chain followed by the scan of its result is
the pure scan of the chain. -/
theorem lookUpLoop_scanNext {t : IHashTable K} (hnb : t.iht_nBuckets ≠ 0) {fuel : Nat} :
    ∀ (l : List Nat) (q : Nat) (ke : K) (f steps : Nat), IsChain t.mem_next q l →
      l.length ≤ f → l.length ≤ fuel → l.length ≤ steps →
      (lookUpLoop t ke f q).bind (scanNext fuel t steps) = .ok (scanChain t ke l)
  | [], q, ke, f, steps, hch, _, _, _ => by
    have hq : q = 0 := hch
    subst hq
    have : lookUpLoop t ke f 0 = .ok 0 := by cases f <;> simp [lookUpLoop]
    rw [this, Res.bind_ok, scanNext_zero]
    rfl
  | a :: l, q, ke, f, steps, hch, hf, hfuel, hsteps => by
    obtain ⟨rfl, h2, h3⟩ := hch
    simp only [List.length_cons] at hf hfuel hsteps
    by_cases hm : t.iht_sameKeyFn ke (t.mem_key q) = true
    · have h1 : lookUpLoop t ke f q = .ok q := by cases f <;> simp [lookUpLoop, hm]
      rw [h1, Res.bind_ok]
      cases steps with
      | zero => omega
      | succ steps =>
        have hnext : IHashLookUpNext fuel t q = lookUpLoop t (t.mem_key q) fuel (t.mem_next q) := by
          unfold IHashLookUpNext
          rw [if_neg h2, if_neg hnb]
        simp only [scanNext, if_neg h2]
        rw [hnext, Res.bind_map,
          lookUpLoop_scanNext hnb l _ (t.mem_key q) fuel steps h3 (by omega) (by omega)
            (by omega)]
        simp [scanChain, hm, Res.map]
    · cases f with
      | zero => omega
      | succ f =>
        have hcond : ¬ (q = 0 ∨ t.iht_sameKeyFn ke (t.mem_key q) = true) :=
          fun h => h.elim h2 hm
        simp only [lookUpLoop, if_neg hcond]
        rw [lookUpLoop_scanNext hnb l _ ke f steps h3 (by omega) (by omega) (by omega)]
        simp [scanChain, hm]

/-- The scan for `k` on a table with chains `cs` is the pure scan of the chain of the
bucket of `k`. -/
theorem scan_eq {ABS : Int → Int} {t : IHashTable K} {cs : List (List Nat)} (hrep : Rep t cs)
    (hnb : t.iht_nBuckets ≠ 0) {k : K} {b : Nat} {l : List Nat}
    (hslot : slotOf ABS t k = .ok b) (hb : cs[b]? = some l) {fuel : Nat}
    (hfuel : l.length ≤ fuel) :
    scan ABS fuel t k = .ok (scanChain t k l) := by
  unfold scan IHashLookUp
  rw [hslot, Res.bind_ok]
  exact lookUpLoop_scanNext hnb l _ k fuel fuel (hrep.chain b l hb) hfuel hfuel hfuel

/-- With a symmetric and transitive comparison the pure scan of a chain for `k`
returns the records of the chain whose key matches `k`. -/
theorem scanChain_eq_filter {t : IHashTable K}
    (hsymm : ∀ a b, t.iht_sameKeyFn a b = true → t.iht_sameKeyFn b a = true)
    (htrans : ∀ a b c, t.iht_sameKeyFn a b = true → t.iht_sameKeyFn b c = true →
      t.iht_sameKeyFn a c = true) (k : K) :
    ∀ (l : List Nat) (ke : K), (∀ x, t.iht_sameKeyFn ke x = t.iht_sameKeyFn k x) →
      scanChain t ke l = l.filter fun x => t.iht_sameKeyFn k (t.mem_key x)
  | [], _, _ => rfl
  | a :: l, ke, hke => by
    unfold scanChain
    rw [hke]
    by_cases hk : t.iht_sameKeyFn k (t.mem_key a) = true
    · have hnext : ∀ x, t.iht_sameKeyFn (t.mem_key a) x = t.iht_sameKeyFn k x := by
        intro x
        rw [Bool.eq_iff_iff]
        exact ⟨fun h => htrans _ _ _ hk h, fun h => htrans _ _ _ (hsymm _ _ hk) h⟩
      rw [if_pos hk, scanChain_eq_filter hsymm htrans k l _ hnext]
      simp [List.filter_cons, hk]
    · rw [if_neg hk, scanChain_eq_filter hsymm htrans k l ke hke]
      simp [List.filter_cons, hk]

/-! ## Chain order -/

theorem mem_addsOf {calls : List Call} {x : Nat} : x ∈ addsOf calls ↔ Call.add x ∈ calls := by
  induction calls with
  | nil => simp [addsOf]
  | cons c calls ih =>
    cases c <;> simp [addsOf, ih]

/-- An `IHashAdd` below the rebuild ratio is the plain push. -/
theorem IHashAdd_push {ABS : Int → Int} (f : Nat) {t : IHashTable K} {e : Nat} (he : e ≠ 0)
    (hslot : slotOf ABS t (t.mem_key e) = .ok (slotNat ABS t (t.mem_key e)))
    (hmax : t.iht_nEntries + 1 ≤ INT_MAX)
    (hno : Int.tdiv (t.iht_nEntries + 1) t.iht_nBuckets < iHashResizeRatio) :
    IHashAdd ABS f t e = .ok (pushEntry t (slotNat ABS t (t.mem_key e)) e) := by
  rw [IHashAdd_unfold, if_neg he, hslot, Res.bind_ok, if_neg (not_lt.2 hmax),
    if_neg (not_le.2 hno)]

theorem resizeChain_returns {ABS : Int → Int} (f : Nat) :
    ∀ (l : List Nat) (fuel : Nat) (T : IHashTable K) (C : List (List Nat)) (e : Nat),
      (∀ a ∈ l, 0 ≤ ABS (T.iht_hashFn (T.mem_key a))) →
      Built ABS T C → IsChain T.mem_next e l → (l ++ C.flatten).Nodup →
      T.iht_nEntries + l.length < iHashResizeRatio * T.iht_nBuckets →
      T.iht_nEntries + l.length ≤ INT_MAX → l.length ≤ fuel →
      ∃ T1, resizeChain (IHashAdd ABS f) fuel T e = .ok T1
  | [], fuel, T, C, e, _, _, hch, _, _, _, _ => by
    have he : e = 0 := hch
    subst he
    exact ⟨T, by cases fuel <;> simp [resizeChain]⟩
  | a :: l, fuel, T, C, e, hnn, hB, hch, hnd, hload, hmax, hfuel => by
    obtain ⟨rfl, ha0, hch⟩ := hch
    simp only [List.length_cons, Nat.cast_add, Nat.cast_one] at hload hmax
    have hl0 : (0 : Int) ≤ (l.length : Int) := Int.natCast_nonneg _
    cases fuel with
    | zero => simp at hfuel
    | succ fuel =>
      have hnd1 : (e :: (l ++ C.flatten)).Nodup := hnd
      obtain ⟨hnotin, _⟩ := List.nodup_cons.1 hnd1
      have haC : e ∉ C.flatten := fun hm => hnotin (List.mem_append_right _ hm)
      have hal : e ∉ l := fun hm => hnotin (List.mem_append_left _ hm)
      have hload1 : T.iht_nEntries + 1 < iHashResizeRatio * T.iht_nBuckets := by omega
      have hn0 : 0 ≤ T.iht_nEntries + 1 := by
        rw [hB.count]
        omega
      have hslot := @slotOf_of_nonneg _ ABS _ (T.mem_key e) hB.nBuckets_eq hB.nBuckets_pos
        (hnn e (List.mem_cons_self _ _))
      have hadd := IHashAdd_push f ha0 hslot (by omega)
        ((tdiv_lt_ratio hn0 hB.nBuckets_pos).2 hload1)
      obtain ⟨_, hB2⟩ := hB.add_built haC hload1 hadd
      have hlt : slotNat ABS T (T.mem_key e) < C.length := by
        rw [hB.rep.length_eq]
        exact slotOf_lt hslot
      have hperm2 := flatten_set_perm (getElem?_getD_of_lt ([] : List Nat) hlt)
        (List.Perm.refl (e :: C.getD (slotNat ABS T (T.mem_key e)) []))
      have hch2 : IsChain (pushEntry T (slotNat ABS T (T.mem_key e)) e).mem_next
          (T.mem_next e) l := by
        refine IsChain.congr ?_ hch
        intro x hx
        have hxe : x ≠ e := fun hxe => hal (hxe ▸ hx)
        simp [pushEntry, hxe]
      have hnd3 : (l ++ (C.set (slotNat ABS T (T.mem_key e))
          (e :: C.getD (slotNat ABS T (T.mem_key e)) [])).flatten).Nodup :=
        ((hperm2.append_left l).trans List.perm_middle).nodup_iff.2 hnd1
      obtain ⟨T1, hT1⟩ := resizeChain_returns f l fuel
        (pushEntry T (slotNat ABS T (T.mem_key e)) e) _ (T.mem_next e)
        (fun x hx => hnn x (List.mem_cons_of_mem _ hx)) hB2 hch2 hnd3
        (by simp only [pushEntry]; omega) (by simp only [pushEntry]; omega)
        (Nat.le_of_succ_le_succ hfuel)
      refine ⟨T1, ?_⟩
      simp only [resizeChain, ha0, if_false]
      rw [hadd, Res.bind_ok]
      exact hT1

theorem resizeLoop_returns {ABS : Int → Int} (f fuel : Nat)
    (hs : List Nat) :
    ∀ (rest : List (List Nat)) (bucket : Nat) (T : IHashTable K) (C : List (List Nat)),
      (∀ a ∈ rest.flatten, 0 ≤ ABS (T.iht_hashFn (T.mem_key a))) →
      Built ABS T C →
      List.Forall₂ (IsChain T.mem_next) (hs.drop bucket) rest →
      (rest.flatten ++ C.flatten).Nodup →
      T.iht_nEntries + rest.flatten.length < iHashResizeRatio * T.iht_nBuckets →
      T.iht_nEntries + rest.flatten.length ≤ INT_MAX → rest.flatten.length ≤ fuel →
      ∃ T1, resizeLoop (IHashAdd ABS f) fuel hs rest.length bucket T = .ok T1
  | [], bucket, T, C, _, _, _, _, _, _, _ => ⟨T, rfl⟩
  | c :: rest, bucket, T, C, hnn, hB, hfa, hnd, hload, hmax, hfuel => by
    generalize hdrop : hs.drop bucket = d at hfa
    cases hfa with
    | @cons hd _ hs1 _ hc hrest =>
      have hget : hs[bucket]? = some hd := by
        have := List.getElem?_drop hs bucket 0
        rw [hdrop] at this
        simpa using this.symm
      have hdrop1 : hs.drop (bucket + 1) = hs1 := by
        have := List.drop_drop 1 bucket hs
        rw [hdrop] at this
        simpa using this.symm
      simp only [List.flatten_cons, List.append_assoc] at hnd
      have hnd_c : (c ++ C.flatten).Nodup := by
        rw [List.nodup_append] at hnd ⊢
        obtain ⟨h1, h2, h3⟩ := hnd
        refine ⟨h1, (List.nodup_append.1 h2).2.1, ?_⟩
        intro x hx hxC
        exact h3 hx (List.mem_append_right _ hxC)
      have hnn_c : ∀ a ∈ c, 0 ≤ ABS (T.iht_hashFn (T.mem_key a)) := fun a ha =>
        hnn a (by simp [ha])
      have hnn_r : ∀ a ∈ rest.flatten, 0 ≤ ABS (T.iht_hashFn (T.mem_key a)) := fun a ha =>
        hnn a (by
          simp only [List.flatten_cons, List.mem_append]
          exact Or.inr ha)
      simp only [List.flatten_cons, List.length_append, Nat.cast_add] at hload hmax hfuel
      have hr0 : (0 : Int) ≤ (rest.flatten.length : Int) := Int.natCast_nonneg _
      have hload_c : T.iht_nEntries + c.length < iHashResizeRatio * T.iht_nBuckets := by
        omega
      obtain ⟨T2, hT2⟩ := resizeChain_returns f c fuel T C hd hnn_c hB hc hnd_c
        hload_c (by omega) (by omega)
      obtain ⟨hF2, hB2, hnext2, hperm2⟩ :=
        resizeChain_ok c fuel T T2 C hd hB hc hnd_c hload_c hT2
      have hdisj : ∀ a ∈ rest.flatten, a ∉ c := by
        intro a ha hac
        rw [List.nodup_append] at hnd
        exact hnd.2.2 hac (List.mem_append_left _ ha)
      have hfa2 : List.Forall₂ (IsChain T2.mem_next) (hs.drop (bucket + 1)) rest := by
        rw [hdrop1]
        exact forall_chain_congr hrest fun a ha => hnext2 a (hdisj a ha)
      have hswap : (rest.flatten ++ (c ++ C.flatten)).Perm (c ++ (rest.flatten ++ C.flatten)) := by
        rw [← List.append_assoc, ← List.append_assoc]
        exact List.Perm.append_right _ List.perm_append_comm
      have hnd2 : (rest.flatten ++
          (pushAll (fun a => slotNat ABS T (T.mem_key a)) C c).flatten).Nodup :=
        ((hperm2.append_left rest.flatten).trans hswap).nodup_iff.2 hnd
      have hcount2 : T2.iht_nEntries = T.iht_nEntries + c.length := by
        rw [hB2.count, hperm2.length_eq, hB.count, List.length_append]
        push_cast
        omega
      obtain ⟨T1, hT1⟩ := resizeLoop_returns f fuel hs rest
        (bucket + 1) T2 _ (by rw [hF2.hashFn, hF2.mem_key]; exact hnn_r) hB2 hfa2 hnd2
        (by rw [hcount2, hF2.nBuckets]; omega) (by rw [hcount2]; omega) (by omega)
      refine ⟨T1, ?_⟩
      simp only [List.length_cons, resizeLoop, hget]
      rw [hT2, Res.bind_ok]
      exact hT1

/-- `IHashAdd` of a record that is not indexed returns on every reachable table, given
fuel for the longest walk and `int` counters that do not overflow, when `ABS` gives a
non-negative value on the hash of the record's key and of the keys of the indexed
records. -/
theorem IHashAdd_returns {ABS : Int → Int} {keysFixed : Bool}
    {n : Int} {hashFn : K → Int} {sameKeyFn : K → K → Bool} {calls : List Call}
    {t : IHashTable K} (hrun : Run ABS keysFixed n hashFn sameKeyFn calls t) {r : Nat}
    (hnn : ∀ p, p = r ∨ Indexed t p → 0 ≤ ABS (t.iht_hashFn (t.mem_key p)))
    (hr0 : r ≠ 0) (hne : ¬ Indexed t r) {fuel : Nat}
    (hfuel : t.iht_nEntries.toNat + 2 ≤ fuel) (hmax : t.iht_nEntries + 1 ≤ INT_MAX)
    (hmax4 : iHashResizeRatio ≤ Int.tdiv (t.iht_nEntries + 1) t.iht_nBuckets →
      t.iht_nBuckets * 4 ≤ INT_MAX) :
    ∃ t1, IHashAdd ABS fuel t r = .ok t1 := by
  obtain ⟨cs, hI, _⟩ := hrun.inv
  have hslot := @slotOf_of_nonneg _ ABS _ (t.mem_key r) hI.nBuckets_eq hI.nBuckets_pos
    (hnn r (Or.inl rfl))
  by_cases htr : iHashResizeRatio ≤ Int.tdiv (t.iht_nEntries + 1) t.iht_nBuckets
  · have hlt : slotNat ABS t (t.mem_key r) < cs.length := by
      rw [hI.rep.length_eq]
      exact slotOf_lt hslot
    have hb := getElem?_getD_of_lt ([] : List Nat) hlt
    have hnotin : r ∉ cs.flatten := fun hm => hne ((hI.rep.indexed_iff r).2 hm)
    have hrep1 := hI.rep.push_rep hr0 hnotin hb
    have hperm1 := flatten_set_perm hb
      (List.Perm.refl (r :: cs.getD (slotNat ABS t (t.mem_key r)) []))
    have hpos := hI.nBuckets_pos
    have hload := hI.load
    have hcount := hI.count
    have hlen1 := hperm1.length_eq
    simp only [List.length_cons] at hlen1
    have hB0 := Built.of_growEmpty ABS
      (t := pushEntry t (slotNat ABS t (t.mem_key r)) r) hpos
    have hfa : List.Forall₂
        (IsChain (growEmpty (pushEntry t (slotNat ABS t (t.mem_key r)) r)).mem_next)
        ((pushEntry t (slotNat ABS t (t.mem_key r)) r).iht_table.drop 0)
        (cs.set (slotNat ABS t (t.mem_key r))
          (r :: cs.getD (slotNat ABS t (t.mem_key r)) [])) := by
      simpa using hrep1.forall_chain
    have hnd : ((cs.set (slotNat ABS t (t.mem_key r))
        (r :: cs.getD (slotNat ABS t (t.mem_key r)) [])).flatten ++
        (List.replicate ((pushEntry t (slotNat ABS t (t.mem_key r)) r).iht_nBuckets * 4).toNat
          ([] : List Nat)).flatten).Nodup := by
      simpa using hrep1.nodup
    obtain ⟨f, rfl⟩ : ∃ f, fuel = f + 1 := ⟨fuel - 1, by omega⟩
    have hnn1 : ∀ a ∈ (cs.set (slotNat ABS t (t.mem_key r))
        (r :: cs.getD (slotNat ABS t (t.mem_key r)) [])).flatten,
        0 ≤ ABS ((growEmpty (pushEntry t (slotNat ABS t (t.mem_key r)) r)).iht_hashFn
          ((growEmpty (pushEntry t (slotNat ABS t (t.mem_key r)) r)).mem_key a)) := by
      intro a ha
      rcases List.mem_cons.1 (hperm1.subset ha) with h | h
      · exact hnn a (Or.inl h)
      · exact hnn a (Or.inr ((hI.rep.indexed_iff a).2 h))
    obtain ⟨T1, hT1⟩ := resizeLoop_returns f f
      (pushEntry t (slotNat ABS t (t.mem_key r)) r).iht_table _ 0 _ _ hnn1 hB0 hfa hnd
      (by
        show (0 : Int) + _ < iHashResizeRatio * (t.iht_nBuckets * 4)
        rw [hlen1]
        unfold iHashResizeRatio at hload ⊢
        push_cast
        omega)
      (by
        show (0 : Int) + _ ≤ INT_MAX
        rw [hlen1]
        push_cast
        omega)
      (by
        rw [hlen1]
        omega)
    refine ⟨T1, ?_⟩
    rw [IHashAdd_unfold, if_neg hr0, hslot, Res.bind_ok, if_neg (not_lt.2 hmax), if_pos htr]
    show iHashResize ABS f (pushEntry t (slotNat ABS t (t.mem_key r)) r) = .ok T1
    unfold iHashResize iHashResizeBody
    have hov : ¬ ((pushEntry t (slotNat ABS t (t.mem_key r)) r).iht_nBuckets * 4 > INT_MAX ∨
        (pushEntry t (slotNat ABS t (t.mem_key r)) r).iht_nBuckets * 4 < INT_MIN) := by
      have h4 := hmax4 htr
      show ¬ (t.iht_nBuckets * 4 > INT_MAX ∨ t.iht_nBuckets * 4 < INT_MIN)
      unfold INT_MIN
      omega
    rw [if_neg hov]
    have hlenc : (pushEntry t (slotNat ABS t (t.mem_key r)) r).iht_nBuckets.toNat =
        (cs.set (slotNat ABS t (t.mem_key r))
          (r :: cs.getD (slotNat ABS t (t.mem_key r)) [])).length := by
      show t.iht_nBuckets.toNat = _
      rw [List.length_set, hI.rep.length_eq, hI.nBuckets_eq]
      simp
    rw [hlenc]
    exact hT1
  · exact ⟨_, IHashAdd_push fuel hr0 hslot hmax (not_le.1 htr)⟩

/-! ## Key strategies and example tables -/

theorem specABS_nonneg (x : Int) : 0 ≤ specABS x := by
  unfold specABS
  split <;> omega

/-- The 32-bit `ABS` gives a non-negative value on every `int` but `-2^31`. -/
theorem ABS32_nonneg {x : Int} (h : INT_MIN < x) : 0 ≤ ABS32 x := by
  unfold INT_MIN at h
  unfold ABS32 wrapInt
  split <;> omega

theorem wordKey_compat (a b : Int) (h : IHashWordKeyEq a b = true) :
    IHashWordKeyHash a = IHashWordKeyHash b := by
  unfold IHashWordKeyEq at h
  unfold IHashWordKeyHash
  exact of_decide_eq_true h

theorem stringHashLoop_cString :
    ∀ (s : List Int) (i : Int), stringHashLoop s i = stringHashLoop (cString s) i
  | [], _ => rfl
  | c :: s, i => by
    by_cases hc : c = 0
    · simp [stringHashLoop, cString, hc]
    · simp only [stringHashLoop, cString, if_neg hc]
      exact stringHashLoop_cString s _

theorem stringKey_compat (a b : List Int) (h : IHashStringKeyEq a b = true) :
    IHashStringKeyHash a = IHashStringKeyHash b := by
  unfold IHashStringKeyEq at h
  unfold IHashStringKeyHash
  rw [stringHashLoop_cString a, stringHashLoop_cString b, of_decide_eq_true h]

/-- A word-key table of one bucket after three records were added: the third `IHashAdd`
rebuilt it with four buckets. -/
theorem wordTable_one_run :
    Run specABS true 1 IHashWordKeyHash IHashWordKeyEq [Call.add 1, Call.add 2, Call.add 3]
      ((addAll specABS 4 [1, 2, 3] (wordTable 1)).getD (wordTable 1)) ∧
    ((addAll specABS 4 [1, 2, 3] (wordTable 1)).getD (wordTable 1)).iht_nBuckets = 4 := by
  refine ⟨?_, by decide⟩
  have h0 : Run specABS true 1 IHashWordKeyHash IHashWordKeyEq [] (wordTable 1) :=
    Run.init 0 4 _ _ (by decide)
  exact Run.addAll_run [1, 2, 3] h0 (by decide)
    (fun r _ => not_indexed_init (by decide) _ _ _ _ _ _ r)
    (Res.eq_ok_getD _ (by decide))

/-- A word-key table of four buckets after the records 1..11 were added. -/
theorem wordTable_four_run :
    Run specABS true 4 IHashWordKeyHash IHashWordKeyEq ((List.range' 1 11).map Call.add)
      ((addAll specABS 1 (List.range' 1 11) (wordTable 4)).getD (wordTable 4)) := by
  have h0 : Run specABS true 4 IHashWordKeyHash IHashWordKeyEq [] (wordTable 4) :=
    Run.init 0 4 _ _ (by decide)
  exact Run.addAll_run (List.range' 1 11) h0 (by decide)
    (fun r _ => not_indexed_init (by decide) _ _ _ _ _ _ r)
    (Res.eq_ok_getD _ (by decide!))

/-! ## The predefined hashes -/

theorem wrapInt_range (x : Int) : INT_MIN ≤ wrapInt x ∧ wrapInt x ≤ INT_MAX := by
  unfold wrapInt INT_MIN INT_MAX
  omega

theorem wrapInt_of_range {x : Int} (h1 : INT_MIN ≤ x) (h2 : x ≤ INT_MAX) : wrapInt x = x := by
  unfold INT_MIN at h1
  unfold INT_MAX at h2
  unfold wrapInt
  omega

/-- The final `if(i<0) i = -i` of the byte-accumulating hashes misses one value only. -/
theorem negate_nonneg_or_min (v : Int) (h1 : INT_MIN ≤ v) (h2 : v ≤ INT_MAX) :
    (0 ≤ (if v < 0 then wrapInt (-v) else v) ∧ (if v < 0 then wrapInt (-v) else v) = |v| ∧
      v ≠ INT_MIN) ∨
    ((if v < 0 then wrapInt (-v) else v) = INT_MIN ∧ v = INT_MIN) := by
  unfold INT_MIN at *
  unfold INT_MAX at h2
  unfold wrapInt
  by_cases hv : v < 0
  · rw [if_pos hv, abs_of_neg hv]
    omega
  · rw [if_neg hv, abs_of_nonneg (by omega)]
    omega

theorem stringHashLoop_eq_foldl :
    ∀ (s : List Int) (i : Int),
      stringHashLoop s i = (cString s).foldl (fun h c => wrapInt (h * 10 + (c - 48))) i
  | [], _ => rfl
  | c :: s, i => by
    by_cases hc : c = 0
    · simp [stringHashLoop, cString, hc]
    · simp only [stringHashLoop, cString, if_neg hc, List.foldl_cons]
      exact stringHashLoop_eq_foldl s _

theorem stringHashLoop_range :
    ∀ (s : List Int) (i : Int), INT_MIN ≤ i → i ≤ INT_MAX →
      INT_MIN ≤ stringHashLoop s i ∧ stringHashLoop s i ≤ INT_MAX
  | [], _, h1, h2 => ⟨h1, h2⟩
  | c :: s, i, h1, h2 => by
    by_cases hc : c = 0
    · simp only [stringHashLoop, if_pos hc]
      exact ⟨h1, h2⟩
    · simp only [stringHashLoop, if_neg hc]
      exact stringHashLoop_range s _ (wrapInt_range _).1 (wrapInt_range _).2

theorem iHashLoop_eq_foldl (s : Nat → Int) :
    ∀ (remaining i : Nat) (hash : Int),
      iHashLoop s remaining i hash =
        ((List.range' i remaining).map s).foldl (fun h c => wrapInt (h * 10 + (c - 48))) hash
  | 0, _, _ => rfl
  | remaining + 1, i, hash => by
    simp only [iHashLoop, List.range', List.map_cons, List.foldl_cons]
    exact iHashLoop_eq_foldl s remaining (i + 1) _

theorem iHashLoop_range (s : Nat → Int) :
    ∀ (remaining i : Nat) (hash : Int), INT_MIN ≤ hash → hash ≤ INT_MAX →
      INT_MIN ≤ iHashLoop s remaining i hash ∧ iHashLoop s remaining i hash ≤ INT_MAX
  | 0, _, _, h1, h2 => ⟨h1, h2⟩
  | remaining + 1, i, hash, _, _ => by
    simp only [iHashLoop]
    exact iHashLoop_range s remaining (i + 1) _ (wrapInt_range _).1 (wrapInt_range _).2

theorem fourWordKey_compat (a b : Nat → Int) (h : IHash4WordKeyEq a b = true) :
    IHash4WordKeyHash a = IHash4WordKeyHash b := by
  unfold IHash4WordKeyEq at h
  have h1 := of_decide_eq_true h
  rw [List.range_eq_range'] at h1
  unfold IHash4WordKeyHash iHash
  have h16 : (4 * 4 : Int).toNat = 16 := by decide
  rw [h16, iHashLoop_eq_foldl a, iHashLoop_eq_foldl b, h1]

theorem stringPKey_compat (text : Nat → List Int) (a b : Nat)
    (h : IHashStringPKeyEq text a b = true) :
    IHashStringPKeyHash text a = IHashStringPKeyHash text b := by
  unfold IHashStringPKeyEq at h
  unfold IHashStringPKeyHash
  rw [stringHashLoop_cString (text a), stringHashLoop_cString (text b), of_decide_eq_true h]

/-- Text made of decimal digits whose value stays below `2^31`: the loop computes the
value, digit by digit, without wrapping. -/
theorem stringHashLoop_digits (rest : List Int) :
    ∀ (digits : List Nat) (acc : Nat), (∀ d ∈ digits, d < 10) →
      digits.foldl (fun y x => x + 10 * y) acc < 2 ^ 31 →
      stringHashLoop (digits.map (fun d : Nat => (d : Int) + 48) ++ 0 :: rest) (acc : Int) =
        (digits.foldl (fun y x => x + 10 * y) acc : Nat)
  | [], acc, _, _ => by simp [stringHashLoop]
  | d :: ds, acc, hd, hlt => by
    have hmono : ∀ (l : List Nat) (a : Nat), a ≤ l.foldl (fun y x => x + 10 * y) a := by
      intro l
      induction l with
      | nil => intro a; exact le_refl _
      | cons x l ih =>
        intro a
        simp only [List.foldl_cons]
        exact le_trans (by omega) (ih (x + 10 * a))
    simp only [List.foldl_cons] at hlt
    have h1 := hmono ds (d + 10 * acc)
    have hc : ((d : Int) + 48) ≠ 0 := by omega
    simp only [List.map_cons, List.cons_append, stringHashLoop, if_neg hc, List.foldl_cons]
    have hw : wrapInt ((acc : Int) * 10 + ((d : Int) + 48 - 48)) = ((d + 10 * acc : Nat) : Int) := by
      rw [wrapInt_of_range]
      · push_cast
        ring
      · unfold INT_MIN
        omega
      · unfold INT_MAX
        omega
    rw [hw]
    exact stringHashLoop_digits rest ds (d + 10 * acc)
      (fun x hx => hd x (List.mem_cons_of_mem _ hx)) hlt

/-- The wrapping fold is the fold over the integers as long as no prefix of the text
takes it out of the range of `int`. -/
theorem foldl_wrapInt_eq (l : List Int)
    (h : ∀ p, p <+: l →
      INT_MIN ≤ p.foldl (fun h c => h * 10 + (c - 48)) 0 ∧
      p.foldl (fun h c => h * 10 + (c - 48)) 0 ≤ INT_MAX) :
    l.foldl (fun h c => wrapInt (h * 10 + (c - 48))) 0 =
      l.foldl (fun h c => h * 10 + (c - 48)) 0 := by
  induction l using List.reverseRecOn with
  | nil => rfl
  | append_singleton l a ih =>
    have h1 := h (l ++ [a]) (List.prefix_refl _)
    rw [List.foldl_append, List.foldl_append] at *
    simp only [List.foldl_cons, List.foldl_nil] at *
    rw [ih (fun p hp => h p (hp.trans (List.prefix_append _ _)))]
    exact wrapInt_of_range h1.1 h1.2

/-! ## `IHashEnum` -/

theorem enumChain_readOnly {σ : Type} (f : σ → IHashTable K → Nat → σ) (t : IHashTable K) :
    ∀ (l : List Nat) (fuel : Nat) (s : σ) (entry : Nat),
      IsChain t.mem_next entry l → l.length ≤ fuel →
      enumChain (readOnly f) fuel s t entry = .ok (l.foldl (fun s e => f s t e) s, t)
  | [], fuel, s, entry, hch, _ => by
    have he : entry = 0 := hch
    cases fuel <;> simp [enumChain, he]
  | a :: l, fuel, s, entry, hch, hfuel => by
    obtain ⟨h1, h2, h3⟩ := hch
    subst h1
    cases fuel with
    | zero => simp at hfuel
    | succ fuel =>
      simp only [enumChain, if_neg h2, readOnly, Res.bind_ok, List.foldl_cons]
      exact enumChain_readOnly f t l fuel _ _ h3 (by simpa using hfuel)

theorem drop_eq_cons_of_getElem? {α : Type} {cs : List α} {b : Nat} {l : α}
    (h : cs[b]? = some l) : cs.drop b = l :: cs.drop (b + 1) := by
  obtain ⟨hlt, hget⟩ := List.getElem?_eq_some_iff.1 h
  rw [List.drop_eq_getElem_cons hlt, hget]

theorem enumLoop_readOnly {σ : Type} (f : σ → IHashTable K → Nat → σ) {t : IHashTable K}
    {cs : List (List Nat)} (hrep : Rep t cs) (hnb : t.iht_nBuckets = t.iht_table.length)
    {fuel : Nat} (hfuel : cs.flatten.length ≤ fuel) :
    ∀ (k steps bucket : Nat) (s : σ), cs.length - bucket = k → k ≤ steps →
      enumLoop (readOnly f) fuel steps bucket s t =
        .ok ((cs.drop bucket).flatten.foldl (fun s e => f s t e) s, t)
  | 0, steps, bucket, s, hk, _ => by
    have hge : cs.length ≤ bucket := by omega
    have hcond : ¬ ((bucket : Int) < t.iht_nBuckets) := by
      rw [hnb, ← hrep.length_eq]
      omega
    rw [List.drop_eq_nil_of_le hge]
    cases steps <;> simp [enumLoop, hcond]
  | k + 1, steps, bucket, s, hk, hsteps => by
    have hlt : bucket < cs.length := by omega
    have hcond : (bucket : Int) < t.iht_nBuckets := by
      rw [hnb, ← hrep.length_eq]
      omega
    cases steps with
    | zero => simp at hsteps
    | succ steps =>
      have hb : cs[bucket]? = some (cs.getD bucket []) := getElem?_getD_of_lt [] hlt
      have hhead : t.iht_table[bucket]? = some (t.iht_table.getD bucket 0) :=
        getElem?_getD_of_lt 0 (hrep.length_eq ▸ hlt)
      have hch := hrep.chain bucket _ hb
      simp only [enumLoop, if_pos hcond, hhead]
      rw [enumChain_readOnly f t _ fuel s _ hch (le_trans (chain_length_le hb) hfuel)]
      simp only [Res.bind_ok]
      rw [enumLoop_readOnly f hrep hnb hfuel k steps (bucket + 1) _ (by omega) (by omega),
        drop_eq_cons_of_getElem? hb, List.flatten_cons, List.foldl_append]

/-- The inner loop of `IHashEnum` under a callback that deletes the records selected by
`del` as it is handed them: with `kept` the part of chain `b` already walked and still
linked, and `rest` the part ahead, every record of `rest` is visited, in order, and the
chain is left as `kept` and the unselected records of `rest`. -/
theorem enumChain_deleteCurrent {ABS : Int → Int} {n : Int} {hashFn : K → Int}
    {sameKeyFn : K → K → Bool} (del : Nat → Bool) (fuelD b : Nat) :
    ∀ (rest : List Nat) (fuel : Nat) (kept log : List Nat) (T : IHashTable K)
      (C : List (List Nat)) (calls : List Call) (entry : Nat),
      Run ABS true n hashFn sameKeyFn calls T → Rep T C → C[b]? = some (kept ++ rest) →
      IsChain T.mem_next entry rest → rest.length ≤ fuel → (kept ++ rest).length ≤ fuelD →
      ∃ T1, enumChain (deleteCurrent ABS fuelD del) fuel log T entry = .ok (log ++ rest, T1) ∧
        Run ABS true n hashFn sameKeyFn (calls ++ (rest.filter del).map Call.delete) T1 ∧
        Rep T1 (C.set b (kept ++ rest.filter fun r => !del r)) ∧ Frame T T1
  | [], fuel, kept, log, T, C, calls, entry, hrun, hrep, hb, hch, _, _ => by
    have he : entry = 0 := hch
    refine ⟨T, ?_, ?_, ?_, Frame.frame_refl T⟩
    · cases fuel <;> simp [enumChain, he]
    · simpa using hrun
    · simp only [List.filter_nil]
      rw [set_getElem?_self hb]
      exact hrep
  | a :: rest, fuel, kept, log, T, C, calls, entry, hrun, hrep, hb, hch, hfuel, hfuelD => by
    obtain ⟨h1, h2, h3⟩ := hch
    subst h1
    have hnd : (kept ++ entry :: rest).Nodup := chain_nodup hrep.nodup hb
    have hblt : b < C.length := lt_of_getElem?_eq_some hb
    cases fuel with
    | zero => simp at hfuel
    | succ fuel =>
      have hfuel1 : rest.length ≤ fuel := by simpa using hfuel
      by_cases hd : del entry = true
      · obtain ⟨cs, hI, hPl, _⟩ := hrun.inv
        have hcs : C = cs := hrep.chains_unique hI.rep
        subst hcs
        have hslot : slotOf ABS T (T.mem_key entry) = .ok b :=
          hPl rfl b _ hb entry (by simp)
        have hnk : entry ∉ kept := fun hm =>
          (List.nodup_append.1 hnd).2.2 hm (List.mem_cons_self _ _)
        have hmin : INT_MIN ≤ T.iht_nEntries - 1 := by
          have := hI.count
          unfold INT_MIN
          omega
        have hdel : IHashDelete ABS fuelD T entry = .ok (unlinked T b kept entry) :=
          IHashDelete_found hrep hslot hb hnk
            (by rw [List.length_append] at hfuelD; omega) hmin
        obtain ⟨hrep1, hF1, _, hnext⟩ := hrep.unlinked_rep hb
        have hrun1 := Run.delete fuelD entry hrun hdel
        have hch1 : IsChain (unlinked T b kept entry).mem_next
            ((unlinked T b kept entry).mem_next entry) rest := by
          rw [hnext entry hnk]
          refine IsChain.congr (fun x hx => hnext x fun hm => ?_) h3
          exact (List.nodup_append.1 hnd).2.2 hm (List.mem_cons_of_mem _ hx)
        have hb1 : (C.set b (kept ++ rest))[b]? = some (kept ++ rest) := by
          simp [List.getElem?_set, hblt]
        obtain ⟨T2, he2, hrun2, hrep2, hF2⟩ :=
          enumChain_deleteCurrent del fuelD b rest fuel kept (log ++ [entry]) _ _ _ _
            hrun1 hrep1 hb1 hch1 hfuel1
            (by rw [List.length_append] at hfuelD ⊢; simp at hfuelD; omega)
        refine ⟨T2, ?_, ?_, ?_, hF1.frame_trans hF2⟩
        · simp only [enumChain, if_neg h2, deleteCurrent, if_pos hd, hdel, Res.map,
            Res.bind_ok]
          rw [he2]
          simp
        · simpa [List.filter_cons, hd] using hrun2
        · simpa [List.filter_cons, hd, List.set_set] using hrep2
      · have hb1 : C[b]? = some ((kept ++ [entry]) ++ rest) := by simpa using hb
        obtain ⟨T2, he2, hrun2, hrep2, hF2⟩ :=
          enumChain_deleteCurrent del fuelD b rest fuel (kept ++ [entry]) (log ++ [entry])
            T C calls (T.mem_next entry) hrun hrep hb1 h3 hfuel1 (by simpa using hfuelD)
        refine ⟨T2, ?_, ?_, ?_, hF2⟩
        · simp only [enumChain, if_neg h2, deleteCurrent, if_neg hd, Res.bind_ok]
          rw [he2]
          simp
        · simpa [List.filter_cons, hd] using hrun2
        · simpa [List.filter_cons, hd] using hrep2

theorem take_succ_set {α : Type} {cs : List α} {b : Nat} (v : α) (h : b < cs.length) :
    (cs.set b v).take (b + 1) = cs.take b ++ [v] := by
  rw [List.take_succ, List.set_take, List.set_eq_of_length_le (List.length_take_le _ _)]
  simp [List.getElem?_set, h]

/-- The outer loop of `IHashEnum` under the deleting callback, from bucket `bucket` on:
the records of the buckets ahead are visited in order, and these chains lose the
selected records. -/
theorem enumLoop_deleteCurrent {ABS : Int → Int} {n : Int} {hashFn : K → Int}
    {sameKeyFn : K → K → Bool} (del : Nat → Bool) (fuel fuelD : Nat) :
    ∀ (k steps bucket : Nat) (log : List Nat) (T : IHashTable K) (C : List (List Nat))
      (calls : List Call),
      Run ABS true n hashFn sameKeyFn calls T → Rep T C →
      (∀ (b : Nat) (l : List Nat), C[b]? = some l → l.length ≤ fuel ∧ l.length ≤ fuelD) →
      C.length - bucket = k → k ≤ steps →
      ∃ T1, enumLoop (deleteCurrent ABS fuelD del) fuel steps bucket log T =
          .ok (log ++ (C.drop bucket).flatten, T1) ∧
        Run ABS true n hashFn sameKeyFn
          (calls ++ ((C.drop bucket).flatten.filter del).map Call.delete) T1 ∧
        Rep T1 (C.take bucket ++ (C.drop bucket).map (List.filter fun r => !del r)) ∧
        Frame T T1
  | 0, steps, bucket, log, T, C, calls, hrun, hrep, _, hk, _ => by
    obtain ⟨cs, hI, _⟩ := hrun.inv
    have hge : C.length ≤ bucket := by omega
    have hcond : ¬ ((bucket : Int) < T.iht_nBuckets) := by
      rw [hI.nBuckets_eq, ← hrep.length_eq]
      omega
    rw [List.drop_eq_nil_of_le hge, List.take_of_length_le hge]
    refine ⟨T, ?_, by simpa using hrun, by simpa using hrep, Frame.frame_refl T⟩
    cases steps <;> simp [enumLoop, hcond]
  | k + 1, steps, bucket, log, T, C, calls, hrun, hrep, hlen, hk, hsteps => by
    obtain ⟨cs, hI, _⟩ := hrun.inv
    have hlt : bucket < C.length := by omega
    have hcond : (bucket : Int) < T.iht_nBuckets := by
      rw [hI.nBuckets_eq, ← hrep.length_eq]
      omega
    cases steps with
    | zero => simp at hsteps
    | succ steps =>
      have hb : C[bucket]? = some (C.getD bucket []) := getElem?_getD_of_lt [] hlt
      have hhead : T.iht_table[bucket]? = some (T.iht_table.getD bucket 0) :=
        getElem?_getD_of_lt 0 (hrep.length_eq ▸ hlt)
      have hch := hrep.chain bucket _ hb
      obtain ⟨T1, he1, hrun1, hrep1, hF1⟩ :=
        enumChain_deleteCurrent del fuelD bucket (C.getD bucket []) fuel [] log T C calls _
          hrun hrep (by simpa using hb) hch (hlen _ _ hb).1 (by simpa using (hlen _ _ hb).2)
      rw [List.nil_append] at hrep1
      have hlen1 : ∀ (b : Nat) (l : List Nat),
          (C.set bucket ((C.getD bucket []).filter fun r => !del r))[b]? = some l →
          l.length ≤ fuel ∧ l.length ≤ fuelD := by
        intro b l hbl
        rw [List.getElem?_set] at hbl
        split at hbl
        · injection hbl with hbl
          subst hbl
          have h1 := List.length_filter_le (fun r => !del r) (C.getD bucket [])
          have h2 := hlen _ _ hb
          omega
        · exact hlen b l hbl
      obtain ⟨T2, he2, hrun2, hrep2, hF2⟩ :=
        enumLoop_deleteCurrent del fuel fuelD k steps (bucket + 1) (log ++ C.getD bucket [])
          T1 _ _ hrun1 hrep1 hlen1 (by rw [List.length_set]; omega) (by omega)
      rw [List.drop_set_of_lt _ _ (Nat.lt_succ_self bucket)] at he2 hrun2 hrep2
      rw [take_succ_set _ hlt] at hrep2
      refine ⟨T2, ?_, ?_, ?_, hF1.frame_trans hF2⟩
      · simp only [enumLoop, if_pos hcond, hhead, he1, Res.bind_ok]
        rw [he2, drop_eq_cons_of_getElem? hb]
        simp
      · rw [drop_eq_cons_of_getElem? hb]
        simpa using hrun2
      · rw [drop_eq_cons_of_getElem? hb]
        simpa using hrep2

theorem foldl_log (l : List Nat) :
    ∀ log : List Nat, l.foldl (fun log e => log ++ [e]) log = log ++ l := by
  induction l with
  | nil => intro log; simp
  | cons a l ih => intro log; simp [ih]

/-! ## The chains after a rebuild -/

/-- Whatever the links are, a record met on a walk stays inside every set of pointers
that holds the start of the walk and is closed under following a link. -/
theorem OnChain.of_closed {next : Nat → Nat} {r p : Nat} (P : Nat → Prop)
    (h : OnChain next r p) (hp : P p) (hstep : ∀ q, P q → q ≠ 0 → P (next q)) : P r := by
  induction h with
  | head _ => exact hp
  | step hne _ ih => exact ih (hstep _ hp hne)

theorem OnChain.record_ne_zero {next : Nat → Nat} {r p : Nat} (h : OnChain next r p) :
    r ≠ 0 := by
  induction h with
  | head h0 => exact h0
  | step _ _ ih => exact ih

/-- After calls that are all `IHashAdd`, the records whose hash matters to an
`IHashAdd` of `r` are `r` and the records added. -/
theorem Run.hash_nonneg_of_adds {ABS : Int → Int} {keysFixed : Bool} {n : Int}
    {hashFn : K → Int} {sameKeyFn : K → K → Bool} {calls : List Call} {t : IHashTable K}
    (hrun : Run ABS keysFixed n hashFn sameKeyFn calls t)
    (hadds : ∀ c ∈ calls, Call.isAdd c = true) (r : Nat)
    (h : ∀ a ∈ r :: addsOf calls, 0 ≤ ABS (t.iht_hashFn (t.mem_key a))) :
    ∀ p, p = r ∨ Indexed t p → 0 ≤ ABS (t.iht_hashFn (t.mem_key p)) := by
  intro p hp
  apply h
  rcases hp with rfl | hp
  · exact List.mem_cons_self _ _
  · exact List.mem_cons_of_mem _ (mem_addsOf.2 ((hrun.indexed_of_adds hadds p).1 hp))

/-- A word-key table of four buckets after the records 1..11 were added, with the
32-bit `ABS`. -/
theorem wordTable_four_run32 :
    Run ABS32 true 4 IHashWordKeyHash IHashWordKeyEq ((List.range' 1 11).map Call.add)
      ((addAll ABS32 1 (List.range' 1 11) (wordTable 4)).getD (wordTable 4)) :=
  init_addAll_run 0 4 _ _ (by decide) (by decide) (by decide!)

/-- A word-key table of one bucket after the records 1 and 2 were added, with the
32-bit `ABS`. -/
theorem wordTable_two_run32 :
    Run ABS32 true 1 IHashWordKeyHash IHashWordKeyEq ([1, 2].map Call.add)
      ((addAll ABS32 1 [1, 2] (wordTable 1)).getD (wordTable 1)) :=
  init_addAll_run 0 4 _ _ (by decide) (by decide) (by decide)

/-! ## The claims -/

/-- `IHashLookUp` away from the hash `-2^31`: on every reachable table (records added
only while not indexed, keys fixed while indexed, `sameKeyFn`-equal keys with equal
hashes) and for every key `k` on whose hash `ABS` gives a non-negative value,
`IHashLookUp` returns; when some indexed record has a key `sameKeyFn`-equal to `k` the
record returned is indexed and has such a key, and when none has it returns `NULL`.
Rebuilt tables are reachable tables. -/
theorem IHashLookUp_correct {ABS : Int → Int} {n : Int}
    {hashFn : K → Int} {sameKeyFn : K → K → Bool} {calls : List Call} {t : IHashTable K}
    (hrun : Run ABS true n hashFn sameKeyFn calls t)
    (hcompat : ∀ a b, sameKeyFn a b = true → hashFn a = hashFn b)
    (k : K) (hk : 0 ≤ ABS (hashFn k)) (fuel : Nat) (hfuel : t.iht_nEntries.toNat ≤ fuel) :
    ∃ e, IHashLookUp ABS fuel t k = .ok e ∧
      ((∃ r, Indexed t r ∧ sameKeyFn k (t.mem_key r) = true) →
        Indexed t e ∧ sameKeyFn k (t.mem_key e) = true) ∧
      ((∀ r, Indexed t r → sameKeyFn k (t.mem_key r) = false) → e = 0) := by
  obtain ⟨cs, hI, hP, _, hh, hs⟩ := hrun.inv
  have hP := hP rfl
  have hslot := @slotOf_of_nonneg _ ABS _ k hI.nBuckets_eq hI.nBuckets_pos (hh ▸ hk)
  have hlt : slotNat ABS t k < cs.length := hI.rep.length_eq ▸ slotOf_lt hslot
  have hb := getElem?_getD_of_lt ([] : List Nat) hlt
  refine ⟨_, IHashLookUp_eq hI.rep hslot hb (hI.fuel_le hb hfuel), ?_, ?_⟩
  · rintro ⟨r, hr, hm⟩
    obtain ⟨b1, l1, hb1, hr1⟩ := mem_flatten_iff_getElem?.1 ((hI.rep.indexed_iff r).1 hr)
    have hs1 := hP b1 l1 hb1 r hr1
    have hkey : slotOf ABS t (t.mem_key r) = slotOf ABS t k := by
      unfold slotOf
      rw [hh, hcompat _ _ hm]
    rw [hkey, hslot] at hs1
    injection hs1 with hs1
    rw [← hs1, hb] at hb1
    injection hb1 with hb1
    rw [← hb1] at hr1
    have hsome : ((cs.getD (slotNat ABS t k) []).find?
        fun e => t.iht_sameKeyFn k (t.mem_key e)).isSome = true :=
      List.find?_isSome.2 ⟨r, hr1, by rw [hs]; exact hm⟩
    obtain ⟨e, he⟩ := Option.isSome_iff_exists.1 hsome
    rw [he]
    refine ⟨(hI.rep.indexed_iff e).2
      (mem_flatten_iff_getElem?.2 ⟨_, _, hb, List.mem_of_find?_eq_some he⟩), ?_⟩
    have := List.find?_some he
    rw [hs] at this
    exact this
  · intro hnone
    have : ((cs.getD (slotNat ABS t k) []).find?
        fun e => t.iht_sameKeyFn k (t.mem_key e)) = none := by
      rw [List.find?_eq_none]
      intro x hx
      have hix := (hI.rep.indexed_iff x).2 (mem_flatten_iff_getElem?.2 ⟨_, _, hb, hx⟩)
      rw [hs, hnone x hix]
      simp
    rw [this]
    rfl

theorem IHashLookUp_correct_witness :
    (∃ e, IHashLookUp specABS 3
        ((addAll specABS 4 [1, 2, 3] (wordTable 1)).getD (wordTable 1)) 2 = .ok e ∧
      ((∃ r, Indexed ((addAll specABS 4 [1, 2, 3] (wordTable 1)).getD (wordTable 1)) r ∧
          IHashWordKeyEq 2
            (((addAll specABS 4 [1, 2, 3] (wordTable 1)).getD (wordTable 1)).mem_key r) = true) →
        Indexed ((addAll specABS 4 [1, 2, 3] (wordTable 1)).getD (wordTable 1)) e ∧
        IHashWordKeyEq 2
          (((addAll specABS 4 [1, 2, 3] (wordTable 1)).getD (wordTable 1)).mem_key e) = true) ∧
      ((∀ r, Indexed ((addAll specABS 4 [1, 2, 3] (wordTable 1)).getD (wordTable 1)) r →
          IHashWordKeyEq 2
            (((addAll specABS 4 [1, 2, 3] (wordTable 1)).getD (wordTable 1)).mem_key r) = false) →
        e = 0)) ∧
    IHashLookUp specABS 3
      ((addAll specABS 4 [1, 2, 3] (wordTable 1)).getD (wordTable 1)) 2 = .ok 2 ∧
    IHashLookUp specABS 3
      ((addAll specABS 4 [1, 2, 3] (wordTable 1)).getD (wordTable 1)) 9 = .ok 0 :=
  ⟨IHashLookUp_correct wordTable_one_run.1 wordKey_compat 2 (specABS_nonneg _) 3 (by decide),
    by decide, by decide⟩

/-- C1: a fresh 3-bucket word-key table is a reachable table with no record indexed,
and `IHashLookUp` of the key `0x80000000`, whose hash is `-2^31`, does not return
`NULL` on it: the 32-bit `ABS` leaves the hash at `-2^31`, the bucket is
`-2^31 % 3 = -2`, and the read of `iht_table[-2]` is outside the bucket array. -/
theorem IHashLookUp_int_min :
    Run ABS32 true 3 IHashWordKeyHash IHashWordKeyEq [] (wordTable 3) ∧
    (∀ a b, IHashWordKeyEq a b = true → IHashWordKeyHash a = IHashWordKeyHash b) ∧
    (∀ r, ¬ Indexed (wordTable 3) r) ∧
    Int.tmod (ABS32 (IHashWordKeyHash INT_MIN)) (wordTable 3).iht_nBuckets = -2 ∧
    ∀ fuel, IHashLookUp ABS32 fuel (wordTable 3) INT_MIN = .outOfBounds :=
  ⟨Run.init 0 4 _ _ (by decide), wordKey_compat,
    not_indexed_init (by decide) _ _ _ _ _ _, by decide, fun _ => rfl⟩

/-- C2, as stated, fails: three `IHashAdd` calls of one and the same record on a fresh
one-bucket table leave `IHashEntries` at 2, not at 3 - 0. -/
theorem IHashEntries_double_add :
    (addAll specABS 4 [1, 1, 1] (wordTable 1)).map IHashEntries = .ok 2 ∧
    ([Call.add 1, Call.add 1, Call.add 1].countP Call.isAdd : Int) -
      [Call.add 1, Call.add 1, Call.add 1].countP Call.isDelete ≠ 2 := by
  decide

/-- C2, amended: after `IHashInit` with a positive bucket count and any sequence of
`IHashAdd` and `IHashDelete` calls that returned, every record added only while it was
not indexed, `IHashEntries` is the number of `IHashAdd` calls minus the number of
`IHashDelete` calls, rebuilds included. -/
theorem IHashEntries_count {ABS : Int → Int} {keysFixed : Bool} {n : Int}
    {hashFn : K → Int} {sameKeyFn : K → K → Bool} {calls : List Call} {t : IHashTable K}
    (hrun : Run ABS keysFixed n hashFn sameKeyFn calls t) (hnc : Call.clear ∉ calls) :
    IHashEntries t = (calls.countP Call.isAdd : Int) - calls.countP Call.isDelete := by
  induction hrun with
  | init keyOffset nextOffset memKey memNext hn => rfl
  | add fuel r hrun hne hadd ih =>
    obtain ⟨cs, hI, _⟩ := hrun.inv
    obtain ⟨_, _, _, _, hent, _⟩ := hI.add_inv hne hadd
    have ih := ih (fun h => hnc (List.mem_append_left _ h))
    unfold IHashEntries at ih ⊢
    rw [hent, ih, List.countP_append, List.countP_append]
    simp [Call.isAdd, Call.isDelete]
    omega
  | delete fuel r hrun hdel ih =>
    obtain ⟨cs, hI, _⟩ := hrun.inv
    obtain ⟨b, pre, post, _, hb, _, ht1, _⟩ := hI.delete_inv hdel
    have ih := ih (fun h => hnc (List.mem_append_left _ h))
    unfold IHashEntries at ih ⊢
    rw [ht1, (hI.rep.unlinked_rep hb).2.2.1, ih, List.countP_append, List.countP_append]
    simp [Call.isAdd, Call.isDelete]
    omega
  | clear hrun ih => exact absurd (List.mem_append_right _ (List.mem_singleton_self _)) hnc
  | client memKey memNext hrun hnext hkey ih => exact ih hnc

theorem IHashEntries_count_witness :
    IHashEntries ((IHashDelete specABS 3
        ((addAll specABS 4 [1, 2, 3] (wordTable 1)).getD (wordTable 1)) 2).getD (wordTable 1)) =
      ([Call.add 1, Call.add 2, Call.add 3, Call.delete 2].countP Call.isAdd : Int) -
        [Call.add 1, Call.add 2, Call.add 3, Call.delete 2].countP Call.isDelete ∧
    IHashEntries ((IHashDelete specABS 3
        ((addAll specABS 4 [1, 2, 3] (wordTable 1)).getD (wordTable 1)) 2).getD (wordTable 1))
      = 2 :=
  ⟨IHashEntries_count
    (Run.delete 3 2 wordTable_one_run.1 (Res.eq_ok_getD (wordTable 1) (by decide)))
    (by decide), by decide⟩

/-- What an `IHashAdd` of a record that is not indexed has done when it returned, on a
reachable table: the table is rebuilt (the result is that of `iHashResize` on the table
with the record pushed) if and only if the incremented entry count divided by the
bucket count is at least 3, that is the count is at least 3 times the bucket count;
then the bucket count and the bucket array are exactly 4 times as large, otherwise the
call is the plain push and the bucket count is unchanged. -/
theorem IHashAdd_resize_iff_of_ok {ABS : Int → Int} {keysFixed : Bool} {n : Int}
    {hashFn : K → Int} {sameKeyFn : K → K → Bool} {calls : List Call} {t t1 : IHashTable K}
    (hrun : Run ABS keysFixed n hashFn sameKeyFn calls t) {fuel r : Nat}
    (hne : ¬ Indexed t r) (hadd : IHashAdd ABS fuel t r = .ok t1) :
    (iHashResizeRatio ≤ Int.tdiv (t.iht_nEntries + 1) t.iht_nBuckets ↔
      iHashResizeRatio * t.iht_nBuckets ≤ t.iht_nEntries + 1) ∧
    (iHashResizeRatio ≤ Int.tdiv (t.iht_nEntries + 1) t.iht_nBuckets →
      (∃ f, fuel = f + 1 ∧
        iHashResize ABS f (pushEntry t (slotNat ABS t (t.mem_key r)) r) = .ok t1) ∧
      t1.iht_nBuckets = 4 * t.iht_nBuckets ∧
      t1.iht_table.length = 4 * t.iht_table.length) ∧
    (Int.tdiv (t.iht_nEntries + 1) t.iht_nBuckets < iHashResizeRatio →
      t1 = pushEntry t (slotNat ABS t (t.mem_key r)) r ∧
      t1.iht_nBuckets = t.iht_nBuckets ∧ t1.iht_table.length = t.iht_table.length) ∧
    (t1.iht_nBuckets ≠ t.iht_nBuckets ↔
      iHashResizeRatio ≤ Int.tdiv (t.iht_nEntries + 1) t.iht_nBuckets) := by
  obtain ⟨cs, hI, _⟩ := hrun.inv
  obtain ⟨hI1, _, _, _, _, hnb, _⟩ := hI.add_inv hne hadd
  obtain ⟨_, _, _, hcase⟩ := IHashAdd_ok hadd
  have hn0 : 0 ≤ t.iht_nEntries + 1 := by
    rw [hI.count]
    omega
  have hpos := hI.nBuckets_pos
  have hlen : (t1.iht_table.length : Int) = t1.iht_nBuckets := hI1.nBuckets_eq.symm
  have hlen0 : (t.iht_table.length : Int) = t.iht_nBuckets := hI.nBuckets_eq.symm
  refine ⟨?_, ?_, ?_, ?_⟩
  · rw [← not_lt, tdiv_lt_ratio hn0 hpos, not_lt]
  · intro htr
    rw [if_pos htr] at hnb
    refine ⟨?_, by rw [hnb]; ring, ?_⟩
    · rcases hcase with ⟨hno, _⟩ | ⟨_, hres⟩
      · exact absurd htr (not_le.2 hno)
      · exact hres
    · have : (t1.iht_table.length : Int) = 4 * (t.iht_table.length : Int) := by
        rw [hlen, hlen0, hnb]
        ring
      exact_mod_cast this
  · intro hno
    rw [if_neg (not_le.2 hno)] at hnb
    rcases hcase with ⟨_, ht1⟩ | ⟨htr, _⟩
    · refine ⟨ht1, hnb, ?_⟩
      have : (t1.iht_table.length : Int) = (t.iht_table.length : Int) := by
        rw [hlen, hlen0, hnb]
      exact_mod_cast this
    · exact absurd htr (not_le.2 hno)
  · by_cases htr : iHashResizeRatio ≤ Int.tdiv (t.iht_nEntries + 1) t.iht_nBuckets
    · rw [if_pos htr] at hnb
      refine ⟨fun _ => htr, fun _ => ?_⟩
      rw [hnb]
      omega
    · rw [if_neg htr] at hnb
      exact ⟨fun h => absurd hnb h, fun h => absurd h htr⟩

/-- C3, as stated, fails on a table reached with a record added while it is indexed.
On a one-bucket word-key table record 1 is added twice (its link then points to
itself) and deleted nine times: each `IHashDelete` returns and lowers the count, down
to -7, and leaves record 1 on the chain.  Records 2..10 are added and the count is 2.
`IHashAdd` of record 11 then rebuilds: the walk of the old chain meets record 1 twice,
the count of the 4-bucket table reaches 12 during the walk, and a nested rebuild leaves
16 buckets, not 4. -/
theorem IHashAdd_nested_rebuild :
    (runCalls ABS32 1 (Call.add 1 :: Call.add 1 :: List.replicate 9 (Call.delete 1) ++
      (List.range' 2 9).map Call.add) (wordTable 1)).isOk = true ∧
    ((runCalls ABS32 1 (Call.add 1 :: Call.add 1 :: List.replicate 9 (Call.delete 1) ++
      (List.range' 2 9).map Call.add) (wordTable 1)).getD (wordTable 1)).iht_nBuckets = 1 ∧
    iHashResizeRatio ≤ Int.tdiv
      (((runCalls ABS32 1 (Call.add 1 :: Call.add 1 :: List.replicate 9 (Call.delete 1) ++
        (List.range' 2 9).map Call.add) (wordTable 1)).getD (wordTable 1)).iht_nEntries + 1)
      ((runCalls ABS32 1 (Call.add 1 :: Call.add 1 :: List.replicate 9 (Call.delete 1) ++
        (List.range' 2 9).map Call.add) (wordTable 1)).getD (wordTable 1)).iht_nBuckets ∧
    (IHashAdd ABS32 15
      ((runCalls ABS32 1 (Call.add 1 :: Call.add 1 :: List.replicate 9 (Call.delete 1) ++
        (List.range' 2 9).map Call.add) (wordTable 1)).getD (wordTable 1)) 11).isOk = true ∧
    ((IHashAdd ABS32 15
      ((runCalls ABS32 1 (Call.add 1 :: Call.add 1 :: List.replicate 9 (Call.delete 1) ++
        (List.range' 2 9).map Call.add) (wordTable 1)).getD (wordTable 1)) 11).getD
      (wordTable 1)).iht_nBuckets = 16 := by
  decide!

/-- C3, amended: on every reachable table (records added only while not indexed) and
for every `IHashAdd` on it of a record that is not indexed, when `ABS` gives a
non-negative value on the hashes of the keys involved (with the 32-bit `ABS`: none is
`-2^31`) and four times the bucket count is an `int`, the call returns with enough
fuel and the table is rebuilt (the result is that of `iHashResize` on the table with
the record pushed) if and only if the incremented entry count divided by the bucket
count is at least 3, that is the count is at least 3 times the bucket count; then the
bucket count and the bucket array are exactly 4 times as large, otherwise the call is
the plain push and the bucket count is unchanged. -/
theorem IHashAdd_resize_iff {ABS : Int → Int} {keysFixed : Bool} {n : Int}
    {hashFn : K → Int} {sameKeyFn : K → K → Bool} {calls : List Call} {t : IHashTable K}
    (hrun : Run ABS keysFixed n hashFn sameKeyFn calls t) {fuel r : Nat}
    (hr0 : r ≠ 0) (hne : ¬ Indexed t r)
    (hnn : ∀ p, p = r ∨ Indexed t p → 0 ≤ ABS (t.iht_hashFn (t.mem_key p)))
    (hsize : t.iht_nBuckets * 4 ≤ INT_MAX) (hfuel : t.iht_nEntries.toNat + 2 ≤ fuel) :
    ∃ t1, IHashAdd ABS fuel t r = .ok t1 ∧
      (iHashResizeRatio ≤ Int.tdiv (t.iht_nEntries + 1) t.iht_nBuckets ↔
        iHashResizeRatio * t.iht_nBuckets ≤ t.iht_nEntries + 1) ∧
      (iHashResizeRatio ≤ Int.tdiv (t.iht_nEntries + 1) t.iht_nBuckets →
        (∃ f, fuel = f + 1 ∧
          iHashResize ABS f (pushEntry t (slotNat ABS t (t.mem_key r)) r) = .ok t1) ∧
        t1.iht_nBuckets = 4 * t.iht_nBuckets ∧
        t1.iht_table.length = 4 * t.iht_table.length) ∧
      (Int.tdiv (t.iht_nEntries + 1) t.iht_nBuckets < iHashResizeRatio →
        t1 = pushEntry t (slotNat ABS t (t.mem_key r)) r ∧
        t1.iht_nBuckets = t.iht_nBuckets ∧ t1.iht_table.length = t.iht_table.length) ∧
      (t1.iht_nBuckets ≠ t.iht_nBuckets ↔
        iHashResizeRatio ≤ Int.tdiv (t.iht_nEntries + 1) t.iht_nBuckets) := by
  obtain ⟨cs, hI, _⟩ := hrun.inv
  have hmax : t.iht_nEntries + 1 ≤ INT_MAX := by
    have h1 := hI.load
    have h2 := hI.nBuckets_pos
    unfold iHashResizeRatio at h1
    omega
  obtain ⟨t1, hadd⟩ := IHashAdd_returns hrun hnn hr0 hne hfuel hmax (fun _ => hsize)
  exact ⟨t1, hadd, IHashAdd_resize_iff_of_ok hrun hne hadd⟩

theorem IHashAdd_resize_iff_witness :
    (∀ i ∈ List.range 12,
      ((addAll ABS32 1 (List.range' 1 i) (wordTable 4)).getD (wordTable 4)).iht_nBuckets
        = 4) ∧
    ∃ t1, IHashAdd ABS32 13
        ((addAll ABS32 1 (List.range' 1 11) (wordTable 4)).getD (wordTable 4)) 12 = .ok t1 ∧
      t1.iht_nBuckets = 16 := by
  have hni : ¬ Indexed
      ((addAll ABS32 1 (List.range' 1 11) (wordTable 4)).getD (wordTable 4)) 12 := by
    rw [wordTable_four_run32.indexed_of_adds (by decide)]
    decide
  obtain ⟨t1, hadd, h⟩ := IHashAdd_resize_iff wordTable_four_run32
    (by decide : (12 : Nat) ≠ 0) hni
    (wordTable_four_run32.hash_nonneg_of_adds (by decide) 12 (by decide!))
    (by decide!) (by decide! : _ ≤ 13)
  refine ⟨by decide!, t1, hadd, ?_⟩
  rw [(h.2.1 (by decide!)).2.1]
  decide!

/-- What a rebuilding `IHashAdd` of a record `r` that is not indexed has done when it
returned, on a reachable table: the records on the chains afterwards are those before
plus `r`, each exactly once (the chains after are a duplicate-free rearrangement of `r`
and the chains before), the entry count is one more, and configuration and keys are
unchanged. -/
theorem iHashResize_preserves_of_ok {ABS : Int → Int} {keysFixed : Bool} {n : Int}
    {hashFn : K → Int} {sameKeyFn : K → K → Bool} {calls : List Call} {t t1 : IHashTable K}
    (hrun : Run ABS keysFixed n hashFn sameKeyFn calls t) {fuel r : Nat}
    (hne : ¬ Indexed t r) (hadd : IHashAdd ABS fuel t r = .ok t1)
    (htr : iHashResizeRatio ≤ Int.tdiv (t.iht_nEntries + 1) t.iht_nBuckets) :
    (∃ cs cs1, Rep t cs ∧ Rep t1 cs1 ∧ cs1.flatten.Perm (r :: cs.flatten) ∧
      cs1.flatten.Nodup ∧ cs1.length = 4 * cs.length) ∧
    (∀ x, Indexed t1 x ↔ x = r ∨ Indexed t x) ∧
    IHashEntries t1 = IHashEntries t + 1 ∧
    t1.iht_nBuckets = 4 * t.iht_nBuckets ∧ SameConfig t t1 := by
  obtain ⟨cs, hI, _⟩ := hrun.inv
  obtain ⟨hI1, hcfg, hperm, _, hent, hnb, _⟩ := hI.add_inv hne hadd
  rw [if_pos htr] at hnb
  have hnb4 : t1.iht_nBuckets = 4 * t.iht_nBuckets := by rw [hnb]; ring
  refine ⟨⟨cs, _, hI.rep, hI1.rep, hperm, hI1.rep.nodup, ?_⟩, hI.indexed_add hne hadd,
    hent, hnb4, hcfg⟩
  have : ((afterAdd ABS t cs r).length : Int) = 4 * (cs.length : Int) := by
    rw [hI1.rep.length_eq, hI.rep.length_eq, ← hI1.nBuckets_eq, ← hI.nBuckets_eq, hnb4]
  exact_mod_cast this

/-- C4, as stated, fails when the record added is indexed already: a one-bucket
word-key table holds records 1 and 2, and `IHashAdd` of record 2 once more triggers the
rebuild.  The link of record 2 then points to itself, the walk meets record 2 twice and
never record 1: afterwards record 1 is not indexed and the entry count is 2 as
before, not 3. -/
theorem iHashResize_readd_loses :
    Run ABS32 true 1 IHashWordKeyHash IHashWordKeyEq ([1, 2].map Call.add)
      ((addAll ABS32 1 [1, 2] (wordTable 1)).getD (wordTable 1)) ∧
    Indexed ((addAll ABS32 1 [1, 2] (wordTable 1)).getD (wordTable 1)) 1 ∧
    Indexed ((addAll ABS32 1 [1, 2] (wordTable 1)).getD (wordTable 1)) 2 ∧
    iHashResizeRatio ≤ Int.tdiv
      (((addAll ABS32 1 [1, 2] (wordTable 1)).getD (wordTable 1)).iht_nEntries + 1)
      ((addAll ABS32 1 [1, 2] (wordTable 1)).getD (wordTable 1)).iht_nBuckets ∧
    (IHashAdd ABS32 4 ((addAll ABS32 1 [1, 2] (wordTable 1)).getD (wordTable 1)) 2).isOk
      = true ∧
    ¬ Indexed ((IHashAdd ABS32 4
      ((addAll ABS32 1 [1, 2] (wordTable 1)).getD (wordTable 1)) 2).getD (wordTable 1)) 1 ∧
    IHashEntries ((IHashAdd ABS32 4
      ((addAll ABS32 1 [1, 2] (wordTable 1)).getD (wordTable 1)) 2).getD (wordTable 1)) =
      IHashEntries ((addAll ABS32 1 [1, 2] (wordTable 1)).getD (wordTable 1)) := by
  have hix := wordTable_two_run32.indexed_of_adds (by decide)
  refine ⟨wordTable_two_run32, (hix 1).2 (by decide), (hix 2).2 (by decide), by decide,
    by decide, ?_, by decide⟩
  rintro ⟨b, _, hch⟩
  have htab : ((IHashAdd ABS32 4
      ((addAll ABS32 1 [1, 2] (wordTable 1)).getD (wordTable 1)) 2).getD
      (wordTable 1)).iht_table = [0, 0, 2, 0] := by decide
  have hnext : ((IHashAdd ABS32 4
      ((addAll ABS32 1 [1, 2] (wordTable 1)).getD (wordTable 1)) 2).getD
      (wordTable 1)).mem_next 2 = 2 := by decide
  rw [htab] at hch
  have hstart : ([0, 0, 2, 0] : List Nat).getD b 0 = 0 ∨ ([0, 0, 2, 0] : List Nat).getD b 0 = 2 := by
    rcases b with _ | _ | _ | _ | b <;> simp
  have h := OnChain.of_closed (fun q => q = 0 ∨ q = 2) hch hstart (by
    rintro q (rfl | rfl) hq
    · exact absurd rfl hq
    · exact Or.inr hnext)
  revert h
  decide

/-- C4, amended: when an `IHashAdd` of a record `r` that is not indexed triggers the
rebuild on a reachable table, `ABS` gives a non-negative value on the hashes of the keys
involved (with the 32-bit `ABS`: none is `-2^31`) and four times the bucket count is an
`int`, the call returns with enough fuel, the records on the chains afterwards are those
before plus `r`, each exactly once (the chains after are a duplicate-free rearrangement
of `r` and the chains before), the entry count is one more, and configuration and keys
are unchanged. -/
theorem iHashResize_preserves {ABS : Int → Int} {keysFixed : Bool} {n : Int}
    {hashFn : K → Int} {sameKeyFn : K → K → Bool} {calls : List Call} {t : IHashTable K}
    (hrun : Run ABS keysFixed n hashFn sameKeyFn calls t) {fuel r : Nat}
    (hr0 : r ≠ 0) (hne : ¬ Indexed t r)
    (hnn : ∀ p, p = r ∨ Indexed t p → 0 ≤ ABS (t.iht_hashFn (t.mem_key p)))
    (hsize : t.iht_nBuckets * 4 ≤ INT_MAX) (hfuel : t.iht_nEntries.toNat + 2 ≤ fuel)
    (htr : iHashResizeRatio ≤ Int.tdiv (t.iht_nEntries + 1) t.iht_nBuckets) :
    ∃ t1, IHashAdd ABS fuel t r = .ok t1 ∧
      (∃ cs cs1, Rep t cs ∧ Rep t1 cs1 ∧ cs1.flatten.Perm (r :: cs.flatten) ∧
        cs1.flatten.Nodup ∧ cs1.length = 4 * cs.length) ∧
      (∀ x, Indexed t1 x ↔ x = r ∨ Indexed t x) ∧
      IHashEntries t1 = IHashEntries t + 1 ∧
      t1.iht_nBuckets = 4 * t.iht_nBuckets ∧ SameConfig t t1 := by
  obtain ⟨cs, hI, _⟩ := hrun.inv
  have hmax : t.iht_nEntries + 1 ≤ INT_MAX := by
    have h1 := hI.load
    have h2 := hI.nBuckets_pos
    unfold iHashResizeRatio at h1
    omega
  obtain ⟨t1, hadd⟩ := IHashAdd_returns hrun hnn hr0 hne hfuel hmax (fun _ => hsize)
  exact ⟨t1, hadd, iHashResize_preserves_of_ok hrun hne hadd htr⟩

theorem iHashResize_preserves_witness :
    ∃ t1, IHashAdd ABS32 4 ((addAll ABS32 1 [1, 2] (wordTable 1)).getD (wordTable 1)) 3
        = .ok t1 ∧
      IHashEntries t1 = 3 ∧ t1.iht_nBuckets = 4 ∧
      ∀ x, Indexed t1 x ↔ x = 3 ∨ x = 1 ∨ x = 2 := by
  have hix := wordTable_two_run32.indexed_of_adds (by decide)
  have hni : ¬ Indexed ((addAll ABS32 1 [1, 2] (wordTable 1)).getD (wordTable 1)) 3 := by
    rw [hix]
    decide
  obtain ⟨t1, hadd, _, hidx, hent, hnb, _⟩ := iHashResize_preserves wordTable_two_run32
    (by decide : (3 : Nat) ≠ 0) hni
    (wordTable_two_run32.hash_nonneg_of_adds (by decide) 3 (by decide))
    (by decide) (by decide : _ ≤ 4) (by decide)
  refine ⟨t1, hadd, ?_, ?_, ?_⟩
  · rw [hent]
    decide
  · rw [hnb]
    decide
  · intro x
    rw [hidx, hix]
    simp

/-- C5: on a reachable table with chains `cs`, `IHashDelete` of an indexed record `r`
returns; the bucket count and the bucket array length are unchanged, the chains are
the old ones but for the chain of `r`, which is the old chain without `r` in the old
order; every other indexed record, also one with an equal key, stays indexed, and the
entry count is one less. -/
theorem IHashDelete_frame {ABS : Int → Int} {n : Int} {hashFn : K → Int}
    {sameKeyFn : K → K → Bool} {calls : List Call} {t : IHashTable K}
    (hrun : Run ABS true n hashFn sameKeyFn calls t) {cs : List (List Nat)}
    (hrep : Rep t cs) {r : Nat} (hr : Indexed t r) {fuel : Nat}
    (hfuel : t.iht_nEntries.toNat ≤ fuel) :
    ∃ b pre post t1, cs[b]? = some (pre ++ r :: post) ∧ r ∉ pre ∧ r ∉ post ∧
      slotOf ABS t (t.mem_key r) = .ok b ∧
      IHashDelete ABS fuel t r = .ok t1 ∧
      t1.iht_nBuckets = t.iht_nBuckets ∧ t1.iht_table.length = t.iht_table.length ∧
      Rep t1 (cs.set b (pre ++ post)) ∧ (pre ++ r :: post).erase r = pre ++ post ∧
      (∀ x, Indexed t1 x ↔ x ≠ r ∧ Indexed t x) ∧
      IHashEntries t1 = IHashEntries t - 1 := by
  obtain ⟨cs0, hI, hP, _⟩ := hrun.inv
  have hcs : cs0 = cs := hI.rep.chains_unique hrep
  subst hcs
  have hP := hP rfl
  obtain ⟨b, l, hb, hrl⟩ := mem_flatten_iff_getElem?.1 ((hrep.indexed_iff r).1 hr)
  obtain ⟨pre, post, rfl, hpre⟩ := List.eq_append_cons_of_mem hrl
  have hndl := chain_nodup hrep.nodup hb
  have hpost : r ∉ post := by
    have h1 := (List.nodup_append.1 hndl).2.1
    exact (List.nodup_cons.1 h1).1
  have hslot := hP b _ hb r hrl
  have hlen : pre.length ≤ fuel := by
    have := hI.fuel_le hb hfuel
    simp only [List.length_append, List.length_cons] at this
    omega
  have hmin : INT_MIN ≤ t.iht_nEntries - 1 := by
    rw [hI.count]
    unfold INT_MIN
    omega
  have hdel := IHashDelete_found hrep hslot hb hpre hlen hmin
  obtain ⟨hrep1, hF, hent, _⟩ := hrep.unlinked_rep hb
  refine ⟨b, pre, post, _, hb, hpre, hpost, hslot, hdel, hF.nBuckets, hF.length, hrep1, ?_,
    ?_, hent⟩
  · rw [List.erase_append_right _ hpre, List.erase_cons_head]
  · intro x
    rw [hrep1.indexed_iff, hrep.indexed_iff, (flatten_remove_perm hb).mem_iff, List.mem_cons]
    have hnd := (flatten_remove_perm hb).nodup_iff.1 hrep.nodup
    have hr1 := (List.nodup_cons.1 hnd).1
    constructor
    · intro hx
      exact ⟨fun hxr => hr1 (hxr ▸ hx), Or.inr hx⟩
    · rintro ⟨hxr, hx | hx⟩
      · exact absurd hx hxr
      · exact hx

theorem IHashDelete_frame_witness :
    ∃ t1, IHashDelete specABS 2
        ((addAll specABS 1 [1, 2] (sameKeyTable 4)).getD (sameKeyTable 4)) 1 = .ok t1 ∧
      Indexed t1 2 ∧ ¬ Indexed t1 1 ∧ t1.iht_nBuckets = 4 ∧ IHashEntries t1 = 1 := by
  have hrun : Run specABS true 4 IHashWordKeyHash IHashWordKeyEq ([1, 2].map Call.add)
      ((addAll specABS 1 [1, 2] (sameKeyTable 4)).getD (sameKeyTable 4)) :=
    init_addAll_run 0 4 _ _ (by decide) (by decide) (by decide)
  obtain ⟨cs, hI, _⟩ := hrun.inv
  have hix := hrun.indexed_of_adds (by decide)
  obtain ⟨b, pre, post, t1, _, _, _, _, hdel, hnb, _, _, _, hidx, hent⟩ :=
    IHashDelete_frame hrun hI.rep ((hix 1).2 (by decide)) (by decide : _ ≤ 2)
  refine ⟨t1, hdel, (hidx 2).2 ⟨by decide, (hix 2).2 (by decide)⟩,
    fun h => ((hidx 1).1 h).1 rfl, ?_, ?_⟩
  · rw [hnb]
    decide
  · rw [hent]
    decide

/-- `IHashDelete` away from the hash `-2^31`: on a reachable table with chains `cs` and
for every record `r` (not `NULL`) on the hash of whose key `ABS` gives a non-negative
value, `IHashDelete` runs into the assertion if and only if `r` is not on the chain of
the bucket computed from its own key, and returns when `r` is on that chain. -/
theorem IHashDelete_assert_iff {ABS : Int → Int} {keysFixed : Bool}
    {n : Int} {hashFn : K → Int} {sameKeyFn : K → K → Bool} {calls : List Call}
    {t : IHashTable K} (hrun : Run ABS keysFixed n hashFn sameKeyFn calls t)
    {cs : List (List Nat)} (hrep : Rep t cs) {r : Nat} (hr0 : r ≠ 0)
    (hk : 0 ≤ ABS (t.iht_hashFn (t.mem_key r))) {fuel : Nat}
    (hfuel : t.iht_nEntries.toNat ≤ fuel) :
    (IHashDelete ABS fuel t r = .assertFailed ↔
      r ∉ cs.getD (slotNat ABS t (t.mem_key r)) []) ∧
    (r ∈ cs.getD (slotNat ABS t (t.mem_key r)) [] →
      ∃ t1, IHashDelete ABS fuel t r = .ok t1) := by
  obtain ⟨cs0, hI, _⟩ := hrun.inv
  have hcs : cs0 = cs := hI.rep.chains_unique hrep
  subst hcs
  have hslot := @slotOf_of_nonneg _ ABS _ (t.mem_key r) hI.nBuckets_eq hI.nBuckets_pos hk
  have hlt : slotNat ABS t (t.mem_key r) < cs0.length := hrep.length_eq ▸ slotOf_lt hslot
  have hb := getElem?_getD_of_lt ([] : List Nat) hlt
  have hok : r ∈ cs0.getD (slotNat ABS t (t.mem_key r)) [] →
      ∃ t1, IHashDelete ABS fuel t r = .ok t1 := by
    intro hmem
    obtain ⟨pre, post, hl, hpre⟩ := List.eq_append_cons_of_mem hmem
    rw [hl] at hb
    have hlen : pre.length ≤ fuel := by
      have := hI.fuel_le hb hfuel
      simp only [List.length_append, List.length_cons] at this
      omega
    have hmin : INT_MIN ≤ t.iht_nEntries - 1 := by
      rw [hI.count]
      unfold INT_MIN
      omega
    exact ⟨_, IHashDelete_found hrep hslot hb hpre hlen hmin⟩
  refine ⟨⟨?_, ?_⟩, hok⟩
  · intro hfail hmem
    obtain ⟨t1, h1⟩ := hok hmem
    rw [h1] at hfail
    cases hfail
  · intro hnot
    exact IHashDelete_absent hrep hr0 hslot hb hnot (hI.fuel_le hb hfuel)

theorem IHashDelete_assert_iff_witness :
    IHashDelete specABS 3
        ((addAll specABS 4 [1, 2, 3] (wordTable 1)).getD (wordTable 1)) 5 = .assertFailed ∧
    ∃ t1, IHashDelete specABS 3
        ((addAll specABS 4 [1, 2, 3] (wordTable 1)).getD (wordTable 1)) 2 = .ok t1 := by
  obtain ⟨cs, hI, _⟩ := wordTable_one_run.1.inv
  have hix := wordTable_one_run.1.indexed_of_adds (by decide)
  have h5 := IHashDelete_assert_iff wordTable_one_run.1 hI.rep
    (by decide : (5 : Nat) ≠ 0) (specABS_nonneg _) (by decide : _ ≤ 3)
  have h2 := IHashDelete_assert_iff wordTable_one_run.1 hI.rep
    (by decide : (2 : Nat) ≠ 0) (specABS_nonneg _) (by decide : _ ≤ 3)
  refine ⟨h5.1.2 ?_, ?_⟩
  · intro hmem
    have hlt : slotNat specABS ((addAll specABS 4 [1, 2, 3] (wordTable 1)).getD (wordTable 1))
        (((addAll specABS 4 [1, 2, 3] (wordTable 1)).getD (wordTable 1)).mem_key 5) <
        cs.length := by
      by_contra hge
      rw [List.getD_eq_getElem?_getD, List.getElem?_eq_none (Nat.le_of_not_lt hge)] at hmem
      cases hmem
    have := (hix 5).1 ((hI.rep.indexed_iff 5).2
      (mem_flatten_iff_getElem?.2 ⟨_, _, getElem?_getD_of_lt [] hlt, hmem⟩))
    revert this
    decide
  · have hok : (IHashDelete specABS 3
        ((addAll specABS 4 [1, 2, 3] (wordTable 1)).getD (wordTable 1)) 2).isOk = true := by
      decide
    by_contra hno
    rw [h2.1.2 (fun hmem => hno (h2.2 hmem))] at hok
    exact absurd hok (by decide)

/-- C6: on a fresh 3-bucket word-key table, a reachable table, the record 1 with key
`0x80000000` is on no chain, so not on the chain of bucket `|hash| mod 3 = 2`, and
`IHashDelete` of it does not reach the assertion: the 32-bit `ABS` leaves the hash at
`-2^31`, the bucket is `-2`, and the walk starts at `iht_table[-2]`, outside the
bucket array. -/
theorem IHashDelete_int_min :
    Run ABS32 true 3 IHashWordKeyHash IHashWordKeyEq [] (minKeyTable 3) ∧
    (∀ r, ¬ Indexed (minKeyTable 3) r) ∧ Rep (minKeyTable 3) [[], [], []] ∧
    |(minKeyTable 3).iht_hashFn ((minKeyTable 3).mem_key 1)| % (minKeyTable 3).iht_nBuckets
      = 2 ∧
    Int.tmod (ABS32 ((minKeyTable 3).iht_hashFn ((minKeyTable 3).mem_key 1)))
      (minKeyTable 3).iht_nBuckets = -2 ∧
    ∀ fuel, IHashDelete ABS32 fuel (minKeyTable 3) 1 = .outOfBounds :=
  ⟨Run.init 0 4 _ _ (by decide), not_indexed_init (by decide) _ _ _ _ _ _,
    (Inv.init_inv (by decide) 0 4 IHashWordKeyHash IHashWordKeyEq _ _).rep, by decide,
    by decide, fun _ => rfl⟩

/-- `IHashClear` on every reachable table, whatever its growth, leaves an entry count
of 0, the bucket count given to `IHashInit`, a bucket array of that many `NULL` heads,
so that no record is indexed, and `IHashLookUp` returns `NULL` for every key on whose
hash `ABS` gives a non-negative value. -/
theorem IHashClear_resets {ABS : Int → Int} {keysFixed : Bool}
    {n : Int} {hashFn : K → Int} {sameKeyFn : K → K → Bool} {calls : List Call}
    {t : IHashTable K} (hrun : Run ABS keysFixed n hashFn sameKeyFn calls t) :
    IHashEntries (IHashClear t) = 0 ∧ (IHashClear t).iht_nBuckets = n ∧
    (IHashClear t).iht_table = List.replicate n.toNat 0 ∧
    Rep (IHashClear t) (List.replicate n.toNat []) ∧
    (∀ r, ¬ Indexed (IHashClear t) r) ∧
    ∀ (fuel : Nat) (k : K), 0 ≤ ABS (hashFn k) →
      IHashLookUp ABS fuel (IHashClear t) k = .ok 0 := by
  obtain ⟨cs, hI, _, hn, hh, _⟩ := hrun.inv
  have hIc := hI.clear_inv
  rw [hn] at hIc
  refine ⟨rfl, hn, by rw [← hn]; rfl, hIc.rep, ?_, ?_⟩
  · intro r
    rw [hIc.rep.indexed_iff]
    simp
  · intro fuel k hk
    have hslot := @slotOf_of_nonneg _ ABS _ k hIc.nBuckets_eq hIc.nBuckets_pos
      (show 0 ≤ ABS (t.iht_hashFn k) from hh ▸ hk)
    have hlt : slotNat ABS (IHashClear t) k < (List.replicate n.toNat ([] : List Nat)).length :=
      hIc.rep.length_eq ▸ slotOf_lt hslot
    have hb : (List.replicate n.toNat ([] : List Nat))[slotNat ABS (IHashClear t) k]? =
        some [] := by
      rw [List.getElem?_replicate]
      simp at hlt
      simp [hlt]
    rw [IHashLookUp_eq hIc.rep hslot hb (Nat.zero_le _)]
    rfl

theorem IHashClear_resets_witness :
    IHashEntries (IHashClear ((addAll specABS 4 [1, 2, 3] (wordTable 1)).getD (wordTable 1)))
      = 0 ∧
    (IHashClear ((addAll specABS 4 [1, 2, 3] (wordTable 1)).getD (wordTable 1))).iht_nBuckets
      = 1 :=
  ⟨(IHashClear_resets wordTable_one_run.1).1,
   (IHashClear_resets wordTable_one_run.1).2.1⟩

/-- C7: after `IHashClear` of a 3-bucket word-key table, a reachable table, the entry
count is 0, the bucket count 3 and every chain empty, yet `IHashLookUp` of the key
`0x80000000` does not return `NULL`: the 32-bit `ABS` leaves its hash at `-2^31`, the
bucket is `-2`, and the read of `iht_table[-2]` is outside the bucket array. -/
theorem IHashClear_lookup_int_min :
    Run ABS32 true 3 IHashWordKeyHash IHashWordKeyEq [Call.clear]
      (IHashClear (wordTable 3)) ∧
    IHashEntries (IHashClear (wordTable 3)) = 0 ∧
    (IHashClear (wordTable 3)).iht_nBuckets = 3 ∧
    (IHashClear (wordTable 3)).iht_table = [0, 0, 0] ∧
    ∀ fuel, IHashLookUp ABS32 fuel (IHashClear (wordTable 3)) INT_MIN = .outOfBounds :=
  ⟨Run.clear (Run.init 0 4 _ _ (by decide)), rfl, rfl, rfl, fun _ => rfl⟩

/-- C8, as stated, fails for a comparison that is not transitive: with keys 1 and 2
indexed, both matching key 0 under `looseEq` and all keys hashing alike, the scan for
0 returns record 2 and then `NULL`; record 1 is indexed, matches, and is never
returned. -/
theorem scan_misses_match :
    Run specABS true 4 (fun _ => 0) looseEq ([1, 2].map Call.add)
      ((addAll specABS 1 [1, 2] (looseTable 4)).getD (looseTable 4)) ∧
    (∀ a b : Int, looseEq a b = true → (fun _ : Int => (0 : Int)) a = (fun _ => 0) b) ∧
    scan specABS 2 ((addAll specABS 1 [1, 2] (looseTable 4)).getD (looseTable 4)) 0
      = .ok [2] ∧
    Indexed ((addAll specABS 1 [1, 2] (looseTable 4)).getD (looseTable 4)) 1 ∧
    looseEq 0 (((addAll specABS 1 [1, 2] (looseTable 4)).getD (looseTable 4)).mem_key 1)
      = true := by
  have hrun : Run specABS true 4 (fun _ => 0) looseEq ([1, 2].map Call.add)
      ((addAll specABS 1 [1, 2] (looseTable 4)).getD (looseTable 4)) :=
    init_addAll_run 0 4 _ _ (by decide) (by decide) (by decide)
  exact ⟨hrun, fun _ _ _ => rfl, by decide,
    (hrun.indexed_of_adds (by decide) 1).2 (by decide), by decide⟩

/-- C8, amended: on every reachable table whose comparison is symmetric and
transitive, and for every key `k` on whose hash `ABS` gives a non-negative value (with
the 32-bit `ABS`: every key whose hash is not `-2^31`), the scan (`IHashLookUp`, then
`IHashLookUpNext` on each result until `NULL`) returns every indexed record whose key
matches `k` exactly once and then ends: the records returned are the matching records
of the chain of `k`, in chain order. -/
theorem scan_complete {ABS : Int → Int} {n : Int}
    {hashFn : K → Int} {sameKeyFn : K → K → Bool} {calls : List Call} {t : IHashTable K}
    (hrun : Run ABS true n hashFn sameKeyFn calls t)
    (hcompat : ∀ a b, sameKeyFn a b = true → hashFn a = hashFn b)
    (hsymm : ∀ a b, sameKeyFn a b = true → sameKeyFn b a = true)
    (htrans : ∀ a b c, sameKeyFn a b = true → sameKeyFn b c = true → sameKeyFn a c = true)
    (k : K) (hk : 0 ≤ ABS (hashFn k)) (fuel : Nat) (hfuel : t.iht_nEntries.toNat ≤ fuel) :
    ∃ found, scan ABS fuel t k = .ok found ∧ found.Nodup ∧
      (∀ x, x ∈ found ↔ Indexed t x ∧ sameKeyFn k (t.mem_key x) = true) ∧
      ∀ cs, Rep t cs →
        found = (cs.getD (slotNat ABS t k) []).filter fun x => sameKeyFn k (t.mem_key x) := by
  obtain ⟨cs, hI, hP, _, hh, hs⟩ := hrun.inv
  have hP := hP rfl
  have hslot := @slotOf_of_nonneg _ ABS _ k hI.nBuckets_eq hI.nBuckets_pos (hh ▸ hk)
  have hlt : slotNat ABS t k < cs.length := hI.rep.length_eq ▸ slotOf_lt hslot
  have hb := getElem?_getD_of_lt ([] : List Nat) hlt
  have hscan := scan_eq hI.rep (ne_of_gt hI.nBuckets_pos) hslot hb (hI.fuel_le hb hfuel)
  rw [scanChain_eq_filter (by rw [hs]; exact hsymm) (by rw [hs]; exact htrans) k _ k
    (fun _ => rfl), hs] at hscan
  refine ⟨_, hscan, (chain_nodup hI.rep.nodup hb).filter _, ?_, ?_⟩
  · intro x
    rw [List.mem_filter]
    constructor
    · rintro ⟨hx, hm⟩
      exact ⟨(hI.rep.indexed_iff x).2 (mem_flatten_iff_getElem?.2 ⟨_, _, hb, hx⟩), hm⟩
    · rintro ⟨hx, hm⟩
      refine ⟨?_, hm⟩
      obtain ⟨b1, l1, hb1, hx1⟩ := mem_flatten_iff_getElem?.1 ((hI.rep.indexed_iff x).1 hx)
      have hs1 := hP b1 l1 hb1 x hx1
      have hkey : slotOf ABS t (t.mem_key x) = slotOf ABS t k := by
        unfold slotOf
        rw [hh, hcompat _ _ hm]
      rw [hkey, hslot] at hs1
      injection hs1 with hs1
      rw [← hs1, hb] at hb1
      injection hb1 with hb1
      rw [hb1]
      exact hx1
  · intro cs1 hrep1
    rw [← hI.rep.chains_unique hrep1]

theorem scan_complete_witness :
    IHashLookUp ABS32 2
      ((addAll ABS32 1 [1, 2] (stringTable 4)).getD (stringTable 4)) [120] = .ok 2 ∧
    IHashLookUpNext 2 ((addAll ABS32 1 [1, 2] (stringTable 4)).getD (stringTable 4)) 2
      = .ok 1 ∧
    IHashLookUpNext 2 ((addAll ABS32 1 [1, 2] (stringTable 4)).getD (stringTable 4)) 1
      = .ok 0 ∧
    ∃ found, scan ABS32 2
        ((addAll ABS32 1 [1, 2] (stringTable 4)).getD (stringTable 4)) [120] = .ok found ∧
      found.Nodup ∧
      ∀ x, x ∈ found ↔
        Indexed ((addAll ABS32 1 [1, 2] (stringTable 4)).getD (stringTable 4)) x ∧
        IHashStringKeyEq [120]
          (((addAll ABS32 1 [1, 2] (stringTable 4)).getD (stringTable 4)).mem_key x)
          = true := by
  have hrun : Run ABS32 true 4 IHashStringKeyHash IHashStringKeyEq ([1, 2].map Call.add)
      ((addAll ABS32 1 [1, 2] (stringTable 4)).getD (stringTable 4)) :=
    init_addAll_run 0 8 _ _ (by decide) (by decide) (by decide)
  obtain ⟨found, h1, h2, h3, _⟩ := scan_complete hrun stringKey_compat
    (fun a b h => by
      unfold IHashStringKeyEq at h ⊢
      exact decide_eq_true (of_decide_eq_true h).symm)
    (fun a b c h h1 => by
      unfold IHashStringKeyEq at h h1 ⊢
      exact decide_eq_true ((of_decide_eq_true h).trans (of_decide_eq_true h1)))
    [120] (by decide) 2 (by decide)
  exact ⟨by decide, by decide, by decide, found, h1, h2, h3⟩

/-- C11: on a reachable table with chains `cs`, `IHashEnum` with a callback that deletes,
by `IHashDelete`, the record it was just called with whenever `del` selects it (any set
of records) returns; the calls made are exactly `cs.flatten`, every record indexed at
the start once and none twice, and the table returned has the chains `cs` without the
selected records: the records indexed in it are those indexed at the start that were
not deleted, and it is the table reached by these `IHashDelete` calls.  `fuel` is at
least the bucket count and the entry count. -/
theorem IHashEnum_delete_current {ABS : Int → Int} {n : Int} {hashFn : K → Int}
    {sameKeyFn : K → K → Bool} {calls : List Call} {t : IHashTable K}
    (hrun : Run ABS true n hashFn sameKeyFn calls t) (del : Nat → Bool) {fuel : Nat}
    (hb : t.iht_nBuckets ≤ fuel) (he : IHashEntries t ≤ fuel) :
    ∃ cs t1, Rep t cs ∧
      IHashEnum (deleteCurrent ABS fuel del) fuel [] t = .ok (cs.flatten, t1) ∧
      cs.flatten.Nodup ∧ (∀ r, Indexed t r ↔ r ∈ cs.flatten) ∧
      Rep t1 (cs.map (List.filter fun r => !del r)) ∧
      (∀ r, Indexed t1 r ↔ Indexed t r ∧ del r = false) ∧
      Run ABS true n hashFn sameKeyFn
        (calls ++ (cs.flatten.filter del).map Call.delete) t1 ∧
      IHashEntries t1 = IHashEntries t - (cs.flatten.filter del).length := by
  obtain ⟨cs, hI, _⟩ := hrun.inv
  have hcount := hI.count
  have hlen := hI.rep.length_eq
  have hnb := hI.nBuckets_eq
  unfold IHashEntries at he ⊢
  have hchains : ∀ (b : Nat) (l : List Nat), cs[b]? = some l →
      l.length ≤ fuel ∧ l.length ≤ fuel := by
    intro b l hbl
    have := chain_length_le hbl
    omega
  obtain ⟨t1, he1, hrun1, hrep1, _⟩ :=
    enumLoop_deleteCurrent del fuel fuel cs.length fuel 0 [] t cs calls hrun hI.rep hchains
      rfl (by omega)
  simp only [List.drop_zero, List.take_zero, List.nil_append] at he1 hrun1 hrep1
  obtain ⟨cs1, hI1, _⟩ := hrun1.inv
  have hcs1 : cs.map (List.filter fun r => !del r) = cs1 := hrep1.chains_unique hI1.rep
  subst hcs1
  refine ⟨cs, t1, hI.rep, he1, hI.rep.nodup, hI.rep.indexed_iff, hrep1, ?_, hrun1, ?_⟩
  · intro r
    rw [hrep1.indexed_iff, hI.rep.indexed_iff, ← List.filter_flatten, List.mem_filter]
    simp
  · have h1 := hI1.count
    rw [← List.filter_flatten] at h1
    have h2 : cs.flatten.length = (cs.flatten.filter del).length +
        (cs.flatten.filter fun r => !del r).length :=
      List.length_eq_length_filter_add del
    omega

theorem IHashEnum_delete_current_witness :
    ∃ t1, (IHashEnum (deleteCurrent specABS 4 fun r => decide (r = 2)) 4 []
        ((addAll specABS 4 [1, 2, 3] (wordTable 1)).getD (wordTable 1))) =
        .ok ([1, 2, 3], t1) ∧
      ∀ r, Indexed t1 r ↔ r = 1 ∨ r = 3 := by
  obtain ⟨cs, t1, _, he, _, hidx, _, hidx1, _⟩ :=
    IHashEnum_delete_current wordTable_one_run.1 (fun r => decide (r = 2))
      (by decide : ((addAll specABS 4 [1, 2, 3] (wordTable 1)).getD (wordTable 1)).iht_nBuckets
        ≤ ((4 : Nat) : Int)) (by decide)
  have h1 : (IHashEnum (deleteCurrent specABS 4 fun r => decide (r = 2)) 4 []
      ((addAll specABS 4 [1, 2, 3] (wordTable 1)).getD (wordTable 1))).map Prod.fst =
      .ok [1, 2, 3] := by decide
  have hcs : cs.flatten = [1, 2, 3] := by
    rw [he] at h1
    injection h1
  rw [hcs] at he
  refine ⟨t1, he, ?_⟩
  intro r
  rw [hidx1, hidx, hcs]
  simp
  omega

/-- C12: on a reachable table with chains `cs` (chain `b` is the chain of bucket `b`,
front first), `IHashEnum` with a callback that does not change the table returns and
leaves the table as it was; the callback has been applied, one call after the other,
to the records of `cs.flatten`, the chains of buckets `0, 1, 2, ...` each from front
to back.  That list holds every indexed record once and nothing else, and its length
is `IHashEntries`.  `fuel` is at least the bucket count and the entry count. -/
theorem IHashEnum_visits_once {ABS : Int → Int} {keysFixed : Bool} {n : Int}
    {hashFn : K → Int} {sameKeyFn : K → K → Bool} {calls : List Call} {t : IHashTable K}
    (hrun : Run ABS keysFixed n hashFn sameKeyFn calls t) {fuel : Nat}
    (hb : t.iht_nBuckets ≤ fuel) (he : IHashEntries t ≤ fuel) :
    ∃ cs, Rep t cs ∧
      (∀ (σ : Type) (f : σ → IHashTable K → Nat → σ) (s : σ),
        IHashEnum (readOnly f) fuel s t = .ok (cs.flatten.foldl (fun s e => f s t e) s, t)) ∧
      IHashEnum (readOnly fun log _ e => log ++ [e]) fuel [] t = .ok (cs.flatten, t) ∧
      cs.flatten.Nodup ∧ (∀ r, Indexed t r ↔ r ∈ cs.flatten) ∧
      (cs.flatten.length : Int) = IHashEntries t := by
  obtain ⟨cs, hI, _⟩ := hrun.inv
  have hcount := hI.count
  have hlen := hI.rep.length_eq
  have hnb := hI.nBuckets_eq
  unfold IHashEntries at he ⊢
  have hall : ∀ (σ : Type) (f : σ → IHashTable K → Nat → σ) (s : σ),
      IHashEnum (readOnly f) fuel s t =
        .ok (cs.flatten.foldl (fun s e => f s t e) s, t) := by
    intro σ f s
    unfold IHashEnum
    rw [enumLoop_readOnly f hI.rep hI.nBuckets_eq (by omega) cs.length fuel 0 s rfl (by omega)]
    rfl
  refine ⟨cs, hI.rep, hall, ?_, hI.rep.nodup, hI.rep.indexed_iff, hcount.symm⟩
  rw [hall, foldl_log]
  rfl

theorem IHashEnum_visits_once_witness :
    ∃ cs, Rep ((addAll specABS 4 [1, 2, 3] (wordTable 1)).getD (wordTable 1)) cs ∧
      cs.flatten = [1, 2, 3] := by
  obtain ⟨cs, hrep, _, hlog, _⟩ :=
    IHashEnum_visits_once wordTable_one_run.1
      (by decide : ((addAll specABS 4 [1, 2, 3] (wordTable 1)).getD (wordTable 1)).iht_nBuckets
        ≤ ((4 : Nat) : Int)) (by decide)
  refine ⟨cs, hrep, ?_⟩
  have h1 : (IHashEnum (readOnly fun log _ e => log ++ [e]) 4 []
      ((addAll specABS 4 [1, 2, 3] (wordTable 1)).getD (wordTable 1))).map Prod.fst =
      .ok [1, 2, 3] := by decide
  rw [hlog] at h1
  injection h1

/-- C13, as stated, fails in a state reached with a record added while it is indexed:
after `IHashAdd` of record 1 twice on a fresh 4-bucket word-key table the entry count
is 2, and the walk of the bucket chains meets one record only, record 1, whose link
points to itself. -/
theorem nEntries_double_add :
    (runCalls ABS32 1 [Call.add 1, Call.add 1] (wordTable 4)).isOk = true ∧
    IHashEntries ((runCalls ABS32 1 [Call.add 1, Call.add 1] (wordTable 4)).getD
      (wordTable 4)) = 2 ∧
    ((runCalls ABS32 1 [Call.add 1, Call.add 1] (wordTable 4)).getD
      (wordTable 4)).iht_table = [0, 1, 0, 0] ∧
    ((runCalls ABS32 1 [Call.add 1, Call.add 1] (wordTable 4)).getD
      (wordTable 4)).mem_next 1 = 1 ∧
    ∀ r, Indexed ((runCalls ABS32 1 [Call.add 1, Call.add 1] (wordTable 4)).getD
      (wordTable 4)) r ↔ r = 1 := by
  have htab : ((runCalls ABS32 1 [Call.add 1, Call.add 1] (wordTable 4)).getD
      (wordTable 4)).iht_table = [0, 1, 0, 0] := by decide
  have hnext : ((runCalls ABS32 1 [Call.add 1, Call.add 1] (wordTable 4)).getD
      (wordTable 4)).mem_next 1 = 1 := by decide
  refine ⟨by decide, by decide, htab, hnext, ?_⟩
  intro r
  constructor
  · rintro ⟨b, _, hch⟩
    rw [htab] at hch
    have hstart : ([0, 1, 0, 0] : List Nat).getD b 0 = 0 ∨
        ([0, 1, 0, 0] : List Nat).getD b 0 = 1 := by
      rcases b with _ | _ | _ | _ | b <;> simp
    have h := OnChain.of_closed (fun q => q = 0 ∨ q = 1) hch hstart (by
      rintro q (rfl | rfl) hq
      · exact absurd rfl hq
      · exact Or.inr hnext)
    rcases h with h | h
    · exact absurd h hch.record_ne_zero
    · exact h
  · rintro rfl
    refine ⟨1, by rw [htab]; decide, ?_⟩
    rw [htab]
    exact OnChain.head (by decide)

/-- C13, amended: in every state reached from `IHashInit` (`n > 0`) by returned `IHashAdd`,
`IHashDelete` and `IHashClear` calls (records added only while not indexed), the state
right after a rebuild included, the bucket chains are finite lists `cs`, and
`iht_nEntries` is the sum of their lengths, which is the number of indexed records:
`cs.flatten` lists every indexed record exactly once. -/
theorem nEntries_eq_chain_total {ABS : Int → Int} {keysFixed : Bool} {n : Int}
    {hashFn : K → Int} {sameKeyFn : K → K → Bool} {calls : List Call} {t : IHashTable K}
    (hrun : Run ABS keysFixed n hashFn sameKeyFn calls t) :
    (∃ cs, Rep t cs) ∧
    ∀ cs, Rep t cs →
      t.iht_nEntries = ((cs.map List.length).sum : Nat) ∧
      (cs.map List.length).sum = cs.flatten.length ∧
      cs.flatten.Nodup ∧ ∀ r, Indexed t r ↔ r ∈ cs.flatten := by
  obtain ⟨cs0, hI, _⟩ := hrun.inv
  refine ⟨⟨cs0, hI.rep⟩, ?_⟩
  intro cs hcs
  have h : cs0 = cs := hI.rep.chains_unique hcs
  subst h
  refine ⟨?_, (List.length_flatten _).symm, hcs.nodup, hcs.indexed_iff⟩
  rw [hI.count, List.length_flatten]

theorem nEntries_eq_chain_total_witness :
    ((addAll specABS 4 [1, 2, 3] (wordTable 1)).getD (wordTable 1)).iht_nEntries = 3 ∧
    ∃ cs, Rep ((addAll specABS 4 [1, 2, 3] (wordTable 1)).getD (wordTable 1)) cs ∧
      (cs.map List.length).sum = 3 := by
  have h := nEntries_eq_chain_total wordTable_one_run.1
  obtain ⟨cs, hcs⟩ := h.1
  have h3 : ((addAll specABS 4 [1, 2, 3] (wordTable 1)).getD (wordTable 1)).iht_nEntries = 3 := by
    decide
  refine ⟨h3, cs, hcs, ?_⟩
  have h1 := (h.2 cs hcs).1
  rw [h3] at h1
  exact_mod_cast h1.symm

/-- C14: in every state reached from `IHashInit` (`n > 0`) by returned calls, with keys
unchanged while indexed and records added only while not indexed, the chains `cs`, one
per bucket of the current bucket count, hold every indexed record `r` in exactly one
chain, exactly once, and the index of that chain is `ABS(hash(key r)) % iht_nBuckets`,
which is `|hash(key r)| mod iht_nBuckets` where `ABS` gives the absolute value.  States
after a rebuild are among these states. -/
theorem placement_invariant {ABS : Int → Int} {n : Int} {hashFn : K → Int}
    {sameKeyFn : K → K → Bool} {calls : List Call} {t : IHashTable K}
    (hrun : Run ABS true n hashFn sameKeyFn calls t) :
    ∃ cs, Rep t cs ∧ (cs.length : Int) = t.iht_nBuckets ∧
      ∀ r, Indexed t r →
        ∃ (b : Nat) (l : List Nat), cs[b]? = some l ∧ l.count r = 1 ∧
          (∀ (b1 : Nat) (l1 : List Nat), cs[b1]? = some l1 → r ∈ l1 → b1 = b) ∧
          (b : Int) = Int.tmod (ABS (t.iht_hashFn (t.mem_key r))) t.iht_nBuckets ∧
          (ABS (t.iht_hashFn (t.mem_key r)) = |t.iht_hashFn (t.mem_key r)| →
            (b : Int) = |t.iht_hashFn (t.mem_key r)| % t.iht_nBuckets) := by
  obtain ⟨cs, hI, hPl, _⟩ := hrun.inv
  refine ⟨cs, hI.rep, ?_, ?_⟩
  · rw [hI.rep.length_eq, hI.nBuckets_eq]
  intro r hr
  obtain ⟨b, l, hb, hrl⟩ := mem_flatten_iff_getElem?.1 ((hI.rep.indexed_iff r).1 hr)
  have hslot := slotOf_eq_ok.1 (hPl rfl b l hb r hrl)
  have hbI : (b : Int) = Int.tmod (ABS (t.iht_hashFn (t.mem_key r))) t.iht_nBuckets := by
    rw [hslot.2.2.2, Int.toNat_of_nonneg hslot.2.1]
  refine ⟨b, l, hb, List.count_eq_one_of_mem (chain_nodup hI.rep.nodup hb) hrl, ?_, hbI, ?_⟩
  · intro b1 l1 hb1 hr1
    by_contra hne
    exact chains_disjoint hI.rep.nodup hb1 hb hne hr1 hrl
  · intro habs
    rw [hbI, habs, Int.tmod_eq_emod (abs_nonneg _) (le_of_lt hI.nBuckets_pos)]

theorem placement_invariant_witness :
    ∃ cs, Rep ((addAll specABS 4 [1, 2, 3] (wordTable 1)).getD (wordTable 1)) cs ∧
      (cs.length : Int) = 4 ∧ ∃ l, cs[3]? = some l ∧ l.count 3 = 1 := by
  obtain ⟨cs, h1, h2, h3⟩ := placement_invariant wordTable_one_run.1
  have hi : Indexed ((addAll specABS 4 [1, 2, 3] (wordTable 1)).getD (wordTable 1)) 3 := by
    rw [wordTable_one_run.1.indexed_of_adds (by decide)]
    decide
  obtain ⟨b, l, hb, hc, _, hslot, _⟩ := h3 3 hi
  have hb3 : (b : Int) = 3 := by
    rw [hslot]
    decide
  have hb3n : b = 3 := by exact_mod_cast hb3
  subst hb3n
  exact ⟨cs, h1, h2.trans wordTable_one_run.2, l, hb, hc⟩

/-- C15: with `ABS` a conditional negation in 32-bit `int` arithmetic, the hash `-2^31`
(returned by `IHashWordKeyHash` for the word `0x80000000`) is left at `-2^31`; with 3
buckets the index `ABS(h) % n` is `-2`, not `|h| mod 3 = 2`, and the array access of
`IHashLookUp`, `IHashAdd` and `IHashDelete` falls outside the bucket array.  For every
other 32-bit hash and every `n > 0` the index is in range and is `|h| mod n`. -/
theorem bucket_index_int_min :
    ABS32 (IHashWordKeyHash INT_MIN) = INT_MIN ∧
    Int.tmod (ABS32 (IHashWordKeyHash INT_MIN)) 3 = -2 ∧ |INT_MIN| % 3 = 2 ∧
    IHashLookUp ABS32 1 (wordTable 3) INT_MIN = .outOfBounds ∧
    IHashAdd ABS32 1 (minKeyTable 3) 1 = .outOfBounds ∧
    IHashDelete ABS32 1 (minKeyTable 3) 1 = .outOfBounds ∧
    ∀ h n : Int, INT_MIN < h → h ≤ INT_MAX → 0 < n →
      0 ≤ Int.tmod (ABS32 h) n ∧ Int.tmod (ABS32 h) n < n ∧
      Int.tmod (ABS32 h) n = |h| % n := by
  refine ⟨by decide, by decide, by decide, by decide, rfl, rfl, ?_⟩
  intro h n h1 h2 hn
  have habs : ABS32 h = |h| := by
    unfold ABS32 wrapInt
    unfold INT_MIN at h1
    unfold INT_MAX at h2
    split
    · rw [abs_of_nonneg (by assumption)]
    · rw [abs_of_neg (by omega)]
      omega
  rw [habs, Int.tmod_eq_emod (abs_nonneg _) (le_of_lt hn)]
  exact ⟨Int.emod_nonneg _ (by omega), Int.emod_lt_of_pos _ hn, rfl⟩

theorem bucket_index_int_min_witness :
    0 ≤ Int.tmod (ABS32 (-7)) 3 ∧ Int.tmod (ABS32 (-7)) 3 < 3 ∧
    Int.tmod (ABS32 (-7)) 3 = |(-7 : Int)| % 3 :=
  bucket_index_int_min.2.2.2.2.2.2 (-7) 3 (by decide) (by decide) (by decide)

/-- C16: with the accumulation and the final negation in wrapping 32-bit `int`
arithmetic, the text "2147483648" accumulates to `2^31`, which wraps to `-2^31`, and the
negation leaves `-2^31`: `IHashStringKeyHash` and `IHashStringPKeyHash` return a negative
value on it, and so does `IHash4WordKeyHash` on the 16 bytes "0000002147483648".  That
is the only way: each of the three hashes returns a non-negative value or `-2^31`. -/
theorem byte_hash_negative :
    IHashStringKeyHash [50, 49, 52, 55, 52, 56, 51, 54, 52, 56, 0] = -2147483648 ∧
    IHashStringPKeyHash (fun _ => [50, 49, 52, 55, 52, 56, 51, 54, 52, 56, 0]) 1 =
      -2147483648 ∧
    IHash4WordKeyHash
      (blockKey [48, 48, 48, 48, 48, 48, 50, 49, 52, 55, 52, 56, 51, 54, 52, 56]) =
      -2147483648 ∧
    (∀ s, 0 ≤ IHashStringKeyHash s ∨ IHashStringKeyHash s = INT_MIN) ∧
    (∀ text key, 0 ≤ IHashStringPKeyHash text key ∨ IHashStringPKeyHash text key = INT_MIN) ∧
    (∀ b, 0 ≤ IHash4WordKeyHash b ∨ IHash4WordKeyHash b = INT_MIN) := by
  refine ⟨by decide, by decide, by decide!, ?_, ?_, ?_⟩
  · intro s
    have hr := stringHashLoop_range s 0 (by decide) (by decide)
    unfold IHashStringKeyHash
    rcases negate_nonneg_or_min _ hr.1 hr.2 with h | h
    · exact Or.inl h.1
    · exact Or.inr h.1
  · intro text key
    have hr := stringHashLoop_range (text key) 0 (by decide) (by decide)
    unfold IHashStringPKeyHash
    rcases negate_nonneg_or_min _ hr.1 hr.2 with h | h
    · exact Or.inl h.1
    · exact Or.inr h.1
  · intro b
    have hr := iHashLoop_range b (4 * 4 : Int).toNat 0 0 (by decide) (by decide)
    unfold IHash4WordKeyHash iHash
    rcases negate_nonneg_or_min _ hr.1 hr.2 with h | h
    · exact Or.inl h.1
    · exact Or.inr h.1

/-- C17: for a text of decimal digits (most significant first, then the terminator)
whose value is below `2^31`, `IHashStringKeyHash` on the text and `IHashStringPKeyHash`
on a pointer to it return that value; "123" hashes to 123 and the empty text to 0.  In
general both are the left fold `hash := hash*10 + (byte - 48)` in 32-bit `int` over the
bytes in front of the terminator, negated when negative, and that is the absolute value
of the fold over the integers when no prefix leaves the range of `int`. -/
theorem string_hash_decimal :
    (∀ (digits : List Nat) (rest : List Int), (∀ d ∈ digits, d < 10) →
      Nat.ofDigits 10 digits.reverse < 2 ^ 31 →
      IHashStringKeyHash (digits.map (fun d : Nat => (d : Int) + 48) ++ 0 :: rest) =
        ((Nat.ofDigits 10 digits.reverse : Nat) : Int) ∧
      ∀ (text : Nat → List Int) (key : Nat),
        text key = digits.map (fun d : Nat => (d : Int) + 48) ++ 0 :: rest →
        IHashStringPKeyHash text key = ((Nat.ofDigits 10 digits.reverse : Nat) : Int)) ∧
    IHashStringKeyHash [49, 50, 51, 0] = 123 ∧ IHashStringKeyHash [0] = 0 ∧
    IHashStringPKeyHash (fun _ => [49, 50, 51, 0]) 1 = 123 ∧
    IHashStringPKeyHash (fun _ => [0]) 1 = 0 ∧
    (∀ s : List Int,
      IHashStringKeyHash s =
        (if (cString s).foldl (fun h c => wrapInt (h * 10 + (c - 48))) 0 < 0
          then wrapInt (-((cString s).foldl (fun h c => wrapInt (h * 10 + (c - 48))) 0))
          else (cString s).foldl (fun h c => wrapInt (h * 10 + (c - 48))) 0) ∧
      ∀ (text : Nat → List Int) (key : Nat), text key = s →
        IHashStringPKeyHash text key = IHashStringKeyHash s) ∧
    (∀ s : List Int,
      (∀ p, p <+: cString s →
        INT_MIN < p.foldl (fun h c => h * 10 + (c - 48)) 0 ∧
        p.foldl (fun h c => h * 10 + (c - 48)) 0 ≤ INT_MAX) →
      IHashStringKeyHash s = |(cString s).foldl (fun h c => h * 10 + (c - 48)) 0|) := by
  have hP : ∀ (s : List Int) (text : Nat → List Int) (key : Nat), text key = s →
      IHashStringPKeyHash text key = IHashStringKeyHash s := by
    intro s text key h
    unfold IHashStringPKeyHash IHashStringKeyHash
    rw [h]
  refine ⟨?_, by decide, by decide, by decide, by decide, ?_, ?_⟩
  · intro digits rest hd hlt
    have hfold : (Nat.ofDigits 10 digits.reverse : Nat) =
        digits.foldl (fun (y x : Nat) => x + 10 * y) 0 := by
      rw [Nat.ofDigits_eq_foldr, List.foldr_reverse]
      rfl
    have hloop := stringHashLoop_digits rest digits 0 hd (hfold ▸ hlt)
    have hkey : IHashStringKeyHash (digits.map (fun d : Nat => (d : Int) + 48) ++ 0 :: rest) =
        ((Nat.ofDigits 10 digits.reverse : Nat) : Int) := by
      unfold IHashStringKeyHash
      rw [show ((0 : Nat) : Int) = 0 from rfl] at hloop
      rw [hloop, hfold, if_neg (by omega)]
    exact ⟨hkey, fun text key h => (hP _ text key h).trans hkey⟩
  · intro s
    refine ⟨?_, hP s⟩
    unfold IHashStringKeyHash
    rw [stringHashLoop_eq_foldl]
  · intro s h
    have hw := foldl_wrapInt_eq (cString s) (fun p hp => ⟨le_of_lt (h p hp).1, (h p hp).2⟩)
    have hr := h (cString s) (List.prefix_refl _)
    unfold IHashStringKeyHash
    rw [stringHashLoop_eq_foldl, hw]
    rcases negate_nonneg_or_min _ (le_of_lt hr.1) hr.2 with h1 | h1
    · exact h1.2.1
    · exact absurd h1.2 (ne_of_gt hr.1)

theorem string_hash_decimal_witness :
    IHashStringKeyHash ([1, 2, 3].map (fun d : Nat => (d : Int) + 48) ++ 0 :: [55]) =
      ((Nat.ofDigits 10 [1, 2, 3].reverse : Nat) : Int) ∧
    ((Nat.ofDigits 10 [1, 2, 3].reverse : Nat) : Int) = 123 :=
  ⟨(string_hash_decimal.1 [1, 2, 3] [55] (by decide) (by decide)).1, by decide⟩

/-- C18, as stated, fails in a state reached with a record added while it is indexed:
on a fresh 4-bucket word-key table record 1 is added twice, so that its link points to
itself, and is then deleted three times; every call returns, each `IHashDelete` finds
record 1 at the head of its chain, leaves it there and lowers the count, which ends
at -1. -/
theorem nEntries_negative :
    (runCalls ABS32 1
      [Call.add 1, Call.add 1, Call.delete 1, Call.delete 1, Call.delete 1]
      (wordTable 4)).isOk = true ∧
    IHashEntries ((runCalls ABS32 1
      [Call.add 1, Call.add 1, Call.delete 1, Call.delete 1, Call.delete 1]
      (wordTable 4)).getD (wordTable 4)) = -1 ∧
    ¬ (0 ≤ IHashEntries ((runCalls ABS32 1
      [Call.add 1, Call.add 1, Call.delete 1, Call.delete 1, Call.delete 1]
      (wordTable 4)).getD (wordTable 4))) := by
  decide

/-- C18, amended: in every state reached from `IHashInit` (`n > 0`) by returned `IHashAdd`,
`IHashDelete` and `IHashClear` calls (records added only while not indexed),
`0 ≤ iht_nEntries < 3 * iht_nBuckets`; the bucket count is positive and is the length
of the bucket array, and the chains hold fewer than three records per bucket on
average. -/
theorem load_factor_bound {ABS : Int → Int} {keysFixed : Bool} {n : Int}
    {hashFn : K → Int} {sameKeyFn : K → K → Bool} {calls : List Call} {t : IHashTable K}
    (hrun : Run ABS keysFixed n hashFn sameKeyFn calls t) :
    0 ≤ IHashEntries t ∧ IHashEntries t < 3 * t.iht_nBuckets ∧ 0 < t.iht_nBuckets ∧
    t.iht_nBuckets = t.iht_table.length ∧
    ∃ cs, Rep t cs ∧ cs.flatten.length < 3 * cs.length := by
  obtain ⟨cs, hI, _⟩ := hrun.inv
  have hload := hI.load
  have hcount := hI.count
  have hnb := hI.nBuckets_eq
  have hlen := hI.rep.length_eq
  unfold iHashResizeRatio at hload
  unfold IHashEntries
  refine ⟨by omega, hload, hI.nBuckets_pos, hnb, cs, hI.rep, ?_⟩
  omega

theorem load_factor_bound_witness :
    0 ≤ IHashEntries ((addAll specABS 1 (List.range' 1 11) (wordTable 4)).getD (wordTable 4)) ∧
    IHashEntries ((addAll specABS 1 (List.range' 1 11) (wordTable 4)).getD (wordTable 4)) <
      3 * ((addAll specABS 1 (List.range' 1 11) (wordTable 4)).getD (wordTable 4)).iht_nBuckets :=
  ⟨(load_factor_bound wordTable_four_run).1, (load_factor_bound wordTable_four_run).2.1⟩

/-- C19: for each of the four predefined strategies, keys that the equality function
accepts have the same hash, and the equality function is reflexive, symmetric and
transitive.  String-pointer keys are compared and hashed through the text they point
to, 4-word keys through their first 16 bytes. -/
theorem strategy_hash_respects_eq :
    ((∀ text k1 k2, IHashStringPKeyEq text k1 k2 = true →
        IHashStringPKeyHash text k1 = IHashStringPKeyHash text k2) ∧
      (∀ text k, IHashStringPKeyEq text k k = true) ∧
      (∀ text k1 k2, IHashStringPKeyEq text k1 k2 = true →
        IHashStringPKeyEq text k2 k1 = true) ∧
      (∀ text k1 k2 k3, IHashStringPKeyEq text k1 k2 = true →
        IHashStringPKeyEq text k2 k3 = true → IHashStringPKeyEq text k1 k3 = true)) ∧
    ((∀ k1 k2, IHashStringKeyEq k1 k2 = true →
        IHashStringKeyHash k1 = IHashStringKeyHash k2) ∧
      (∀ k, IHashStringKeyEq k k = true) ∧
      (∀ k1 k2, IHashStringKeyEq k1 k2 = true → IHashStringKeyEq k2 k1 = true) ∧
      (∀ k1 k2 k3, IHashStringKeyEq k1 k2 = true → IHashStringKeyEq k2 k3 = true →
        IHashStringKeyEq k1 k3 = true)) ∧
    ((∀ k1 k2, IHashWordKeyEq k1 k2 = true → IHashWordKeyHash k1 = IHashWordKeyHash k2) ∧
      (∀ k, IHashWordKeyEq k k = true) ∧
      (∀ k1 k2, IHashWordKeyEq k1 k2 = true → IHashWordKeyEq k2 k1 = true) ∧
      (∀ k1 k2 k3, IHashWordKeyEq k1 k2 = true → IHashWordKeyEq k2 k3 = true →
        IHashWordKeyEq k1 k3 = true)) ∧
    ((∀ k1 k2, IHash4WordKeyEq k1 k2 = true → IHash4WordKeyHash k1 = IHash4WordKeyHash k2) ∧
      (∀ k, IHash4WordKeyEq k k = true) ∧
      (∀ k1 k2, IHash4WordKeyEq k1 k2 = true → IHash4WordKeyEq k2 k1 = true) ∧
      (∀ k1 k2 k3, IHash4WordKeyEq k1 k2 = true → IHash4WordKeyEq k2 k3 = true →
        IHash4WordKeyEq k1 k3 = true)) := by
  refine ⟨⟨stringPKey_compat, ?_, ?_, ?_⟩, ⟨stringKey_compat, ?_, ?_, ?_⟩,
    ⟨wordKey_compat, ?_, ?_, ?_⟩, ⟨fourWordKey_compat, ?_, ?_, ?_⟩⟩
  · intro text k
    simp [IHashStringPKeyEq]
  · intro text k1 k2 h
    simp only [IHashStringPKeyEq, decide_eq_true_eq] at *
    exact h.symm
  · intro text k1 k2 k3 h1 h2
    simp only [IHashStringPKeyEq, decide_eq_true_eq] at *
    exact h1.trans h2
  · intro k
    simp [IHashStringKeyEq]
  · intro k1 k2 h
    simp only [IHashStringKeyEq, decide_eq_true_eq] at *
    exact h.symm
  · intro k1 k2 k3 h1 h2
    simp only [IHashStringKeyEq, decide_eq_true_eq] at *
    exact h1.trans h2
  · intro k
    simp [IHashWordKeyEq]
  · intro k1 k2 h
    simp only [IHashWordKeyEq, decide_eq_true_eq] at *
    exact h.symm
  · intro k1 k2 k3 h1 h2
    simp only [IHashWordKeyEq, decide_eq_true_eq] at *
    exact h1.trans h2
  · intro k
    simp [IHash4WordKeyEq]
  · intro k1 k2 h
    simp only [IHash4WordKeyEq, decide_eq_true_eq] at *
    exact h.symm
  · intro k1 k2 k3 h1 h2
    simp only [IHash4WordKeyEq, decide_eq_true_eq] at *
    exact h1.trans h2

theorem strategy_hash_respects_eq_witness :
    IHashStringKeyEq [120, 0, 55] [120, 0] = true ∧
    IHashStringKeyHash [120, 0, 55] = IHashStringKeyHash [120, 0] :=
  ⟨by decide, strategy_hash_respects_eq.2.1.1 [120, 0, 55] [120, 0] (by decide)⟩

end IHash
